import Mathlib

/-! Spelling checker: shallow embedding of `spell_checker.c`.

Modelling conventions.

* A word is the byte content of a C string.  `stricmp` (`strcasecmp` on Linux)
  folds ASCII upper case to lower case, compares bytes as unsigned values and
  stops at the first NUL byte, so a NUL inside the list ends the string.
* An `arrayList` keeps the two parallel C arrays `words` and `accessCount` as
  two lists holding exactly the `wordCount` initialised cells; `wordCount` is
  the length of `words`.  `size` is the allocated capacity.
* C `int` indices are `Int`.  A read or write at an index outside the
  initialised cells is undefined behaviour in C and is `none` here.
* Loops carry a fuel argument (structural recursion); running out of fuel is
  `none` as well.  The theorems below show that the fuel handed out by the
  top-level functions is always enough.
* Hit counts come in two readings.  The functions named after the source
  (`arrayListTouchWord`, `checkWord`, ...) take them as unbounded naturals
  that start at `0` and are incremented by `c + 1`.  Their twins with the
  suffix `32` (`arrayListTouchWord32`, `checkWord32`, ..., and `runMain`
  built on them) follow the 32-bit `int` of the source: a cell of
  `accessCount` holds the bit pattern of the `int`, `++` wraps round from
  `INT_MAX` to `INT_MIN` (`intIncr`) and comparisons are made on the signed
  value (`intVal`).  The two readings agree as long as every hit count stays
  below `INT_MAX` (`touch32_eq`, `checkWord32_eq`, `checkTextFile32_eq`).
-/

namespace SpellChecker

/-- A word: the bytes of a C string (the terminator is implicit). -/
abbrev Word := List Nat

/-- `tolower` of the C locale on an unsigned byte value. -/
def tolower (c : Nat) : Nat := if 65 ≤ c ∧ c ≤ 90 then c + 32 else c

/-- `strcasecmp`: difference of the first pair of folded bytes that differ,
an exhausted list reading as the terminator `0`. -/
def stricmp : Word → Word → Int
  | [], [] => 0
  | [], b :: _ => 0 - (tolower b : Int)
  | a :: _, [] => (tolower a : Int) - 0
  | a :: as, b :: bs =>
    if tolower a = tolower b then (if a = 0 then 0 else stricmp as bs)
    else (tolower a : Int) - (tolower b : Int)

/-- `strlen`: number of bytes before the first NUL. -/
def strlen (w : Word) : Nat := (w.takeWhile (fun c => c != 0)).length

/-- The `arrayList` struct. -/
structure arrayList where
  words : List Word
  accessCount : List Nat
  size : Int
  deriving DecidableEq, Repr

/-- The field `wordCount`: the number of initialised cells. -/
def wordCount (list : arrayList) : Int := (list.words.length : Int)

/-- Array read `a[i]`; `none` outside the initialised cells. -/
def rd {α : Type} (a : List α) (i : Int) : Option α :=
  if 0 ≤ i then a[i.toNat]? else none

/-- Array write `a[i] = x`; `none` outside the initialised cells. -/
def wr {α : Type} (a : List α) (i : Int) (x : α) : Option (List α) :=
  if 0 ≤ i ∧ i < (a.length : Int) then some (a.set i.toNat x) else none

/-- `arrayListCreate(initialSize)`. -/
def arrayListCreate (initialSize : Int) : arrayList :=
  { words := [], accessCount := [], size := initialSize }

/-- `arrayListAdd`: doubles `size` when full, then stores the word with hit
count `0` in the cell at index `wordCount`; `none` when that cell lies outside
the allocated capacity. -/
def arrayListAdd (list : arrayList) (word : Word) : Option arrayList :=
  let list1 : arrayList :=
    if wordCount list = list.size then { list with size := list.size * 2 } else list
  if wordCount list1 < list1.size then
    some { list1 with words := list1.words ++ [word],
                      accessCount := list1.accessCount ++ [0] }
  else none

/-- `arrayListSwapElements`. -/
def arrayListSwapElements (list : arrayList) (i j : Int) : Option arrayList := do
  let strTemp ← rd list.words i
  let iTemp ← rd list.accessCount i
  let wj ← rd list.words j
  let ws1 ← wr list.words i wj
  let cj ← rd list.accessCount j
  let cs1 ← wr list.accessCount i cj
  let ws2 ← wr ws1 j strTemp
  let cs2 ← wr cs1 j iTemp
  some { list with words := ws2, accessCount := cs2 }

/-- The `while` loop of `arrayListTouchWord`. -/
def touchLoop : Nat → arrayList → Int → Option arrayList
  | 0, _, _ => none
  | fuel + 1, list, index =>
    if index > 0 then do
      let a ← rd list.accessCount index
      let b ← rd list.accessCount (index - 1)
      if a > b then do
        let list1 ← arrayListSwapElements list index (index - 1)
        touchLoop fuel list1 (index - 1)
      else some list
    else some list

/-- `arrayListTouchWord`. -/
def arrayListTouchWord (list : arrayList) (index : Int) : Option arrayList := do
  let c ← rd list.accessCount index
  let cs ← wr list.accessCount index (c + 1)
  touchLoop (index.toNat + 1) { list with accessCount := cs } index

/-- `arrayListBinarySearch`, with fuel for the recursion. -/
def binarySearchFuel : Nat → arrayList → Int → Int → Word → Option (Bool × arrayList)
  | 0, _, _, _, _ => none
  | fuel + 1, list, left, right, key =>
    if left > right then some (false, list)
    else
      let middle := (left + right).tdiv 2
      match rd list.words middle with
      | none => none
      | some w =>
        if stricmp w key = 0 then
          (arrayListTouchWord list middle).map (fun list1 => (true, list1))
        else if stricmp w key < 0 then binarySearchFuel fuel list (middle + 1) right key
        else binarySearchFuel fuel list left (middle - 1) key

/-- `arrayListBinarySearch`. -/
def arrayListBinarySearch (list : arrayList) (left right : Int) (key : Word) :
    Option (Bool × arrayList) :=
  binarySearchFuel ((right - left).toNat + 2) list left right key

/-- The inner `do { i++; } while (i<j && stricmp(words[i], words[pivot]) < 0)`
of `partition`; returns the final `i`. -/
def partitionI : Nat → List Word → Int → Int → Int → Option Int
  | 0, _, _, _, _ => none
  | fuel + 1, words, pivot, i, j =>
    let i1 := i + 1
    if i1 < j then
      match rd words i1, rd words pivot with
      | some wi, some wp =>
        if stricmp wi wp < 0 then partitionI fuel words pivot i1 j else some i1
      | _, _ => none
    else some i1

/-- The inner `while (stricmp(words[pivot], words[j]) < 0) j--` of
`partition`; returns the final `j`. -/
def partitionJ : Nat → List Word → Int → Int → Option Int
  | 0, _, _, _ => none
  | fuel + 1, words, pivot, j =>
    match rd words pivot, rd words j with
    | some wp, some wj =>
      if stricmp wp wj < 0 then partitionJ fuel words pivot (j - 1) else some j
    | _, _ => none

/-- The outer `do ... while (i<j)` of `partition`; returns the list and the
final `j`. -/
def partitionLoop : Nat → arrayList → Int → Int → Int → Option (arrayList × Int)
  | 0, _, _, _, _ => none
  | fuel + 1, list, pivot, i, j =>
    match partitionI (list.words.length + 1) list.words pivot i j with
    | none => none
    | some i1 =>
      match partitionJ (list.words.length + 1) list.words pivot j with
      | none => none
      | some j1 =>
        if i1 < j1 then
          match arrayListSwapElements list i1 j1 with
          | none => none
          | some list1 =>
            if i1 < j1 - 1 then partitionLoop fuel list1 pivot i1 (j1 - 1)
            else some (list1, j1 - 1)
        else some (list, j1)

/-- `partition`. -/
def partition (list : arrayList) (left right : Int) : Option (arrayList × Int) :=
  match partitionLoop (list.words.length + 1) list left left right with
  | none => none
  | some (list1, j) =>
    (arrayListSwapElements list1 left j).map (fun list2 => (list2, j))

/-- `arrayListQuickSort`, with fuel for the recursion depth. -/
def quickSortFuel : Nat → arrayList → Int → Int → Option arrayList
  | 0, _, _, _ => none
  | fuel + 1, list, left, right =>
    if left < right then
      match partition list left right with
      | none => none
      | some (list1, pivot) =>
        match quickSortFuel fuel list1 left (pivot - 1) with
        | none => none
        | some list2 => quickSortFuel fuel list2 (pivot + 1) right
    else some list

/-- `arrayListQuickSort`. -/
def arrayListQuickSort (list : arrayList) (left right : Int) : Option arrayList :=
  quickSortFuel ((right - left).toNat + 1) list left right

/-- The value of a `char` holding the byte `b` (`char` is signed 8-bit). -/
def toChar (b : Nat) : Int :=
  if b % 256 < 128 then ((b % 256 : Nat) : Int) else ((b % 256 : Nat) : Int) - 256

/-- The expression `word[0]`: the first byte, or the terminator. -/
def firstChar (word : Word) : Int := toChar (word.headD 0)

/-- `indexOfChar`. -/
def indexOfChar (ch : Int) : Int :=
  if ch ≥ 97 then ch - 97 else ch - 65

/-- The dictionary: the slots of the `arrayList**` array, `none` for `NULL`. -/
abbrev Dictionary := List (Option arrayList)

/-- The dictionary `main` starts from, every one of the 26 slots absent. -/
def emptyDictionary : Dictionary := List.replicate 26 none

/-- The `while` loop of `checkWord`: `Sum.inl` is the early `return true`
with the touched list, `Sum.inr` the value of `i` when the loop ends. -/
def checkWordScan : Nat → arrayList → Word → Int → Option (arrayList ⊕ Int)
  | 0, _, _, _ => none
  | fuel + 1, list, word, i =>
    if i < wordCount list then
      match rd list.accessCount i with
      | none => none
      | some c =>
        if c ≠ 0 then
          match rd list.words i with
          | none => none
          | some w =>
            if stricmp w word = 0 then
              (arrayListTouchWord list i).map Sum.inl
            else checkWordScan fuel list word (i + 1)
        else some (Sum.inr i)
    else some (Sum.inr i)

/-- The body of `checkWord` once the bucket `list` is known to be present. -/
def checkWordList (list : arrayList) (word : Word) : Option (Bool × arrayList) :=
  match checkWordScan (list.words.length + 1) list word 0 with
  | none => none
  | some (Sum.inl list1) => some (true, list1)
  | some (Sum.inr i) =>
    if i = wordCount list then some (false, list)
    else arrayListBinarySearch list i (wordCount list - 1) word

/-- `checkWord`: `none` when `dictionary[indexOfChar(word[0])]` is not one of
the slots. -/
def checkWord (word : Word) (dictionary : Dictionary) : Option (Bool × Dictionary) :=
  let index := indexOfChar (firstChar word)
  match rd dictionary index with
  | none => none
  | some none => some (false, dictionary)
  | some (some list) =>
    (checkWordList list word).map
      (fun r => (r.1, dictionary.set index.toNat (some r.2)))

/-- `fillDictionary` over the tokens `readWordFromFile` yields. -/
def fillDictionary (dictionary : Dictionary) : List Word → Option Dictionary
  | [] => some dictionary
  | line :: rest =>
    if strlen line > 0 then
      let index := indexOfChar (firstChar line)
      match rd dictionary index with
      | none => none
      | some slot =>
        let list := match slot with
          | none => arrayListCreate 2
          | some l => l
        match arrayListAdd list line with
        | none => none
        | some list1 => fillDictionary (dictionary.set index.toNat (some list1)) rest
    else fillDictionary dictionary rest

/-- Exchange of the cells `i` and `j` of a list (no change when an index is
outside the list). -/
def swapL {α : Type} (l : List α) (i j : Nat) : List α :=
  match l[i]?, l[j]? with
  | some a, some b => (l.set i b).set j a
  | _, _ => l

/-- The two arrays of a list have the same number of initialised cells. -/
def WF (list : arrayList) : Prop := list.accessCount.length = list.words.length

/-- The word in cell `k` (the empty word outside the list). -/
def wordAt (ws : List Word) (k : Nat) : Word := ws.getD k []

/-- The case-insensitive order `stricmp a b <= 0`. -/
def ciLe (a b : Word) : Prop := stricmp a b ≤ 0

/-- Case-insensitive equality `stricmp a b == 0`. -/
def ciEq (a b : Word) : Prop := stricmp a b = 0

instance (a b : Word) : Decidable (ciLe a b) := by unfold ciLe; infer_instance

instance (a b : Word) : Decidable (ciEq a b) := by unfold ciEq; infer_instance

/-- `list1` arises from `list` by rearranging cells with index in `[lo, hi)`:
the cells outside are untouched, every word inside comes from inside, and the
(word, hit count) cells are the same up to order. -/
def Frame (lo hi : Nat) (list list1 : arrayList) : Prop :=
  list1.words.length = list.words.length ∧
  list1.accessCount.length = list.accessCount.length ∧
  list1.size = list.size ∧
  (∀ k : Nat, (k < lo ∨ hi ≤ k) →
    list1.words[k]? = list.words[k]? ∧ list1.accessCount[k]? = list.accessCount[k]?) ∧
  (∀ k : Nat, lo ≤ k → k < hi → ∃ k1 : Nat, lo ≤ k1 ∧ k1 < hi ∧
    list1.words[k]? = list.words[k1]?) ∧
  (list1.words.zip list1.accessCount).Perm (list.words.zip list.accessCount)

/-- The words in cells `[lo, hi)` are in ascending case-insensitive order. -/
def SortedOn (lo hi : Nat) (ws : List Word) : Prop :=
  ∀ a b : Nat, lo ≤ a → a < b → b < hi → ciLe (wordAt ws a) (wordAt ws b)

instance (list : arrayList) : Decidable (WF list) := by unfold WF; infer_instance

/-- The list `l` with cell `i` taken out and `x` put in at `p` (`p <= i`): the
cells `p .. i-1` move one place to the right. -/
def moveCell {α : Type} (l : List α) (i p : Nat) (x : α) : List α :=
  l.take p ++ x :: ((l.take i).drop p ++ l.drop (i + 1))

/-- The index at which the `while` loop of `arrayListTouchWord` stops when it
starts at index `k` with the incremented count `c + 1`. -/
def touchPos (cs : List Nat) (c : Nat) : Nat → Nat
  | 0 => 0
  | k + 1 => if c + 1 > cs.getD k 0 then touchPos cs c k else k + 1

/-- The store after `arrayListTouchWord(list, i)`, in closed form. -/
def touched (list : arrayList) (i : Nat) : arrayList :=
  { list with
    words := moveCell list.words i (touchPos list.accessCount (list.accessCount.getD i 0) i)
      (wordAt list.words i),
    accessCount := moveCell list.accessCount i
      (touchPos list.accessCount (list.accessCount.getD i 0) i)
      (list.accessCount.getD i 0 + 1) }

/-- The first index whose hit count is zero (the number of counts when there
is none): the index at which the scan of `checkWord` stops. -/
def firstZero : List Nat → Nat
  | [] => 0
  | c :: cs => if c = 0 then 0 else firstZero cs + 1

/-- Hit counts are non-increasing over the whole array. -/
def NonInc (cs : List Nat) : Prop := cs.Pairwise (fun a b => b ≤ a)

/-- The suffix starting at the first zero-hit index is sorted ascending
case-insensitively. -/
def ColdSorted (list : arrayList) : Prop :=
  (list.words.drop (firstZero list.accessCount)).Pairwise ciLe

/-- The hot/cold invariant of a store. -/
def HotCold (list : arrayList) : Prop :=
  WF list ∧ NonInc list.accessCount ∧ ColdSorted list

instance (cs : List Nat) : Decidable (NonInc cs) := by unfold NonInc; infer_instance

instance (list : arrayList) : Decidable (ColdSorted list) := by
  unfold ColdSorted; infer_instance

instance (list : arrayList) : Decidable (HotCold list) := by unfold HotCold; infer_instance

/-- The cell of the store before `arrayListTouchWord(list, i)` that ends up in
cell `k`, the touched word landing in cell `p`. -/
def srcIdx (i p k : Nat) : Nat :=
  if k < p then k else if k = p then i else if k ≤ i then k - 1 else k

/-- A sequence of `arrayListTouchWord` calls on one store. -/
def touchAll (list : arrayList) : List Int → Option arrayList
  | [] => some list
  | i :: rest =>
    match arrayListTouchWord list i with
    | none => none
    | some list1 => touchAll list1 rest

/-- A sequence of lookups (`checkWord` bodies) on one store; the answers are
dropped, the store is threaded through. -/
def lookupAll (list : arrayList) : List Word → Option arrayList
  | [] => some list
  | w :: rest =>
    match checkWordList list w with
    | none => none
    | some r => lookupAll r.2 rest

/-- The number of lookups in `qs` whose word is case-insensitively equal to `w`. -/
def lookupCount (qs : List Word) (w : Word) : Nat :=
  qs.countP (fun q => decide (stricmp q w = 0))

/-- The (word, hit count) cells of a store. -/
def cells (list : arrayList) : List (Word × Nat) := list.words.zip list.accessCount

/-- The invariant of a sequence of lookups: hot/cold shape, pairwise distinct
words, and every hit count equal to the number of matching lookups so far. -/
def Counted (list : arrayList) (done : List Word) : Prop :=
  HotCold list ∧
  (cells list).Pairwise (fun x y => ¬ stricmp x.1 y.1 = 0) ∧
  ∀ x ∈ cells list, x.2 = lookupCount done x.1

/-- The character is an ASCII letter `A..Z` or `a..z`. -/
def isLetter (ch : Int) : Prop := (65 ≤ ch ∧ ch ≤ 90) ∨ (97 ≤ ch ∧ ch ≤ 122)

instance (ch : Int) : Decidable (isLetter ch) := by unfold isLetter; infer_instance

/-- A slot is absent or holds a store whose two arrays have the same length. -/
def slotWF : Option arrayList → Prop
  | none => True
  | some list => WF list

instance (s : Option arrayList) : Decidable (slotWF s) := by
  cases s <;> unfold slotWF <;> infer_instance

/-- Every store of the dictionary has as many hit counts as words. -/
def DictWF (d : Dictionary) : Prop := ∀ s ∈ d, slotWF s

instance (d : Dictionary) : Decidable (DictWF d) := by unfold DictWF; infer_instance

/-- The words of a slot. -/
def slotWords : Option arrayList → List Word
  | none => []
  | some list => list.words

/-- All the words stored in the dictionary, bucket after bucket. -/
def dictWords (d : Dictionary) : List Word := d.flatMap slotWords

/-- Two slots are both absent, or both present with the same number of words
and the same multiset of words. -/
def slotSameWords : Option arrayList → Option arrayList → Prop
  | none, none => True
  | some a, some b => wordCount b = wordCount a ∧ b.words.Perm a.words
  | _, _ => False

/-- A dictionary with the single bucket `c` (index 2) holding the hot word
`cat` (one hit) before the cold word `cab`. -/
def sampleDictionary : Dictionary :=
  emptyDictionary.set 2 (some ⟨[[99, 97, 116], [99, 97, 98]], [1, 0], 2⟩)

/-- A store with hot prefix `dog(2) cat(1)` and cold suffix `ant bee`. -/
def sampleStore : arrayList :=
  ⟨[[100, 111, 103], [99, 97, 116], [97, 110, 116], [98, 101, 101]], [2, 1, 0, 0], 4⟩

/-- A store with hit counts `3 1 1 1 0`. -/
def sampleHotStore : arrayList :=
  ⟨[[100], [99], [97], [98], [101]], [3, 1, 1, 1, 0], 8⟩

/-- The indices of the array cells `arrayListSwapElements(list, i, j)` reads
or writes, in program order. -/
def swapAccesses (i j : Int) : List Int := [i, i, j, i, j, i, j, j]

/-- The loop `partitionI` instrumented: it also returns the indices of the
cells of `words` it reads, in order. -/
def partitionITrace : Nat → List Word → Int → Int → Int → Option (Int × List Int)
  | 0, _, _, _, _ => none
  | fuel + 1, words, pivot, i, j =>
    let i1 := i + 1
    if i1 < j then
      match rd words i1, rd words pivot with
      | some wi, some wp =>
        if stricmp wi wp < 0 then
          (partitionITrace fuel words pivot i1 j).map (fun r => (r.1, i1 :: pivot :: r.2))
        else some (i1, [i1, pivot])
      | _, _ => none
    else some (i1, [])

/-- The loop `partitionJ` instrumented with the indices it reads. -/
def partitionJTrace : Nat → List Word → Int → Int → Option (Int × List Int)
  | 0, _, _, _ => none
  | fuel + 1, words, pivot, j =>
    match rd words pivot, rd words j with
    | some wp, some wj =>
      if stricmp wp wj < 0 then
        (partitionJTrace fuel words pivot (j - 1)).map (fun r => (r.1, pivot :: j :: r.2))
      else some (j, [pivot, j])
    | _, _ => none

/-- The loop `partitionLoop` instrumented with the indices it reads or writes. -/
def partitionLoopTrace :
    Nat → arrayList → Int → Int → Int → Option ((arrayList × Int) × List Int)
  | 0, _, _, _, _ => none
  | fuel + 1, list, pivot, i, j =>
    match partitionITrace (list.words.length + 1) list.words pivot i j with
    | none => none
    | some (i1, t1) =>
      match partitionJTrace (list.words.length + 1) list.words pivot j with
      | none => none
      | some (j1, t2) =>
        if i1 < j1 then
          match arrayListSwapElements list i1 j1 with
          | none => none
          | some list1 =>
            if i1 < j1 - 1 then
              (partitionLoopTrace fuel list1 pivot i1 (j1 - 1)).map
                (fun r => (r.1, t1 ++ t2 ++ swapAccesses i1 j1 ++ r.2))
            else some ((list1, j1 - 1), t1 ++ t2 ++ swapAccesses i1 j1)
        else some ((list, j1), t1 ++ t2)

/-- The function `partition` instrumented: the result of `partition` together
with the indices of all the array cells read or written, in order. -/
def partitionTrace (list : arrayList) (left right : Int) :
    Option ((arrayList × Int) × List Int) :=
  match partitionLoopTrace (list.words.length + 1) list left left right with
  | none => none
  | some ((list1, j), t) =>
    (arrayListSwapElements list1 left j).map
      (fun list2 => ((list2, j), t ++ swapAccesses left j))

/-- The store `b A c a B a` with hit counts numbering the cells. -/
def samplePartitionStore : arrayList :=
  ⟨[[98], [65], [99], [97], [66], [97]], [0, 1, 2, 3, 4, 5], 8⟩

/-- The `while` loop of `arrayListPrintMostAccessed`: the (word, hit count)
items printed from index `i` on; `none` when a cell outside the initialised
cells is read. -/
def printMostAccessedLoop : Nat → arrayList → Int → Option (List (Word × Nat))
  | 0, _, _ => none
  | fuel + 1, list, i =>
    match rd list.accessCount i with
    | none => none
    | some c =>
      if c ≠ 0 then
        match rd list.words i with
        | none => none
        | some w => (printMostAccessedLoop fuel list (i + 1)).map (fun out => (w, c) :: out)
      else some []

/-- `arrayListPrintMostAccessed`: the (word, hit count) items it prints, in
order. -/
def arrayListPrintMostAccessed (list : arrayList) : Option (List (Word × Nat)) :=
  match rd list.accessCount 0 with
  | none => none
  | some c0 =>
    match (if c0 ≠ 0 then (rd list.words 0).map (fun w => [(w, c0)]) else some []) with
    | none => none
    | some out0 =>
      (printMostAccessedLoop (list.accessCount.length + 1) list 1).map (fun out => out0 ++ out)

/-- The constant `AVG_WORD_LEN`. -/
def AVG_WORD_LEN : Int := 6

/-- The value of `currentMax` after `currentMax *= 1.5`: the product in
`double`, converted back to `int` by truncation. -/
def growCapacity (currentMax : Int) : Int := (currentMax * 3).tdiv 2

/-- The local state of `readWordFromFile`, with a record of what it did: the
bytes pushed to the buffer so far (`currentLen` is their number), the capacity
`currentMax`, every write `buffer[index] = ...` as the pair of the index and
the capacity at that moment, and every growth step as the pair of the old and
the new capacity. -/
structure ReadState where
  pushed : List Nat
  currentMax : Int
  writes : List (Int × Int)
  grows : List (Int × Int)
  deriving DecidableEq, Repr

/-- The field `currentLen`. -/
def ReadState.currentLen (s : ReadState) : Int := (s.pushed.length : Int)

/-- The state before the loop: `buffer[0] = 0` written in a buffer of
`AVG_WORD_LEN` bytes, nothing pushed. -/
def readStart : ReadState :=
  { pushed := [], currentMax := AVG_WORD_LEN, writes := [(0, AVG_WORD_LEN)], grows := [] }

/-- One iteration of the loop body for the byte `b`: grow when full, then
`buffer[currentLen] = ch; currentLen++`. -/
def readPush (s : ReadState) (b : Nat) : ReadState :=
  let s1 : ReadState :=
    if s.currentLen = s.currentMax then
      { s with currentMax := growCapacity s.currentMax,
               grows := s.grows ++ [(s.currentMax, growCapacity s.currentMax)] }
    else s
  { s1 with pushed := s1.pushed ++ [b],
            writes := s1.writes ++ [(s1.currentLen, s1.currentMax)] }

/-- The code after the loop: one more byte when full, then the terminator
`buffer[currentLen] = 0`. -/
def readFinish (s : ReadState) : ReadState :=
  let s1 : ReadState :=
    if s.currentLen = s.currentMax then
      { s with currentMax := s.currentMax + 1,
               grows := s.grows ++ [(s.currentMax, s.currentMax + 1)] }
    else s
  { s1 with writes := s1.writes ++ [(s1.currentLen, s1.currentMax)] }

/-- The loop condition on `ch`: not newline, not `EOF`, not carriage return,
not a blank. -/
def isTokenChar (ch : Int) : Prop := ch ≠ 10 ∧ ch ≠ -1 ∧ ch ≠ 13 ∧ ch ≠ 32

instance (ch : Int) : Decidable (isTokenChar ch) := by unfold isTokenChar; infer_instance

/-- The `while` loop of `readWordFromFile` over the bytes left in the stream
(`fgetc` yields `EOF` when none is left); returns the final state and the
rest of the stream. -/
def readLoop : List Nat → ReadState → ReadState × List Nat
  | [], s => (readFinish s, [])
  | b :: rest, s =>
    if isTokenChar (toChar b) then readLoop rest (readPush s b)
    else (readFinish s, rest)

/-- `readWordFromFile`: the final state (its `pushed` bytes are the token) and
the rest of the stream. -/
def readWordFromFile (stream : List Nat) : ReadState × List Nat :=
  readLoop stream readStart

/-- The buffer discipline of `readWordFromFile`: the pushed bytes fit the
capacity, the capacity is at least `AVG_WORD_LEN`, every write so far was
below the capacity of its moment and every growth step increased it. -/
def ReadSafe (s : ReadState) : Prop :=
  s.currentLen ≤ s.currentMax ∧ AVG_WORD_LEN ≤ s.currentMax ∧
  (∀ w ∈ s.writes, 0 ≤ w.1 ∧ w.1 < w.2) ∧
  (∀ g ∈ s.grows, g.1 < g.2)

/-- `INT_MAX`, the largest value of the 32-bit `int`. -/
def INT_MAX : Nat := 2147483647

/-- The value of the 32-bit `int` whose bit pattern is `c` (two's
complement): patterns up to `INT_MAX` are their own value, the pattern
`2147483648` is `INT_MIN`. -/
def intVal (c : Nat) : Int :=
  if c % 4294967296 < 2147483648 then ((c % 4294967296 : Nat) : Int)
  else ((c % 4294967296 : Nat) : Int) - 4294967296

/-- The bit pattern of a 32-bit `int` after `++`: the successor, `INT_MAX`
wrapping round to `INT_MIN`. -/
def intIncr (c : Nat) : Nat := (c + 1) % 4294967296

/-- The `while` loop of `arrayListTouchWord` on `int` hit counts: the cells of
`accessCount` hold bit patterns and are compared as signed values. -/
def touchLoop32 : Nat → arrayList → Int → Option arrayList
  | 0, _, _ => none
  | fuel + 1, list, index =>
    if index > 0 then do
      let a ← rd list.accessCount index
      let b ← rd list.accessCount (index - 1)
      if intVal a > intVal b then do
        let list1 ← arrayListSwapElements list index (index - 1)
        touchLoop32 fuel list1 (index - 1)
      else some list
    else some list

/-- `arrayListTouchWord` on `int` hit counts: `accessCount[index]++` wraps at
`INT_MAX`. -/
def arrayListTouchWord32 (list : arrayList) (index : Int) : Option arrayList := do
  let c ← rd list.accessCount index
  let cs ← wr list.accessCount index (intIncr c)
  touchLoop32 (index.toNat + 1) { list with accessCount := cs } index

/-- A sequence of `arrayListTouchWord` calls on one store, on `int` hit
counts. -/
def touchAll32 (list : arrayList) : List Int → Option arrayList
  | [] => some list
  | i :: rest =>
    match arrayListTouchWord32 list i with
    | none => none
    | some list1 => touchAll32 list1 rest

theorem tolower_eq_zero {c : Nat} : tolower c = 0 ↔ c = 0 := by
  unfold tolower
  constructor
  · intro h; split_ifs at h; omega
  · intro h; subst h; simp

theorem stricmp_antisymm (a b : Word) : stricmp b a = - stricmp a b := by
  induction a generalizing b with
  | nil => cases b <;> simp [stricmp]
  | cons x xs ih =>
    cases b with
    | nil => simp [stricmp]
    | cons y ys =>
      simp only [stricmp]
      by_cases h : tolower x = tolower y
      · have h2 : tolower y = tolower x := h.symm
        by_cases hx : x = 0
        · have hy : y = 0 := by
            have := (tolower_eq_zero (c := x)).2 hx
            exact tolower_eq_zero.1 (by omega)
          simp [h, hx, hy]
        · have hy : y ≠ 0 := by
            intro hy
            have := (tolower_eq_zero (c := y)).2 hy
            exact hx (tolower_eq_zero.1 (by omega))
          simp [h, hx, hy, ih]
      · have h2 : ¬ tolower y = tolower x := fun e => h e.symm
        simp [h, h2]

theorem stricmp_self (a : Word) : stricmp a a = 0 := by
  induction a with
  | nil => simp [stricmp]
  | cons x xs ih => simp only [stricmp]; split_ifs <;> simp [ih]

theorem stricmp_le_trans {a b c : Word} (h1 : stricmp a b ≤ 0) (h2 : stricmp b c ≤ 0) :
    stricmp a c ≤ 0 := by
  induction a generalizing b c with
  | nil => cases c <;> simp [stricmp]
  | cons x xs ih =>
    cases b with
    | nil =>
      simp only [stricmp] at h1
      have hx : tolower x = 0 := by omega
      cases c with
      | nil => simp only [stricmp]; omega
      | cons z zs =>
        simp only [stricmp]
        have hx0 : x = 0 := tolower_eq_zero.1 hx
        split_ifs <;> omega
    | cons y ys =>
      cases c with
      | nil =>
        simp only [stricmp] at h1 h2 ⊢
        have hy : tolower y = 0 := by omega
        have hy0 : y = 0 := tolower_eq_zero.1 hy
        split_ifs at h1 <;> omega
      | cons z zs =>
        simp only [stricmp] at h1 h2 ⊢
        by_cases hxy : tolower x = tolower y
        · by_cases hyz : tolower y = tolower z
          · have hxz : tolower x = tolower z := by omega
            rw [if_pos hxy] at h1
            rw [if_pos hyz] at h2
            rw [if_pos hxz]
            by_cases hx : x = 0
            · rw [if_pos hx]
            · have hy : y ≠ 0 := by
                intro hy
                have := (tolower_eq_zero (c := y)).2 hy
                exact hx (tolower_eq_zero.1 (by omega))
              rw [if_neg hx] at h1 ⊢
              rw [if_neg hy] at h2
              exact ih h1 h2
          · have hxz : ¬ tolower x = tolower z := by omega
            rw [if_neg hyz] at h2
            rw [if_neg hxz]
            omega
        · rw [if_neg hxy] at h1
          by_cases hyz : tolower y = tolower z
          · have hxz : ¬ tolower x = tolower z := by omega
            rw [if_neg hxz]
            omega
          · rw [if_neg hyz] at h2
            have hxz : ¬ tolower x = tolower z := by omega
            rw [if_neg hxz]
            omega

theorem stricmp_eq_trans {a b c : Word} (h1 : stricmp a b = 0) (h2 : stricmp b c = 0) :
    stricmp a c = 0 := by
  have h3 := stricmp_le_trans (le_of_eq h1) (le_of_eq h2)
  have h4 : stricmp c a ≤ 0 :=
    stricmp_le_trans (a := c) (b := b) (c := a)
      (by rw [stricmp_antisymm]; omega) (by rw [stricmp_antisymm]; omega)
  rw [stricmp_antisymm] at h4
  omega

theorem stricmp_eq_symm {a b : Word} (h : stricmp a b = 0) : stricmp b a = 0 := by
  rw [stricmp_antisymm]; omega

theorem stricmp_lt_of_lt_of_le {a b c : Word} (h1 : stricmp a b < 0) (h2 : stricmp b c ≤ 0) :
    stricmp a c < 0 := by
  by_contra h
  have h3 : stricmp c a ≤ 0 := by rw [stricmp_antisymm]; omega
  have h4 := stricmp_le_trans h2 h3
  rw [stricmp_antisymm] at h4
  omega

theorem stricmp_lt_of_le_of_lt {a b c : Word} (h1 : stricmp a b ≤ 0) (h2 : stricmp b c < 0) :
    stricmp a c < 0 := by
  by_contra h
  have h3 : stricmp c a ≤ 0 := by rw [stricmp_antisymm]; omega
  have h4 := stricmp_le_trans h3 h1
  rw [stricmp_antisymm] at h4
  omega

@[simp]
theorem rd_natCast {α : Type} (a : List α) (n : Nat) : rd a (n : Int) = a[n]? := by
  simp [rd]

theorem rd_eq_some {α : Type} {a : List α} {i : Int} {x : α} (h : rd a i = some x) :
    ∃ n : Nat, i = (n : Int) ∧ n < a.length ∧ a[n]? = some x := by
  unfold rd at h
  split_ifs at h with h0
  obtain ⟨n, rfl⟩ := Int.eq_ofNat_of_zero_le h0
  simp only [Int.toNat_ofNat] at h
  refine ⟨n, rfl, ?_, h⟩
  by_contra hn
  rw [List.getElem?_eq_none (by omega)] at h
  exact Option.noConfusion h

theorem wr_natCast {α : Type} (a : List α) (n : Nat) (x : α) (h : n < a.length) :
    wr a (n : Int) x = some (a.set n x) := by
  simp [wr, h]

@[simp]
theorem swapL_length {α : Type} (l : List α) (i j : Nat) :
    (swapL l i j).length = l.length := by
  unfold swapL; split <;> simp

theorem swapL_getElem? {α : Type} (l : List α) (i j k : Nat)
    (hi : i < l.length) (hj : j < l.length) :
    (swapL l i j)[k]? = if k = j then l[i]? else if k = i then l[j]? else l[k]? := by
  unfold swapL
  rw [List.getElem?_eq_getElem hi, List.getElem?_eq_getElem hj]
  simp only [List.getElem?_set, List.length_set]
  by_cases h1 : k = j
  · subst h1; simp [hj]
  · by_cases h2 : k = i
    · subst h2
      have : ¬ j = k := fun e => h1 e.symm
      simp [this, hi, h1]
    · have h3 : ¬ j = k := fun e => h1 e.symm
      have h4 : ¬ i = k := fun e => h2 e.symm
      simp [h1, h2, h3, h4]

theorem swapL_self {α : Type} (l : List α) (i : Nat) : swapL l i i = l := by
  by_cases hi : i < l.length
  · apply List.ext_getElem?
    intro k
    rw [swapL_getElem? l i i k hi hi]
    split_ifs with h
    · subst h; rfl
    · rfl
  · unfold swapL
    rw [List.getElem?_eq_none (by omega)]

theorem swapL_zip {α β : Type} (a : List α) (b : List β) (i j : Nat)
    (hab : a.length = b.length) (hi : i < a.length) (hj : j < a.length) :
    (swapL a i j).zip (swapL b i j) = swapL (a.zip b) i j := by
  apply List.ext_getElem?
  intro k
  have hzi : i < (a.zip b).length := by simp [List.length_zip]; omega
  have hzj : j < (a.zip b).length := by simp [List.length_zip]; omega
  rw [swapL_getElem? _ i j k hzi hzj]
  simp only [List.zip_eq_zipWith, List.getElem?_zipWith]
  rw [swapL_getElem? a i j k hi hj, swapL_getElem? b i j k (by omega) (by omega)]
  split_ifs <;> rfl

theorem count_pos_of_getElem? {α : Type} [DecidableEq α] {l : List α} {i : Nat} {x : α}
    (h : l[i]? = some x) : 0 < l.count x := by
  rw [List.count_pos_iff]
  exact List.mem_iff_getElem?.2 ⟨i, h⟩

theorem swapL_perm {α : Type} [DecidableEq α] (l : List α) (i j : Nat) :
    (swapL l i j).Perm l := by
  by_cases hi : i < l.length
  · by_cases hj : j < l.length
    · by_cases hij : i = j
      · subst hij; rw [swapL_self]
      · rw [List.perm_iff_count]
        intro x
        unfold swapL
        rw [List.getElem?_eq_getElem hi, List.getElem?_eq_getElem hj]
        simp only
        rw [List.count_set _ _ _ _ (by simp; exact hj), List.count_set _ _ _ _ hi]
        rw [List.getElem_set_ne hij]
        have c1 := count_pos_of_getElem? (List.getElem?_eq_getElem hi)
        have c2 := count_pos_of_getElem? (List.getElem?_eq_getElem hj)
        by_cases ha : l[i] = x
        · by_cases hb : l[j] = x
          · simp [ha, hb]; rw [ha] at c1; omega
          · simp [ha, hb]; rw [ha] at c1; omega
        · by_cases hb : l[j] = x
          · simp [ha, hb]
          · simp [ha, hb]
    · unfold swapL
      rw [List.getElem?_eq_none (n := j) (by omega)]
      split <;> first | rfl | simp_all
  · unfold swapL
    rw [List.getElem?_eq_none (n := i) (by omega)]

theorem swap_spec (list : arrayList) (i j : Nat) (hwf : WF list)
    (hi : i < list.words.length) (hj : j < list.words.length) :
    arrayListSwapElements list (i : Int) (j : Int) =
      some { list with words := swapL list.words i j,
                       accessCount := swapL list.accessCount i j } := by
  unfold WF at hwf
  have hi2 : i < list.accessCount.length := by omega
  have hj2 : j < list.accessCount.length := by omega
  unfold arrayListSwapElements
  simp only [rd_natCast, List.getElem?_eq_getElem hi, List.getElem?_eq_getElem hj,
    List.getElem?_eq_getElem hi2, List.getElem?_eq_getElem hj2, Option.bind_eq_bind,
    Option.some_bind]
  rw [wr_natCast _ _ _ hi, wr_natCast _ _ _ hi2]
  simp only [Option.some_bind]
  rw [wr_natCast _ _ _ (by simp; exact hj), wr_natCast _ _ _ (by simp; exact hj2)]
  simp only [Option.some_bind, swapL, List.getElem?_eq_getElem hi, List.getElem?_eq_getElem hj,
    List.getElem?_eq_getElem hi2, List.getElem?_eq_getElem hj2]

theorem wordAt_of_getElem? {ws : List Word} {k : Nat} {w : Word} (h : ws[k]? = some w) :
    wordAt ws k = w := by
  simp [wordAt, List.getD_eq_getElem?_getD, h]

theorem wordAt_congr {ws ws1 : List Word} {k k1 : Nat} (h : ws1[k]? = ws[k1]?) :
    wordAt ws1 k = wordAt ws k1 := by
  simp [wordAt, List.getD_eq_getElem?_getD, h]

theorem getElem?_wordAt {ws : List Word} {k : Nat} (h : k < ws.length) :
    ws[k]? = some (wordAt ws k) := by
  simp [wordAt, List.getD_eq_getElem?_getD, List.getElem?_eq_getElem h]

theorem Frame.refl (lo hi : Nat) (list : arrayList) : Frame lo hi list list :=
  ⟨rfl, rfl, rfl, fun _ _ => ⟨rfl, rfl⟩, fun k h1 h2 => ⟨k, h1, h2, rfl⟩, List.Perm.refl _⟩

theorem Frame.trans {lo hi : Nat} {a b c : arrayList} (h1 : Frame lo hi a b)
    (h2 : Frame lo hi b c) : Frame lo hi a c := by
  obtain ⟨a1, a2, a3, a4, a5, a6⟩ := h1
  obtain ⟨b1, b2, b3, b4, b5, b6⟩ := h2
  refine ⟨by omega, by omega, by omega, ?_, ?_, b6.trans a6⟩
  · intro k hk
    exact ⟨(b4 k hk).1.trans (a4 k hk).1, (b4 k hk).2.trans (a4 k hk).2⟩
  · intro k hk1 hk2
    obtain ⟨k1, c1, c2, c3⟩ := b5 k hk1 hk2
    obtain ⟨k2, d1, d2, d3⟩ := a5 k1 c1 c2
    exact ⟨k2, d1, d2, c3.trans d3⟩

theorem Frame.mono {lo hi lo1 hi1 : Nat} {a b : arrayList} (h : Frame lo1 hi1 a b)
    (hlo : lo ≤ lo1) (hhi : hi1 ≤ hi) : Frame lo hi a b := by
  obtain ⟨a1, a2, a3, a4, a5, a6⟩ := h
  refine ⟨a1, a2, a3, ?_, ?_, a6⟩
  · intro k hk
    exact a4 k (by omega)
  · intro k hk1 hk2
    by_cases hin : lo1 ≤ k ∧ k < hi1
    · obtain ⟨k1, c1, c2, c3⟩ := a5 k hin.1 hin.2
      exact ⟨k1, by omega, by omega, c3⟩
    · exact ⟨k, hk1, hk2, (a4 k (by omega)).1⟩

theorem Frame.wf {lo hi : Nat} {a b : arrayList} (h : Frame lo hi a b) (hwf : WF a) : WF b := by
  unfold WF at *
  obtain ⟨a1, a2, _⟩ := h
  omega

theorem Frame.swap (lo hi : Nat) (list : arrayList) (i j : Nat) (hwf : WF list)
    (hi1 : lo ≤ i) (hi2 : i < hi) (hj1 : lo ≤ j) (hj2 : j < hi)
    (hin : i < list.words.length) (hjn : j < list.words.length) :
    Frame lo hi list { list with words := swapL list.words i j,
                                 accessCount := swapL list.accessCount i j } := by
  unfold WF at hwf
  refine ⟨by simp, by simp, rfl, ?_, ?_, ?_⟩
  · intro k hk
    simp only
    rw [swapL_getElem? _ i j k hin hjn, swapL_getElem? _ i j k (by omega) (by omega)]
    have h1 : k ≠ j := by omega
    have h2 : k ≠ i := by omega
    simp [h1, h2]
  · intro k hk1 hk2
    simp only
    rw [swapL_getElem? _ i j k hin hjn]
    by_cases h1 : k = j
    · exact ⟨i, hi1, hi2, by simp [h1]⟩
    · by_cases h2 : k = i
      · subst h2
        exact ⟨j, hj1, hj2, by simp [h1]⟩
      · exact ⟨k, hk1, hk2, by simp [h1, h2]⟩
  · simp only
    rw [swapL_zip _ _ i j hwf.symm hin hjn]
    exact swapL_perm _ i j

theorem partitionI_spec (ws : List Word) (p j : Nat) (pv : Word)
    (hp : ws[p]? = some pv) (hj : j < ws.length) :
    ∀ (fuel i : Nat), i < j → j - i ≤ fuel →
      ∃ i1 : Nat, partitionI fuel ws (p : Int) (i : Int) (j : Int) = some (i1 : Int) ∧
        i < i1 ∧ i1 ≤ j ∧
        (∀ k : Nat, i < k → k < i1 → stricmp (wordAt ws k) pv < 0) ∧
        (i1 < j → ¬ stricmp (wordAt ws i1) pv < 0) := by
  intro fuel
  induction fuel with
  | zero => intro i h1 h2; omega
  | succ f ih =>
    intro i h1 h2
    unfold partitionI
    simp only
    have e1 : (i : Int) + 1 = ((i + 1 : Nat) : Int) := by push_cast; rfl
    rw [e1]
    by_cases hlt : i + 1 < j
    · have hlt2 : ((i + 1 : Nat) : Int) < (j : Int) := by omega
      rw [if_pos hlt2]
      simp only [rd_natCast, hp, getElem?_wordAt (show i + 1 < ws.length by omega)]
      by_cases hc : stricmp (wordAt ws (i + 1)) pv < 0
      · rw [if_pos hc]
        obtain ⟨i1, r1, r2, r3, r4, r5⟩ := ih (i + 1) hlt (by omega)
        refine ⟨i1, r1, by omega, r3, ?_, r5⟩
        intro k hk1 hk2
        by_cases hk : k = i + 1
        · subst hk; exact hc
        · exact r4 k (by omega) hk2
      · rw [if_neg hc]
        refine ⟨i + 1, rfl, by omega, by omega, ?_, fun _ => hc⟩
        intro k hk1 hk2; omega
    · have hlt2 : ¬ ((i + 1 : Nat) : Int) < (j : Int) := by omega
      rw [if_neg hlt2]
      refine ⟨i + 1, rfl, by omega, by omega, ?_, ?_⟩
      · intro k hk1 hk2; omega
      · intro h; omega

theorem partitionJ_spec (ws : List Word) (p : Nat) (pv : Word)
    (hp : ws[p]? = some pv) :
    ∀ (fuel j : Nat), p ≤ j → j < ws.length → j - p + 1 ≤ fuel →
      ∃ j1 : Nat, partitionJ fuel ws (p : Int) (j : Int) = some (j1 : Int) ∧
        p ≤ j1 ∧ j1 ≤ j ∧
        (∀ k : Nat, j1 < k → k ≤ j → stricmp pv (wordAt ws k) < 0) ∧
        ¬ stricmp pv (wordAt ws j1) < 0 := by
  intro fuel
  induction fuel with
  | zero => intro j h1 h2 h3; omega
  | succ f ih =>
    intro j h1 h2 h3
    unfold partitionJ
    simp only [rd_natCast, hp, getElem?_wordAt h2]
    by_cases hc : stricmp pv (wordAt ws j) < 0
    · rw [if_pos hc]
      have hne : j ≠ p := by
        intro e
        subst e
        rw [wordAt_of_getElem? hp, stricmp_self] at hc
        omega
      have e1 : (j : Int) - 1 = ((j - 1 : Nat) : Int) := by omega
      rw [e1]
      obtain ⟨j1, r1, r2, r3, r4, r5⟩ := ih (j - 1) (by omega) (by omega) (by omega)
      refine ⟨j1, r1, r2, by omega, ?_, r5⟩
      intro k hk1 hk2
      by_cases hk : k = j
      · subst hk; exact hc
      · exact r4 k hk1 (by omega)
    · rw [if_neg hc]
      exact ⟨j, rfl, h1, le_refl _, fun k hk1 hk2 => by omega, hc⟩

theorem partitionLoop_spec (lo hi : Nat) (pv : Word) :
    ∀ (fuel : Nat) (list : arrayList) (i j : Nat),
      WF list → hi ≤ list.words.length → list.words[lo]? = some pv →
      lo ≤ i → i < j → j < hi → j - i ≤ fuel →
      (∀ k : Nat, lo < k → k ≤ i → ciLe (wordAt list.words k) pv) →
      (∀ k : Nat, j < k → k < hi → ciLe pv (wordAt list.words k)) →
      ∃ (list1 : arrayList) (p : Nat),
        partitionLoop fuel list (lo : Int) (i : Int) (j : Int) = some (list1, (p : Int)) ∧
        Frame (lo + 1) hi list list1 ∧ lo ≤ p ∧ p < hi ∧
        (∀ k : Nat, lo < k → k ≤ p → ciLe (wordAt list1.words k) pv) ∧
        (∀ k : Nat, p < k → k < hi → ciLe pv (wordAt list1.words k)) := by
  intro fuel
  induction fuel with
  | zero => intro list i j _ _ _ _ h1 _ h2; omega
  | succ f ih =>
    intro list i j hwf hn hpv hloi hij hjhi hfuel hL hR
    obtain ⟨i1, ei, hi1, hi2, hi3, hi4⟩ :=
      partitionI_spec list.words lo j pv hpv (by omega) (list.words.length + 1) i hij (by omega)
    obtain ⟨j1, ej, hj1, hj2, hj3, hj4⟩ :=
      partitionJ_spec list.words lo pv hpv (list.words.length + 1) j (by omega) (by omega)
        (by omega)
    unfold partitionLoop
    simp only [ei, ej]
    by_cases hlt : i1 < j1
    · have hlt2 : (i1 : Int) < (j1 : Int) := by omega
      rw [if_pos hlt2, swap_spec list i1 j1 hwf (by omega) (by omega)]
      simp only
      have hfr : Frame (lo + 1) hi list
          { list with words := swapL list.words i1 j1,
                      accessCount := swapL list.accessCount i1 j1 } :=
        Frame.swap (lo + 1) hi list i1 j1 hwf (by omega) (by omega) (by omega) (by omega)
          (by omega) (by omega)
      have hget : ∀ k : Nat, wordAt (swapL list.words i1 j1) k =
          if k = j1 then wordAt list.words i1 else if k = i1 then wordAt list.words j1
          else wordAt list.words k := by
        intro k
        have := swapL_getElem? list.words i1 j1 k (by omega) (by omega)
        split_ifs with c1 c2
        · rw [if_pos c1] at this; exact wordAt_congr this
        · rw [if_neg c1, if_pos c2] at this; exact wordAt_congr this
        · rw [if_neg c1, if_neg c2] at this; exact wordAt_congr this
      have hi1ge : ¬ stricmp (wordAt list.words i1) pv < 0 := hi4 (by omega)
      have hL1 : ∀ k : Nat, lo < k → k ≤ i1 → ciLe (wordAt (swapL list.words i1 j1) k) pv := by
        intro k hk1 hk2
        rw [hget k]
        have c1 : k ≠ j1 := by omega
        rw [if_neg c1]
        by_cases c2 : k = i1
        · rw [if_pos c2]
          unfold ciLe
          rw [stricmp_antisymm]
          omega
        · rw [if_neg c2]
          by_cases c3 : k ≤ i
          · exact hL k hk1 c3
          · exact le_of_lt (hi3 k (by omega) (by omega))
      have hR1 : ∀ k : Nat, j1 - 1 < k → k < hi → ciLe pv (wordAt (swapL list.words i1 j1) k) := by
        intro k hk1 hk2
        rw [hget k]
        by_cases c1 : k = j1
        · rw [if_pos c1]
          unfold ciLe
          rw [stricmp_antisymm]
          omega
        · rw [if_neg c1]
          have c2 : k ≠ i1 := by omega
          rw [if_neg c2]
          by_cases c3 : j < k
          · exact hR k c3 hk2
          · exact le_of_lt (hj3 k (by omega) (by omega))
      have e1 : (j1 : Int) - 1 = ((j1 - 1 : Nat) : Int) := by omega
      rw [e1]
      by_cases hlt3 : i1 < j1 - 1
      · have hlt4 : (i1 : Int) < ((j1 - 1 : Nat) : Int) := by omega
        rw [if_pos hlt4]
        have hpv1 : (swapL list.words i1 j1)[lo]? = some pv := by
          rw [swapL_getElem? list.words i1 j1 lo (by omega) (by omega)]
          rw [if_neg (by omega), if_neg (by omega)]
          exact hpv
        obtain ⟨list1, p, r1, r2, r3, r4, r5, r6⟩ :=
          ih { list with words := swapL list.words i1 j1,
                         accessCount := swapL list.accessCount i1 j1 } i1 (j1 - 1)
            (hfr.wf hwf) (by simp; exact hn) hpv1 (by omega) hlt3 (by omega) (by omega) hL1 hR1
        exact ⟨list1, p, r1, hfr.trans r2, r3, r4, r5, r6⟩
      · have hlt4 : ¬ (i1 : Int) < ((j1 - 1 : Nat) : Int) := by omega
        rw [if_neg hlt4]
        refine ⟨_, j1 - 1, rfl, hfr, by omega, by omega, ?_, hR1⟩
        intro k hk1 hk2
        exact hL1 k hk1 (by omega)
    · have hlt2 : ¬ (i1 : Int) < (j1 : Int) := by omega
      rw [if_neg hlt2]
      refine ⟨list, j1, rfl, Frame.refl _ _ _, hj1, by omega, ?_, ?_⟩
      · intro k hk1 hk2
        by_cases c1 : k ≤ i
        · exact hL k hk1 c1
        · by_cases c2 : k < i1
          · exact le_of_lt (hi3 k (by omega) c2)
          · have c3 : k = j1 := by omega
            subst c3
            unfold ciLe
            rw [stricmp_antisymm]
            omega
      · intro k hk1 hk2
        by_cases c3 : j < k
        · exact hR k c3 hk2
        · exact le_of_lt (hj3 k (by omega) (by omega))

theorem partition_spec (list : arrayList) (lo hi : Nat) (hwf : WF list)
    (hn : hi ≤ list.words.length) (hlt : lo + 1 < hi) :
    ∃ (list1 : arrayList) (p : Nat),
      partition list (lo : Int) ((hi : Int) - 1) = some (list1, (p : Int)) ∧
      Frame lo hi list list1 ∧ lo ≤ p ∧ p < hi ∧
      list1.words[p]? = list.words[lo]? ∧
      (∀ k : Nat, lo ≤ k → k < p → ciLe (wordAt list1.words k) (wordAt list1.words p)) ∧
      (∀ k : Nat, p < k → k < hi → ciLe (wordAt list1.words p) (wordAt list1.words k)) := by
  have hpv : list.words[lo]? = some (wordAt list.words lo) := getElem?_wordAt (by omega)
  have e1 : (hi : Int) - 1 = ((hi - 1 : Nat) : Int) := by omega
  obtain ⟨l1, p, r1, r2, r3, r4, r5, r6⟩ :=
    partitionLoop_spec lo hi (wordAt list.words lo) (list.words.length + 1) list lo (hi - 1)
      hwf hn hpv (le_refl _) (by omega) (by omega) (by omega)
      (fun k h1 h2 => by omega) (fun k h1 h2 => by omega)
  unfold partition
  rw [e1, r1]
  simp only
  have hlen := r2.1
  rw [swap_spec l1 lo p (r2.wf hwf) (by omega) (by omega)]
  simp only [Option.map_some']
  have hfr : Frame lo hi l1 { l1 with words := swapL l1.words lo p,
                                      accessCount := swapL l1.accessCount lo p } :=
    Frame.swap lo hi l1 lo p (r2.wf hwf) (le_refl _) (by omega) r3 r4 (by omega) (by omega)
  have hlo1 : l1.words[lo]? = list.words[lo]? := (r2.2.2.2.1 lo (by omega)).1
  have hget : ∀ k : Nat, wordAt (swapL l1.words lo p) k =
      if k = p then wordAt l1.words lo else if k = lo then wordAt l1.words p
      else wordAt l1.words k := by
    intro k
    have := swapL_getElem? l1.words lo p k (by omega) (by omega)
    split_ifs with c1 c2
    · rw [if_pos c1] at this; exact wordAt_congr this
    · rw [if_neg c1, if_pos c2] at this; exact wordAt_congr this
    · rw [if_neg c1, if_neg c2] at this; exact wordAt_congr this
  have hpv1 : wordAt l1.words lo = wordAt list.words lo := wordAt_congr hlo1
  refine ⟨_, p, rfl, (r2.mono (by omega) (le_refl _)).trans hfr, r3, r4, ?_, ?_, ?_⟩
  · simp only
    rw [swapL_getElem? l1.words lo p p (by omega) (by omega), if_pos rfl]
    exact hlo1
  · intro k hk1 hk2
    simp only
    rw [hget k, hget p, if_pos rfl, if_neg (by omega), hpv1]
    by_cases c : k = lo
    · rw [if_pos c]
      exact r5 p (by omega) (le_refl _)
    · rw [if_neg c]
      exact r5 k (by omega) (by omega)
  · intro k hk1 hk2
    simp only
    rw [hget k, hget p, if_pos rfl, if_neg (by omega), if_neg (by omega), hpv1]
    exact r6 k hk1 hk2

theorem quickSortFuel_spec :
    ∀ (fuel : Nat) (list : arrayList) (lo hi : Nat),
      WF list → hi ≤ list.words.length → 1 ≤ fuel → hi - lo ≤ fuel →
      ∃ list1 : arrayList,
        quickSortFuel fuel list (lo : Int) ((hi : Int) - 1) = some list1 ∧
        Frame lo hi list list1 ∧ SortedOn lo hi list1.words := by
  intro fuel
  induction fuel with
  | zero => intro list lo hi _ _ h _; omega
  | succ f ih =>
    intro list lo hi hwf hn _ hfuel
    unfold quickSortFuel
    by_cases hlt : lo + 1 < hi
    · have hlt2 : (lo : Int) < (hi : Int) - 1 := by omega
      rw [if_pos hlt2]
      obtain ⟨l1, p, r1, r2, r3, r4, r5, r6, r7⟩ := partition_spec list lo hi hwf hn hlt
      rw [r1]
      simp only
      have hwf1 := r2.wf hwf
      have hlen1 := r2.1
      obtain ⟨l2, s1, s2, s3⟩ := ih l1 lo p hwf1 (by omega) (by omega) (by omega)
      rw [s1]
      simp only
      have hwf2 := s2.wf hwf1
      have hlen2 := s2.1
      have e1 : (p : Int) + 1 = ((p + 1 : Nat) : Int) := by push_cast; rfl
      rw [e1]
      obtain ⟨l3, t1, t2, t3⟩ := ih l2 (p + 1) hi hwf2 (by omega) (by omega) (by omega)
      refine ⟨l3, t1, ?_, ?_⟩
      · exact r2.trans ((s2.mono (le_refl _) (by omega)).trans (t2.mono (by omega) (le_refl _)))
      · -- words of `l3`, cell by cell
        have hp2 : wordAt l2.words p = wordAt l1.words p :=
          wordAt_congr (s2.2.2.2.1 p (by omega)).1
        have hp3 : wordAt l3.words p = wordAt l1.words p :=
          (wordAt_congr (t2.2.2.2.1 p (by omega)).1).trans hp2
        have hleft3 : ∀ k : Nat, k < p → wordAt l3.words k = wordAt l2.words k :=
          fun k hk => wordAt_congr (t2.2.2.2.1 k (by omega)).1
        have hL : ∀ k : Nat, lo ≤ k → k < p → ciLe (wordAt l3.words k) (wordAt l1.words p) := by
          intro k hk1 hk2
          rw [hleft3 k hk2]
          obtain ⟨k1, c1, c2, c3⟩ := s2.2.2.2.2.1 k hk1 hk2
          rw [wordAt_congr c3]
          exact r6 k1 c1 c2
        have hR : ∀ k : Nat, p < k → k < hi → ciLe (wordAt l1.words p) (wordAt l3.words k) := by
          intro k hk1 hk2
          obtain ⟨k1, c1, c2, c3⟩ := t2.2.2.2.2.1 k (by omega) hk2
          rw [wordAt_congr c3, wordAt_congr (s2.2.2.2.1 k1 (by omega)).1]
          exact r7 k1 (by omega) c2
        intro a b ha hab hb
        by_cases c1 : b < p
        · rw [hleft3 a (by omega), hleft3 b c1]
          exact s3 a b ha hab c1
        · by_cases c2 : p < a
          · exact t3 a b (by omega) hab hb
          · by_cases c3 : a = p
            · subst c3
              rw [hp3]
              exact hR b (by omega) hb
            · by_cases c4 : b = p
              · subst c4
                rw [hp3]
                exact hL a ha (by omega)
              · exact stricmp_le_trans (hL a ha (by omega)) (hR b (by omega) hb)
    · have hlt2 : ¬ (lo : Int) < (hi : Int) - 1 := by omega
      rw [if_neg hlt2]
      refine ⟨list, rfl, Frame.refl _ _ _, ?_⟩
      intro a b ha hab hb
      omega

theorem arrayListQuickSort_spec (list : arrayList) (hwf : WF list) :
    ∃ list1 : arrayList,
      arrayListQuickSort list 0 (wordCount list - 1) = some list1 ∧
      Frame 0 list.words.length list list1 ∧
      SortedOn 0 list.words.length list1.words := by
  have h := quickSortFuel_spec ((wordCount list - 1 - 0).toNat + 1) list 0 list.words.length
    hwf (le_refl _) (by omega) (by unfold wordCount; omega)
  exact h

/-- C2: for every store, `arrayListQuickSort(list, 0, wordCount-1)` returns a
store with the same number of words in which every adjacent pair of words
`words[i]`, `words[i+1]` satisfies `stricmp(words[i], words[i+1]) <= 0`. -/
theorem arrayListQuickSort_sorted (list : arrayList) (hwf : WF list) :
    ∃ list1 : arrayList,
      arrayListQuickSort list 0 (wordCount list - 1) = some list1 ∧
      list1.words.length = list.words.length ∧
      ∀ (i : Nat) (a b : Word), list1.words[i]? = some a → list1.words[i + 1]? = some b →
        stricmp a b ≤ 0 := by
  obtain ⟨list1, h1, h2, h3⟩ := arrayListQuickSort_spec list hwf
  refine ⟨list1, h1, h2.1, ?_⟩
  intro i a b ha hb
  have hlen : i + 1 < list1.words.length := by
    by_contra hc
    rw [List.getElem?_eq_none (by omega)] at hb
    exact Option.noConfusion hb
  have := h3 i (i + 1) (Nat.zero_le _) (by omega) (by rw [← h2.1]; exact hlen)
  rw [wordAt_of_getElem? ha, wordAt_of_getElem? hb] at this
  exact this

/-- Witness for C2: a store with duplicate and case-variant words
(`b A c a B a`). -/
theorem arrayListQuickSort_sorted_witness :
    WF ⟨[[98], [65], [99], [97], [66], [97]], [0, 0, 0, 0, 0, 0], 8⟩ ∧
    ∃ list1 : arrayList,
      arrayListQuickSort ⟨[[98], [65], [99], [97], [66], [97]], [0, 0, 0, 0, 0, 0], 8⟩ 0
        (wordCount ⟨[[98], [65], [99], [97], [66], [97]], [0, 0, 0, 0, 0, 0], 8⟩ - 1)
        = some list1 ∧
      list1.words.length =
        (⟨[[98], [65], [99], [97], [66], [97]], [0, 0, 0, 0, 0, 0], 8⟩ : arrayList).words.length ∧
      ∀ (i : Nat) (a b : Word), list1.words[i]? = some a → list1.words[i + 1]? = some b →
        stricmp a b ≤ 0 :=
  ⟨by decide, arrayListQuickSort_sorted _ (by decide)⟩

theorem moveCell_length {α : Type} (l : List α) (i p : Nat) (x : α)
    (hp : p ≤ i) (hi : i < l.length) : (moveCell l i p x).length = l.length := by
  simp [moveCell]
  omega

theorem moveCell_getElem? {α : Type} (l : List α) (i p : Nat) (x : α)
    (hp : p ≤ i) (hi : i < l.length) (k : Nat) :
    (moveCell l i p x)[k]? =
      if k < p then l[k]? else if k = p then some x else if k ≤ i then l[k - 1]? else l[k]? := by
  unfold moveCell
  have hlen1 : (l.take p).length = p := by simp; omega
  have hlen2 : ((l.take i).drop p).length = i - p := by simp; omega
  by_cases h1 : k < p
  · rw [if_pos h1, List.getElem?_append_left (by omega), List.getElem?_take, if_pos h1]
  · rw [if_neg h1, List.getElem?_append_right (by omega), hlen1]
    by_cases h2 : k = p
    · subst h2; simp
    · rw [if_neg h2]
      obtain ⟨m, hm⟩ : ∃ m, k - p = m + 1 := ⟨k - p - 1, by omega⟩
      rw [hm, List.getElem?_cons_succ]
      by_cases h3 : k ≤ i
      · rw [if_pos h3, List.getElem?_append_left (by omega), List.getElem?_drop,
          List.getElem?_take, if_pos (by omega)]
        congr 1; omega
      · rw [if_neg h3, List.getElem?_append_right (by omega), hlen2, List.getElem?_drop]
        congr 1; omega

theorem moveCell_self {α : Type} (l : List α) (i : Nat) (x : α) (hi : i < l.length) :
    moveCell l i i x = l.set i x := by
  apply List.ext_getElem?
  intro k
  rw [moveCell_getElem? l i i x (le_refl _) hi k, List.getElem?_set]
  by_cases h1 : k < i
  · rw [if_pos h1, if_neg (by omega)]
  · rw [if_neg h1]
    by_cases h2 : k = i
    · subst h2; simp [hi]
    · rw [if_neg h2, if_neg (by omega), if_neg (by omega)]

theorem swapL_moveCell {α : Type} (l : List α) (i p : Nat) (x : α)
    (hp0 : 0 < p) (hp : p ≤ i) (hi : i < l.length) :
    swapL (moveCell l i p x) p (p - 1) = moveCell l i (p - 1) x := by
  apply List.ext_getElem?
  intro k
  have hlen := moveCell_length l i p x hp hi
  rw [swapL_getElem? _ p (p - 1) k (by omega) (by omega),
    moveCell_getElem? l i p x hp hi, moveCell_getElem? l i p x hp hi,
    moveCell_getElem? l i p x hp hi, moveCell_getElem? l i (p - 1) x (by omega) hi]
  by_cases h1 : k = p - 1
  · subst h1
    simp
  · rw [if_neg h1]
    by_cases h2 : k = p
    · subst h2
      rw [if_pos rfl, if_pos (by omega), if_neg (by omega), if_neg (by omega), if_pos (by omega)]
    · rw [if_neg h2, if_neg h2]
      by_cases h3 : k < p
      · rw [if_pos h3, if_pos (by omega)]
      · have h4 : ¬ k < p - 1 := by omega
        simp only [h1, h2, h3, h4, if_false]

theorem moveCell_perm {α : Type} (l : List α) (i p : Nat) (x : α)
    (hp : p ≤ i) : (moveCell l i p x).Perm (x :: l.eraseIdx i) := by
  unfold moveCell
  have e1 : l.eraseIdx i = l.take p ++ ((l.take i).drop p ++ l.drop (i + 1)) := by
    rw [List.eraseIdx_eq_take_drop_succ, ← List.append_assoc]
    congr 1
    have := List.take_append_drop p (l.take i)
    rw [List.take_take, Nat.min_eq_left hp] at this
    exact this.symm
  rw [e1]
  exact List.perm_middle

theorem eraseIdx_perm {α : Type} (l : List α) (i : Nat) (x : α) (h : l[i]? = some x) :
    (x :: l.eraseIdx i).Perm l := by
  have hi : i < l.length := by
    by_contra hc
    rw [List.getElem?_eq_none (by omega)] at h
    exact Option.noConfusion h
  have e2 : l = l.take i ++ x :: l.drop (i + 1) := by
    apply List.ext_getElem?
    intro k
    rw [List.getElem?_append, List.length_take, Nat.min_eq_left (le_of_lt hi)]
    by_cases c : k < i
    · rw [if_pos c, List.getElem?_take, if_pos c]
    · rw [if_neg c]
      by_cases c2 : k = i
      · subst c2; simp [h]
      · obtain ⟨m, hm⟩ : ∃ m, k - i = m + 1 := ⟨k - i - 1, by omega⟩
        rw [hm, List.getElem?_cons_succ, List.getElem?_drop]
        congr 1; omega
  rw [List.eraseIdx_eq_take_drop_succ]
  conv => rhs; rw [e2]
  exact List.perm_middle.symm

theorem moveCell_zip {α β : Type} (a : List α) (b : List β) (i p : Nat) (x : α) (y : β)
    (hab : a.length = b.length) (hp : p ≤ i) (hi : i < a.length) :
    (moveCell a i p x).zip (moveCell b i p y) = moveCell (a.zip b) i p (x, y) := by
  apply List.ext_getElem?
  intro k
  have hz : i < (a.zip b).length := by simp [List.length_zip]; omega
  rw [moveCell_getElem? _ i p _ hp hz]
  simp only [List.zip_eq_zipWith, List.getElem?_zipWith]
  rw [moveCell_getElem? a i p x hp hi, moveCell_getElem? b i p y hp (by omega)]
  split_ifs <;> rfl

theorem touchPos_le (cs : List Nat) (c : Nat) (k : Nat) : touchPos cs c k ≤ k := by
  induction k with
  | zero => simp [touchPos]
  | succ n ih => unfold touchPos; split_ifs <;> omega

theorem touchPos_between (cs : List Nat) (c : Nat) (i : Nat) :
    ∀ k : Nat, touchPos cs c i ≤ k → k < i → cs.getD k 0 ≤ c := by
  induction i with
  | zero => intro k _ h; omega
  | succ n ih =>
    intro k h1 h2
    unfold touchPos at h1
    split_ifs at h1 with hc
    · by_cases hk : k = n
      · subst hk; omega
      · exact ih k h1 (by omega)
    · omega

theorem touchPos_stop (cs : List Nat) (c : Nat) (i : Nat) (h : 0 < touchPos cs c i) :
    c + 1 ≤ cs.getD (touchPos cs c i - 1) 0 := by
  induction i with
  | zero => simp [touchPos] at h
  | succ n ih =>
    unfold touchPos at h ⊢
    split_ifs at h ⊢ with hc
    · exact ih h
    · simp only [Nat.add_sub_cancel]; omega

theorem touchLoop_spec (ws : List Word) (cs : List Nat) (sz : Int) (i : Nat) (w : Word)
    (c : Nat) (hwf : cs.length = ws.length) (hi : i < ws.length) :
    ∀ (idx fuel : Nat), idx ≤ i → idx + 1 ≤ fuel →
      touchLoop fuel ⟨moveCell ws i idx w, moveCell cs i idx (c + 1), sz⟩ (idx : Int) =
        some ⟨moveCell ws i (touchPos cs c idx) w,
              moveCell cs i (touchPos cs c idx) (c + 1), sz⟩ := by
  intro idx
  induction idx with
  | zero =>
    intro fuel _ hf
    obtain ⟨f, rfl⟩ : ∃ f, fuel = f + 1 := ⟨fuel - 1, by omega⟩
    simp [touchLoop, touchPos]
  | succ k ih =>
    intro fuel hk hf
    obtain ⟨f, rfl⟩ : ∃ f, fuel = f + 1 := ⟨fuel - 1, by omega⟩
    unfold touchLoop
    have hpos : ((k + 1 : Nat) : Int) > 0 := by omega
    rw [if_pos hpos]
    have e1 : ((k + 1 : Nat) : Int) - 1 = (k : Int) := by omega
    rw [e1]
    have ha : (moveCell cs i (k + 1) (c + 1))[k + 1]? = some (c + 1) := by
      rw [moveCell_getElem? cs i (k + 1) (c + 1) hk (by omega)]
      simp
    have hb : (moveCell cs i (k + 1) (c + 1))[k]? = some (cs.getD k 0) := by
      rw [moveCell_getElem? cs i (k + 1) (c + 1) hk (by omega), if_pos (by omega),
        List.getD_eq_getElem?_getD, List.getElem?_eq_getElem (show k < cs.length by omega)]
      rfl
    simp only [rd_natCast, ha, hb, Option.bind_eq_bind, Option.some_bind]
    unfold touchPos
    by_cases hc : c + 1 > cs.getD k 0
    · rw [if_pos hc, if_pos hc]
      have hwf1 : WF ⟨moveCell ws i (k + 1) w, moveCell cs i (k + 1) (c + 1), sz⟩ := by
        unfold WF
        simp only
        rw [moveCell_length _ _ _ _ hk hi, moveCell_length _ _ _ _ hk (by omega)]
        exact hwf
      have hs := swap_spec ⟨moveCell ws i (k + 1) w, moveCell cs i (k + 1) (c + 1), sz⟩
        (k + 1) k hwf1 (by simp only; rw [moveCell_length _ _ _ _ hk hi]; omega)
        (by simp only; rw [moveCell_length _ _ _ _ hk hi]; omega)
      rw [hs]
      simp only [Option.some_bind]
      have e2 := swapL_moveCell ws i (k + 1) w (by omega) hk hi
      have e3 := swapL_moveCell cs i (k + 1) (c + 1) (by omega) hk (by omega)
      simp only [Nat.add_sub_cancel] at e2 e3
      rw [e2, e3]
      exact ih f (by omega) (by omega)
    · rw [if_neg hc, if_neg hc]

theorem touch_spec (list : arrayList) (i : Nat) (hwf : WF list) (hi : i < list.words.length) :
    arrayListTouchWord list (i : Int) = some (touched list i) := by
  unfold WF at hwf
  have hi2 : i < list.accessCount.length := by omega
  unfold arrayListTouchWord
  have hc : list.accessCount[i]? = some (list.accessCount.getD i 0) := by
    rw [List.getD_eq_getElem?_getD, List.getElem?_eq_getElem hi2]; rfl
  simp only [rd_natCast, hc, Option.bind_eq_bind, Option.some_bind]
  rw [wr_natCast _ _ _ hi2]
  simp only [Option.some_bind, Int.toNat_ofNat]
  have e1 : list.accessCount.set i (list.accessCount.getD i 0 + 1) =
      moveCell list.accessCount i i (list.accessCount.getD i 0 + 1) :=
    (moveCell_self _ _ _ hi2).symm
  have e2 : list.words = moveCell list.words i i (wordAt list.words i) := by
    rw [moveCell_self _ _ _ hi]
    apply List.ext_getElem?
    intro k
    rw [List.getElem?_set]
    by_cases c : i = k
    · subst c; rw [if_pos rfl, if_pos hi]; exact getElem?_wordAt hi
    · rw [if_neg c]
  have h := touchLoop_spec list.words list.accessCount list.size i (wordAt list.words i)
    (list.accessCount.getD i 0) hwf hi i (i + 1) (le_refl _) (le_refl _)
  rw [← e1, ← e2] at h
  rw [h]
  rfl

theorem firstZero_le_length (cs : List Nat) : firstZero cs ≤ cs.length := by
  induction cs with
  | nil => simp [firstZero]
  | cons c cs ih =>
    unfold firstZero
    split_ifs
    · simp
    · simp only [List.length_cons]; omega

theorem firstZero_nonzero (cs : List Nat) :
    ∀ k : Nat, k < firstZero cs → cs.getD k 0 ≠ 0 := by
  induction cs with
  | nil => intro k h; simp [firstZero] at h
  | cons c cs ih =>
    intro k h
    unfold firstZero at h
    split_ifs at h with hc
    · omega
    · cases k with
      | zero => simpa using hc
      | succ k => simpa using ih k (by omega)

theorem firstZero_zero (cs : List Nat) (h : firstZero cs < cs.length) :
    cs.getD (firstZero cs) 0 = 0 := by
  induction cs with
  | nil => simp at h
  | cons c cs ih =>
    unfold firstZero at h ⊢
    split_ifs at h ⊢ with hc
    · simpa using hc
    · simp only [List.length_cons] at h
      simpa using ih (by omega)

theorem getElem?_getD {cs : List Nat} {k : Nat} (h : k < cs.length) :
    cs[k]? = some (cs.getD k 0) := by
  rw [List.getD_eq_getElem?_getD, List.getElem?_eq_getElem h]; rfl

theorem touched_length (list : arrayList) (i : Nat) (hi : i < list.words.length) :
    (touched list i).words.length = list.words.length := by
  unfold touched
  simp only
  exact moveCell_length _ _ _ _ (touchPos_le _ _ _) hi

theorem binarySearchFuel_spec (list : arrayList) (key : Word) (hwf : WF list) :
    ∀ (fuel lo hi : Nat), hi ≤ list.words.length → hi - lo + 1 ≤ fuel →
      ∃ r : Bool × arrayList,
        binarySearchFuel fuel list (lo : Int) ((hi : Int) - 1) key = some r ∧
        ((r = (false, list) ∧
            (SortedOn lo hi list.words →
              ∀ m : Nat, lo ≤ m → m < hi → ¬ ciEq (wordAt list.words m) key)) ∨
         (∃ m : Nat, lo ≤ m ∧ m < hi ∧ ciEq (wordAt list.words m) key ∧
            r = (true, touched list m))) := by
  intro fuel
  induction fuel with
  | zero => intro lo hi _ h; omega
  | succ f ih =>
    intro lo hi hn hf
    unfold binarySearchFuel
    by_cases hlt : lo < hi
    · have hgt : ¬ (lo : Int) > (hi : Int) - 1 := by omega
      rw [if_neg hgt]
      have emid : ((lo : Int) + ((hi : Int) - 1)).tdiv 2 = (((lo + hi - 1) / 2 : Nat) : Int) := by
        rw [Int.tdiv_eq_ediv (by omega) (by omega)]
        omega
      simp only [emid]
      have hm1 : lo ≤ (lo + hi - 1) / 2 := by omega
      have hm2 : (lo + hi - 1) / 2 < hi := by omega
      generalize (lo + hi - 1) / 2 = mid at hm1 hm2
      rw [rd_natCast, getElem?_wordAt (show mid < list.words.length by omega)]
      simp only
      by_cases heq : stricmp (wordAt list.words mid) key = 0
      · rw [if_pos heq, touch_spec list mid hwf (by omega)]
        exact ⟨_, rfl, Or.inr ⟨mid, hm1, hm2, heq, rfl⟩⟩
      · rw [if_neg heq]
        by_cases hlt2 : stricmp (wordAt list.words mid) key < 0
        · rw [if_pos hlt2]
          have e1 : (mid : Int) + 1 = ((mid + 1 : Nat) : Int) := by push_cast; rfl
          rw [e1]
          obtain ⟨r, r1, r2⟩ := ih (mid + 1) hi hn (by omega)
          refine ⟨r, r1, ?_⟩
          rcases r2 with ⟨r3, r4⟩ | ⟨m, m1, m2, m3, m4⟩
          · left
            refine ⟨r3, ?_⟩
            intro hs m hm1' hm2'
            by_cases c : mid < m
            · exact r4 (fun a b ha hab hb => hs a b (by omega) hab hb) m (by omega) hm2'
            · intro hmatch
              unfold ciEq at hmatch
              have hle : stricmp (wordAt list.words m) (wordAt list.words mid) ≤ 0 := by
                by_cases c2 : m = mid
                · subst c2; rw [stricmp_self]
                · exact hs m mid hm1' (by omega) hm2
              have := stricmp_lt_of_le_of_lt hle hlt2
              omega
          · right
            exact ⟨m, by omega, m2, m3, m4⟩
        · rw [if_neg hlt2]
          obtain ⟨r, r1, r2⟩ := ih lo mid (by omega) (by omega)
          refine ⟨r, r1, ?_⟩
          rcases r2 with ⟨r3, r4⟩ | ⟨m, m1, m2, m3, m4⟩
          · left
            refine ⟨r3, ?_⟩
            intro hs m hm1' hm2'
            by_cases c : m < mid
            · exact r4 (fun a b ha hab hb => hs a b ha hab (by omega)) m hm1' c
            · intro hmatch
              unfold ciEq at hmatch
              have hle : stricmp (wordAt list.words mid) (wordAt list.words m) ≤ 0 := by
                by_cases c2 : m = mid
                · subst c2; rw [stricmp_self]
                · exact hs mid m hm1 (by omega) hm2'
              have hkm : stricmp key (wordAt list.words mid) < 0 := by
                rw [stricmp_antisymm]; omega
              have := stricmp_lt_of_lt_of_le hkm hle
              rw [stricmp_antisymm] at this
              omega
          · right
            exact ⟨m, m1, by omega, m3, m4⟩
    · have hgt : (lo : Int) > (hi : Int) - 1 := by omega
      rw [if_pos hgt]
      exact ⟨_, rfl, Or.inl ⟨rfl, fun _ m h1 h2 => by omega⟩⟩

theorem checkWordScan_spec (list : arrayList) (word : Word) (hwf : WF list) :
    ∀ (fuel i : Nat), i ≤ firstZero list.accessCount → list.words.length - i + 1 ≤ fuel →
      ∃ r : arrayList ⊕ Int,
        checkWordScan fuel list word (i : Int) = some r ∧
        ((r = Sum.inr ((firstZero list.accessCount : Nat) : Int) ∧
            ∀ m : Nat, i ≤ m → m < firstZero list.accessCount →
              ¬ ciEq (wordAt list.words m) word) ∨
         (∃ m : Nat, i ≤ m ∧ m < firstZero list.accessCount ∧
            ciEq (wordAt list.words m) word ∧ r = Sum.inl (touched list m))) := by
  have hwf2 : list.accessCount.length = list.words.length := hwf
  have hk := firstZero_le_length list.accessCount
  intro fuel
  induction fuel with
  | zero => intro i _ h; omega
  | succ f ih =>
    intro i hi hf
    unfold checkWordScan
    by_cases hlt : i < list.words.length
    · have hlt2 : (i : Int) < wordCount list := by unfold wordCount; omega
      rw [if_pos hlt2, rd_natCast, getElem?_getD (show i < list.accessCount.length by omega)]
      simp only
      by_cases hc : list.accessCount.getD i 0 = 0
      · have hne : ¬ list.accessCount.getD i 0 ≠ 0 := fun h => h hc
        rw [if_neg hne]
        have hik : i = firstZero list.accessCount := by
          by_contra hcon
          exact firstZero_nonzero list.accessCount i (by omega) hc
        refine ⟨_, rfl, Or.inl ⟨by rw [← hik], fun m h1 h2 => by omega⟩⟩
      · rw [if_pos hc, rd_natCast, getElem?_wordAt hlt]
        simp only
        have hik : i < firstZero list.accessCount := by
          by_contra hcon
          have e : i = firstZero list.accessCount := by omega
          rw [e] at hc
          exact hc (firstZero_zero _ (by omega))
        by_cases hm : stricmp (wordAt list.words i) word = 0
        · rw [if_pos hm, touch_spec list i hwf hlt]
          exact ⟨_, rfl, Or.inr ⟨i, le_refl _, hik, hm, rfl⟩⟩
        · rw [if_neg hm]
          have e1 : (i : Int) + 1 = ((i + 1 : Nat) : Int) := by push_cast; rfl
          rw [e1]
          obtain ⟨r, r1, r2⟩ := ih (i + 1) hik (by omega)
          refine ⟨r, r1, ?_⟩
          rcases r2 with ⟨r3, r4⟩ | ⟨m, m1, m2, m3, m4⟩
          · left
            refine ⟨r3, ?_⟩
            intro m h1 h2
            by_cases c : m = i
            · subst c; exact hm
            · exact r4 m (by omega) h2
          · right
            exact ⟨m, by omega, m2, m3, m4⟩
    · have hlt2 : ¬ (i : Int) < wordCount list := by unfold wordCount; omega
      rw [if_neg hlt2]
      have hik : i = firstZero list.accessCount := by omega
      exact ⟨_, rfl, Or.inl ⟨by rw [← hik], fun m h1 h2 => by omega⟩⟩

theorem checkWordList_spec (list : arrayList) (word : Word) (hwf : WF list) :
    ∃ r : Bool × arrayList,
      checkWordList list word = some r ∧
      ((r = (false, list) ∧
          (∀ m : Nat, m < firstZero list.accessCount → ¬ ciEq (wordAt list.words m) word) ∧
          (SortedOn (firstZero list.accessCount) list.words.length list.words →
            ∀ m : Nat, m < list.words.length → ¬ ciEq (wordAt list.words m) word)) ∨
       (∃ m : Nat, m < list.words.length ∧ ciEq (wordAt list.words m) word ∧
          r = (true, touched list m))) := by
  have hwf2 : list.accessCount.length = list.words.length := hwf
  have hk := firstZero_le_length list.accessCount
  obtain ⟨s, s1, s2⟩ := checkWordScan_spec list word hwf (list.words.length + 1) 0
    (Nat.zero_le _) (by omega)
  unfold checkWordList
  rw [show ((0 : Int)) = ((0 : Nat) : Int) from rfl, s1]
  rcases s2 with ⟨s3, s4⟩ | ⟨m, m1, m2, m3, m4⟩
  · subst s3
    simp only
    by_cases hkn : firstZero list.accessCount = list.words.length
    · have e : ((firstZero list.accessCount : Nat) : Int) = wordCount list := by
        unfold wordCount; omega
      rw [if_pos e]
      refine ⟨_, rfl, Or.inl ⟨rfl, fun m hm => s4 m (Nat.zero_le _) hm, ?_⟩⟩
      intro _ m hm
      exact s4 m (Nat.zero_le _) (by omega)
    · have e : ¬ ((firstZero list.accessCount : Nat) : Int) = wordCount list := by
        unfold wordCount; omega
      rw [if_neg e]
      unfold arrayListBinarySearch
      have e2 : wordCount list = ((list.words.length : Nat) : Int) := rfl
      rw [e2]
      obtain ⟨r, r1, r2⟩ := binarySearchFuel_spec list word hwf
        ((((list.words.length : Nat) : Int) - 1 -
          ((firstZero list.accessCount : Nat) : Int)).toNat + 2)
        (firstZero list.accessCount) list.words.length (le_refl _) (by omega)
      refine ⟨r, r1, ?_⟩
      rcases r2 with ⟨r3, r4⟩ | ⟨m, m1, m2, m3, m4⟩
      · left
        refine ⟨r3, fun m hm => s4 m (Nat.zero_le _) hm, ?_⟩
        intro hs m hm
        by_cases c : m < firstZero list.accessCount
        · exact s4 m (Nat.zero_le _) c
        · exact r4 hs m (by omega) hm
      · right
        exact ⟨m, m2, m3, m4⟩
  · subst m4
    simp only
    exact ⟨_, rfl, Or.inr ⟨m, by omega, m3, rfl⟩⟩

theorem nonInc_iff (cs : List Nat) :
    NonInc cs ↔ ∀ a b : Nat, a < b → b < cs.length → cs.getD b 0 ≤ cs.getD a 0 := by
  unfold NonInc
  rw [List.pairwise_iff_getElem]
  constructor
  · intro h a b hab hb
    have := h a b (by omega) hb hab
    rw [List.getD_eq_getElem?_getD, List.getD_eq_getElem?_getD,
      List.getElem?_eq_getElem hb, List.getElem?_eq_getElem (show a < cs.length by omega)]
    exact this
  · intro h a b ha hb hab
    have := h a b hab hb
    rw [List.getD_eq_getElem?_getD, List.getD_eq_getElem?_getD,
      List.getElem?_eq_getElem hb, List.getElem?_eq_getElem ha] at this
    exact this

theorem pairwise_drop_iff (ws : List Word) (k : Nat) :
    (ws.drop k).Pairwise ciLe ↔ SortedOn k ws.length ws := by
  rw [List.pairwise_iff_getElem]
  unfold SortedOn
  constructor
  · intro h a b ha hab hb
    have h1 : a - k < (ws.drop k).length := by simp; omega
    have h2 : b - k < (ws.drop k).length := by simp; omega
    have := h (a - k) (b - k) h1 h2 (by omega)
    rw [List.getElem_drop, List.getElem_drop] at this
    have ea : k + (a - k) = a := by omega
    have eb : k + (b - k) = b := by omega
    simp only [ea, eb] at this
    rw [wordAt_of_getElem? (List.getElem?_eq_getElem (show a < ws.length by omega)),
      wordAt_of_getElem? (List.getElem?_eq_getElem hb)]
    exact this
  · intro h a b ha hb hab
    simp only [List.length_drop] at ha hb
    have := h (k + a) (k + b) (by omega) (by omega) (by omega)
    rw [wordAt_of_getElem? (List.getElem?_eq_getElem (show k + a < ws.length by omega)),
      wordAt_of_getElem? (List.getElem?_eq_getElem (show k + b < ws.length by omega))] at this
    rw [List.getElem_drop, List.getElem_drop]
    exact this

theorem firstZero_eq (cs : List Nat) (j : Nat) (h1 : ∀ a : Nat, a < j → cs.getD a 0 ≠ 0)
    (h2 : j ≤ cs.length) (h3 : j < cs.length → cs.getD j 0 = 0) : firstZero cs = j := by
  have hk := firstZero_le_length cs
  by_contra hne
  by_cases c : firstZero cs < j
  · exact h1 _ c (firstZero_zero cs (by omega))
  · have c2 : j < firstZero cs := by omega
    exact firstZero_nonzero cs j c2 (h3 (by omega))

theorem nonInc_zero_of_ge (cs : List Nat) (h : NonInc cs) (a : Nat)
    (h1 : firstZero cs ≤ a) (h2 : a < cs.length) : cs.getD a 0 = 0 := by
  by_cases c : a = firstZero cs
  · rw [c]; exact firstZero_zero cs (by omega)
  · have := (nonInc_iff cs).1 h (firstZero cs) a (by omega) h2
    rw [firstZero_zero cs (by omega)] at this
    omega

theorem ge_firstZero_of_zero (cs : List Nat) (a : Nat) (h : cs.getD a 0 = 0) :
    firstZero cs ≤ a := by
  by_contra c
  exact firstZero_nonzero cs a (by omega) h

theorem touched_wordAt (list : arrayList) (i : Nat) (hi : i < list.words.length) (k : Nat) :
    wordAt (touched list i).words k =
      wordAt list.words
        (srcIdx i (touchPos list.accessCount (list.accessCount.getD i 0) i) k) := by
  unfold touched srcIdx
  simp only
  have hp := touchPos_le list.accessCount (list.accessCount.getD i 0) i
  have := moveCell_getElem? list.words i
    (touchPos list.accessCount (list.accessCount.getD i 0) i) (wordAt list.words i) hp hi k
  split_ifs at this ⊢ with c1 c2 c3
  · exact wordAt_congr this
  · exact wordAt_of_getElem? this
  · exact wordAt_congr this
  · exact wordAt_congr this

theorem touched_count (list : arrayList) (i : Nat) (hwf : WF list)
    (hi : i < list.words.length) (k : Nat) :
    (touched list i).accessCount.getD k 0 =
      if k = touchPos list.accessCount (list.accessCount.getD i 0) i
      then list.accessCount.getD i 0 + 1
      else list.accessCount.getD
        (srcIdx i (touchPos list.accessCount (list.accessCount.getD i 0) i) k) 0 := by
  have hwf2 : list.accessCount.length = list.words.length := hwf
  unfold touched srcIdx
  simp only
  have hp := touchPos_le list.accessCount (list.accessCount.getD i 0) i
  have := moveCell_getElem? list.accessCount i
    (touchPos list.accessCount (list.accessCount.getD i 0) i)
    (list.accessCount.getD i 0 + 1) hp (by omega) k
  rw [List.getD_eq_getElem?_getD, this]
  split_ifs with c1 c2 c3
  · omega
  · rw [List.getD_eq_getElem?_getD]
  · rfl
  · rw [List.getD_eq_getElem?_getD]
  · rw [List.getD_eq_getElem?_getD]

theorem touched_wf (list : arrayList) (i : Nat) (hwf : WF list) (hi : i < list.words.length) :
    WF (touched list i) := by
  have hwf2 : list.accessCount.length = list.words.length := hwf
  unfold WF touched
  simp only
  rw [moveCell_length _ _ _ _ (touchPos_le _ _ _) hi,
    moveCell_length _ _ _ _ (touchPos_le _ _ _) (by omega)]
  exact hwf2

theorem touched_nonInc (list : arrayList) (i : Nat) (hwf : WF list)
    (hi : i < list.words.length) (h : NonInc list.accessCount) :
    NonInc (touched list i).accessCount := by
  have hwf2 : list.accessCount.length = list.words.length := hwf
  have hlen : (touched list i).accessCount.length = list.accessCount.length := by
    have := touched_wf list i hwf hi
    unfold WF at this
    rw [this, touched_length list i hi, hwf2]
  rw [nonInc_iff] at h ⊢
  intro a b hab hb
  rw [hlen] at hb
  rw [touched_count list i hwf hi a, touched_count list i hwf hi b]
  have hp := touchPos_le list.accessCount (list.accessCount.getD i 0) i
  have hbt := touchPos_between list.accessCount (list.accessCount.getD i 0) i
  have hst := touchPos_stop list.accessCount (list.accessCount.getD i 0) i
  generalize touchPos list.accessCount (list.accessCount.getD i 0) i = p at hp hbt hst
  unfold srcIdx
  by_cases hb1 : b = p
  · -- everything left of the landing cell has a larger count
    rw [if_pos hb1, if_neg (by omega), if_pos (by omega)]
    have h1 := hst (by omega)
    by_cases c : a = p - 1
    · rw [c]; exact h1
    · have := h a (p - 1) (by omega) (by omega)
      omega
  · rw [if_neg hb1]
    by_cases ha1 : a = p
    · rw [if_pos ha1, if_neg (by omega), if_neg hb1]
      by_cases c : b ≤ i
      · rw [if_pos c]
        have := hbt (b - 1) (by omega) (by omega)
        omega
      · rw [if_neg c]
        have := h i b (by omega) hb
        omega
    · rw [if_neg ha1]
      by_cases c1 : a < p
      · rw [if_pos c1]
        by_cases c2 : b < p
        · rw [if_pos c2]; exact h a b hab hb
        · rw [if_neg c2, if_neg hb1]
          by_cases c3 : b ≤ i
          · rw [if_pos c3]; exact h a (b - 1) (by omega) (by omega)
          · rw [if_neg c3]; exact h a b hab hb
      · rw [if_neg c1, if_neg ha1, if_neg (by omega), if_neg hb1]
        by_cases c2 : a ≤ i
        · rw [if_pos c2]
          by_cases c3 : b ≤ i
          · rw [if_pos c3]; exact h (a - 1) (b - 1) (by omega) (by omega)
          · rw [if_neg c3]; exact h (a - 1) b (by omega) hb
        · rw [if_neg c2, if_neg (by omega)]
          exact h a b hab hb

theorem touched_coldSorted (list : arrayList) (i : Nat) (hi : i < list.words.length)
    (h : HotCold list) : ColdSorted (touched list i) := by
  obtain ⟨hwf, hni, hcs⟩ := h
  have hwf2 : list.accessCount.length = list.words.length := hwf
  have hni2 := touched_nonInc list i hwf hi hni
  have hwf3 : (touched list i).accessCount.length = (touched list i).words.length :=
    touched_wf list i hwf hi
  have hlen := touched_length list i hi
  unfold ColdSorted at hcs ⊢
  rw [pairwise_drop_iff] at hcs ⊢
  intro a b ha hab hb
  rw [hlen] at hb
  have za := nonInc_zero_of_ge _ hni2 a ha (by omega)
  have zb := nonInc_zero_of_ge _ hni2 b (by omega) (by omega)
  rw [touched_count list i hwf hi] at za zb
  rw [touched_wordAt list i hi a, touched_wordAt list i hi b]
  have hp := touchPos_le list.accessCount (list.accessCount.getD i 0) i
  generalize touchPos list.accessCount (list.accessCount.getD i 0) i = p at hp za zb
  have ha1 : a ≠ p := by
    intro e; rw [if_pos e] at za; omega
  have hb1 : b ≠ p := by
    intro e; rw [if_pos e] at zb; omega
  rw [if_neg ha1] at za
  rw [if_neg hb1] at zb
  have hsa := ge_firstZero_of_zero _ _ za
  have hlt : srcIdx i p a < srcIdx i p b := by
    unfold srcIdx; split_ifs <;> omega
  have hsb : srcIdx i p b < list.words.length := by
    unfold srcIdx; split_ifs <;> omega
  exact hcs _ _ hsa hlt hsb

theorem touched_hotCold (list : arrayList) (i : Nat) (hi : i < list.words.length)
    (h : HotCold list) : HotCold (touched list i) :=
  ⟨touched_wf list i h.1 hi, touched_nonInc list i h.1 hi h.2.1, touched_coldSorted list i hi h⟩

theorem exists_index_of_mem {ws : List Word} {v : Word} (h : v ∈ ws) :
    ∃ m : Nat, m < ws.length ∧ wordAt ws m = v := by
  obtain ⟨m, hm⟩ := List.mem_iff_getElem?.1 h
  refine ⟨m, ?_, wordAt_of_getElem? hm⟩
  by_contra c
  rw [List.getElem?_eq_none (by omega)] at hm
  exact Option.noConfusion hm

/-- C3: on a store whose hit counts are non-increasing and whose suffix from
the first zero-hit index is sorted, the lookup of `checkWord` returns true for
every word that is case-insensitively equal to a stored word. -/
theorem checkWordList_complete (list : arrayList) (w : Word) (h : HotCold list)
    (hmem : ∃ v : Word, v ∈ list.words ∧ stricmp v w = 0) :
    ∃ list1 : arrayList, checkWordList list w = some (true, list1) := by
  obtain ⟨hwf, _, hcs⟩ := h
  obtain ⟨v, hv, hvw⟩ := hmem
  obtain ⟨m, hm1, hm2⟩ := exists_index_of_mem hv
  obtain ⟨r, r1, r2⟩ := checkWordList_spec list w hwf
  rcases r2 with ⟨_, _, r5⟩ | ⟨m', _, _, r8⟩
  · exfalso
    unfold ColdSorted at hcs
    rw [pairwise_drop_iff] at hcs
    exact r5 hcs m hm1 (by unfold ciEq; rw [hm2]; exact hvw)
  · exact ⟨touched list m', by rw [r1, r8]⟩

/-- Witness for C3: hot prefix `dog(2) cat(1)`, cold suffix `ant bee`, lookup
of `BEE`. -/
theorem checkWordList_complete_witness :
    HotCold ⟨[[100, 111, 103], [99, 97, 116], [97, 110, 116], [98, 101, 101]], [2, 1, 0, 0], 4⟩ ∧
    (∃ v : Word, v ∈ [[100, 111, 103], [99, 97, 116], [97, 110, 116], [98, 101, 101]] ∧
      stricmp v [66, 69, 69] = 0) ∧
    ∃ list1 : arrayList,
      checkWordList
        ⟨[[100, 111, 103], [99, 97, 116], [97, 110, 116], [98, 101, 101]], [2, 1, 0, 0], 4⟩
        [66, 69, 69] = some (true, list1) :=
  ⟨by decide, ⟨[98, 101, 101], by decide, by decide⟩,
    checkWordList_complete _ _ (by decide) ⟨[98, 101, 101], by decide, by decide⟩⟩

theorem nonInc_of_all_zero (cs : List Nat) (h : ∀ c ∈ cs, c = 0) : NonInc cs := by
  unfold NonInc
  rw [List.pairwise_iff_forall_sublist]
  intro a b hab
  have hb : b ∈ cs := hab.subset (by simp)
  rw [h b hb]
  exact Nat.zero_le _

theorem touchAll_spec (idxs : List Int) :
    ∀ list : arrayList, WF list → NonInc list.accessCount →
      (∀ i ∈ idxs, 0 ≤ i ∧ i < wordCount list) →
      ∃ list1 : arrayList, touchAll list idxs = some list1 ∧ WF list1 ∧
        NonInc list1.accessCount ∧ list1.words.length = list.words.length := by
  induction idxs with
  | nil => intro list hwf hni _; exact ⟨list, rfl, hwf, hni, rfl⟩
  | cons i rest ih =>
    intro list hwf hni hv
    obtain ⟨h0, h1⟩ := hv i (by simp)
    obtain ⟨n, rfl⟩ := Int.eq_ofNat_of_zero_le h0
    have hn : n < list.words.length := by unfold wordCount at h1; omega
    unfold touchAll
    rw [touch_spec list n hwf hn]
    simp only
    have hlen := touched_length list n hn
    obtain ⟨l1, a1, a2, a3, a4⟩ := ih (touched list n) (touched_wf list n hwf hn)
      (touched_nonInc list n hwf hn hni)
      (by
        intro j hj
        have := hv j (by simp [hj])
        unfold wordCount at this ⊢
        rw [hlen]
        exact this)
    exact ⟨l1, a1, a2, a3, by omega⟩

theorem touchAll_unbounded (list : arrayList) (idxs : List Int) (hwf : WF list)
    (hzero : ∀ c ∈ list.accessCount, c = 0)
    (hvalid : ∀ i ∈ idxs, 0 ≤ i ∧ i < wordCount list) :
    ∃ list1 : arrayList, touchAll list idxs = some list1 ∧
      (∀ (a b ca cb : Nat), a < b → b < firstZero list1.accessCount →
        list1.accessCount[a]? = some ca → list1.accessCount[b]? = some cb → cb ≤ ca) ∧
      (∀ (k c : Nat), firstZero list1.accessCount ≤ k →
        list1.accessCount[k]? = some c → c = 0) := by
  obtain ⟨l1, a1, _, a3, _⟩ :=
    touchAll_spec idxs list hwf (nonInc_of_all_zero _ hzero) hvalid
  refine ⟨l1, a1, ?_, ?_⟩
  · intro a b ca cb hab hb ha1 hb1
    have hk := firstZero_le_length l1.accessCount
    have := (nonInc_iff _).1 a3 a b hab (by omega)
    rw [List.getD_eq_getElem?_getD, List.getD_eq_getElem?_getD, ha1, hb1] at this
    exact this
  · intro k c hk hc
    have hlt : k < l1.accessCount.length := by
      by_contra hcon
      rw [List.getElem?_eq_none (by omega)] at hc
      exact Option.noConfusion hc
    have := nonInc_zero_of_ge _ a3 k hk hlt
    rw [List.getD_eq_getElem?_getD, hc] at this
    exact this

theorem touched_words_getElem? (list : arrayList) (i : Nat) (hi : i < list.words.length)
    (k : Nat) :
    (touched list i).words[k]? =
      if k < touchPos list.accessCount (list.accessCount.getD i 0) i then list.words[k]?
      else if k = touchPos list.accessCount (list.accessCount.getD i 0) i
      then some (wordAt list.words i)
      else if k ≤ i then list.words[k - 1]? else list.words[k]? :=
  moveCell_getElem? list.words i _ _ (touchPos_le _ _ _) hi k

theorem touched_count_getElem? (list : arrayList) (i : Nat) (hwf : WF list)
    (hi : i < list.words.length) (k : Nat) :
    (touched list i).accessCount[k]? =
      if k < touchPos list.accessCount (list.accessCount.getD i 0) i then list.accessCount[k]?
      else if k = touchPos list.accessCount (list.accessCount.getD i 0) i
      then some (list.accessCount.getD i 0 + 1)
      else if k ≤ i then list.accessCount[k - 1]? else list.accessCount[k]? := by
  have hwf2 : list.accessCount.length = list.words.length := hwf
  exact moveCell_getElem? list.accessCount i _ _ (touchPos_le _ _ _) (by omega) k

theorem touchPos_zero (cs : List Nat) (h : ∀ c ∈ cs, c = 0) :
    ∀ i : Nat, touchPos cs 0 i = 0 := by
  intro i
  induction i with
  | zero => rfl
  | succ n ih =>
    unfold touchPos
    have hz : cs.getD n 0 = 0 := by
      rw [List.getD_eq_getElem?_getD]
      cases hc : cs[n]? with
      | none => rfl
      | some c => exact h c (List.mem_iff_getElem?.2 ⟨n, hc⟩)
    rw [hz, if_pos (by omega)]
    exact ih

theorem moveCell_zero {α : Type} (l : List α) (i : Nat) (x : α) :
    moveCell l i 0 x = x :: l.eraseIdx i := by
  unfold moveCell
  rw [List.eraseIdx_eq_take_drop_succ]
  simp

theorem firstZero_all_zero (cs : List Nat) (h : ∀ c ∈ cs, c = 0) : firstZero cs = 0 := by
  cases cs with
  | nil => rfl
  | cons c cs => unfold firstZero; rw [if_pos (h c (by simp))]

/-- C8: on a case-insensitively sorted store with all hit counts zero, one
lookup of a word `w` that is case-insensitively equal to a stored word returns
true; afterwards index 0 holds a stored word case-insensitively equal to `w`
with hit count 1, all other hit counts are 0, and the other words follow in
their previous relative order. -/
theorem checkWordList_promotes (list : arrayList) (w : Word) (hwf : WF list)
    (hzero : ∀ c ∈ list.accessCount, c = 0) (hsorted : list.words.Pairwise ciLe)
    (hmem : ∃ v : Word, v ∈ list.words ∧ stricmp v w = 0) :
    ∃ (list1 : arrayList) (m : Nat) (v : Word),
      checkWordList list w = some (true, list1) ∧
      list.words[m]? = some v ∧ stricmp v w = 0 ∧
      list1.words = v :: list.words.eraseIdx m ∧
      list1.accessCount = 1 :: List.replicate (list.words.length - 1) 0 := by
  have hwf2 : list.accessCount.length = list.words.length := hwf
  have hk := firstZero_all_zero _ hzero
  have hhc : HotCold list := by
    refine ⟨hwf, nonInc_of_all_zero _ hzero, ?_⟩
    unfold ColdSorted
    rw [hk]
    exact hsorted
  obtain ⟨v, hv, hvw⟩ := hmem
  obtain ⟨m0, hm1, hm2⟩ := exists_index_of_mem hv
  obtain ⟨r, r1, r2⟩ := checkWordList_spec list w hwf
  rcases r2 with ⟨_, _, r5⟩ | ⟨m, m1, m2, m3⟩
  · exfalso
    have hcs := hhc.2.2
    unfold ColdSorted at hcs
    rw [pairwise_drop_iff] at hcs
    exact r5 hcs m0 hm1 (by unfold ciEq; rw [hm2]; exact hvw)
  · refine ⟨touched list m, m, wordAt list.words m, by rw [r1, m3], getElem?_wordAt m1, m2, ?_, ?_⟩
    · unfold touched
      simp only
      have hz : list.accessCount.getD m 0 = 0 := by
        rw [List.getD_eq_getElem?_getD, List.getElem?_eq_getElem (show m < _ by omega)]
        exact hzero _ (List.getElem_mem _)
      rw [hz, touchPos_zero _ hzero, moveCell_zero]
    · unfold touched
      simp only
      have hz : list.accessCount.getD m 0 = 0 := by
        rw [List.getD_eq_getElem?_getD, List.getElem?_eq_getElem (show m < _ by omega)]
        exact hzero _ (List.getElem_mem _)
      rw [hz, touchPos_zero _ hzero, moveCell_zero]
      congr 1
      rw [List.eq_replicate_iff]
      refine ⟨by rw [List.length_eraseIdx, if_pos (by omega)]; omega, ?_⟩
      intro b hb
      exact hzero b (List.mem_of_mem_eraseIdx hb)

/-- Witness for C8: `apple banana cherry`, lookup of `banana`. -/
theorem checkWordList_promotes_witness :
    WF ⟨[[97, 112, 112, 108, 101], [98, 97, 110, 97, 110, 97],
      [99, 104, 101, 114, 114, 121]], [0, 0, 0], 4⟩ ∧
    (∀ c ∈ [0, 0, 0], c = 0) ∧
    List.Pairwise ciLe [[97, 112, 112, 108, 101], [98, 97, 110, 97, 110, 97],
      [99, 104, 101, 114, 114, 121]] ∧
    checkWordList ⟨[[97, 112, 112, 108, 101], [98, 97, 110, 97, 110, 97],
      [99, 104, 101, 114, 114, 121]], [0, 0, 0], 4⟩ [98, 97, 110, 97, 110, 97] =
      some (true, ⟨[[98, 97, 110, 97, 110, 97], [97, 112, 112, 108, 101],
        [99, 104, 101, 114, 114, 121]], [1, 0, 0], 4⟩) ∧
    ∃ (list1 : arrayList) (m : Nat) (v : Word),
      checkWordList ⟨[[97, 112, 112, 108, 101], [98, 97, 110, 97, 110, 97],
        [99, 104, 101, 114, 114, 121]], [0, 0, 0], 4⟩ [98, 97, 110, 97, 110, 97] =
        some (true, list1) ∧
      (⟨[[97, 112, 112, 108, 101], [98, 97, 110, 97, 110, 97],
        [99, 104, 101, 114, 114, 121]], [0, 0, 0], 4⟩ : arrayList).words[m]? = some v ∧
      stricmp v [98, 97, 110, 97, 110, 97] = 0 ∧
      list1.words = v :: (⟨[[97, 112, 112, 108, 101], [98, 97, 110, 97, 110, 97],
        [99, 104, 101, 114, 114, 121]], [0, 0, 0], 4⟩ : arrayList).words.eraseIdx m ∧
      list1.accessCount = 1 :: List.replicate
        ((⟨[[97, 112, 112, 108, 101], [98, 97, 110, 97, 110, 97],
          [99, 104, 101, 114, 114, 121]], [0, 0, 0], 4⟩ : arrayList).words.length - 1) 0 :=
  ⟨by decide, by decide, by decide, by decide,
    checkWordList_promotes _ _ (by decide) (by decide) (by decide)
      ⟨[98, 97, 110, 97, 110, 97], by decide, by decide⟩⟩

theorem touched_cells (list : arrayList) (i : Nat) (hwf : WF list)
    (hi : i < list.words.length) :
    (cells (touched list i)).Perm
      ((wordAt list.words i, list.accessCount.getD i 0 + 1) :: (cells list).eraseIdx i) := by
  have hwf2 : list.accessCount.length = list.words.length := hwf
  unfold cells touched
  simp only
  rw [moveCell_zip _ _ _ _ _ _ hwf2.symm (touchPos_le _ _ _) hi]
  exact moveCell_perm _ _ _ _ (touchPos_le _ _ _)

theorem cells_erase (list : arrayList) (i : Nat) (hwf : WF list)
    (hi : i < list.words.length) :
    ((wordAt list.words i, list.accessCount.getD i 0) :: (cells list).eraseIdx i).Perm
      (cells list) := by
  have hwf2 : list.accessCount.length = list.words.length := hwf
  apply eraseIdx_perm
  unfold cells
  rw [List.getElem?_zip_eq_some]
  exact ⟨getElem?_wordAt hi, getElem?_getD (by omega)⟩

theorem touched_words_perm (list : arrayList) (i : Nat) (hi : i < list.words.length) :
    (touched list i).words.Perm list.words := by
  unfold touched
  simp only
  exact (moveCell_perm _ _ _ _ (touchPos_le _ _ _)).trans
    (eraseIdx_perm _ _ _ (getElem?_wordAt hi))

theorem lookupCount_snoc (qs : List Word) (q w : Word) :
    lookupCount (qs ++ [q]) w = lookupCount qs w + if stricmp q w = 0 then 1 else 0 := by
  unfold lookupCount
  rw [List.countP_append]
  simp [List.countP_cons]

theorem Counted.step (list : arrayList) (done : List Word) (q : Word)
    (h : Counted list done) :
    ∃ r : Bool × arrayList, checkWordList list q = some r ∧
      Counted r.2 (done ++ [q]) ∧ r.2.words.Perm list.words := by
  obtain ⟨hhc, hdist, hcnt⟩ := h
  have hwf := hhc.1
  have hwf2 : list.accessCount.length = list.words.length := hwf
  have hsym : ∀ {x y : Word × Nat}, ¬ stricmp x.1 y.1 = 0 → ¬ stricmp y.1 x.1 = 0 :=
    fun hxy hyx => hxy (stricmp_eq_symm hyx)
  obtain ⟨r, r1, r2⟩ := checkWordList_spec list q hwf
  refine ⟨r, r1, ?_⟩
  rcases r2 with ⟨r3, _, r5⟩ | ⟨m, m1, m2, m3⟩
  · subst r3
    have hcs := hhc.2.2
    unfold ColdSorted at hcs
    rw [pairwise_drop_iff] at hcs
    have hno := r5 hcs
    refine ⟨⟨hhc, hdist, ?_⟩, List.Perm.refl _⟩
    intro x hx
    rw [lookupCount_snoc, hcnt x hx]
    have hxw : x.1 ∈ list.words := (List.of_mem_zip (show (x.1, x.2) ∈ _ from hx)).1
    obtain ⟨k, hk1, hk2⟩ := exists_index_of_mem hxw
    have : ¬ stricmp q x.1 = 0 := by
      intro e
      apply hno k hk1
      unfold ciEq
      rw [hk2]
      exact stricmp_eq_symm e
    rw [if_neg this]
    rfl
  · subst m3
    simp only
    have hp1 := touched_cells list m hwf m1
    have hp2 := cells_erase list m hwf m1
    have hd2 := (List.Perm.pairwise_iff hsym hp2).2 hdist
    rw [List.pairwise_cons] at hd2
    refine ⟨⟨touched_hotCold list m m1 hhc, ?_, ?_⟩, touched_words_perm list m m1⟩
    · apply (List.Perm.pairwise_iff hsym hp1).2
      rw [List.pairwise_cons]
      exact ⟨hd2.1, hd2.2⟩
    · intro x hx
      have hx2 := (hp1.mem_iff).1 hx
      rw [lookupCount_snoc]
      rcases List.mem_cons.1 hx2 with e | hmem
      · subst e
        simp only
        have hc := hcnt (wordAt list.words m, list.accessCount.getD m 0)
          ((hp2.mem_iff).1 (List.mem_cons_self _ _))
        simp only at hc
        rw [hc, if_pos (stricmp_eq_symm m2)]
      · have hc := hcnt x ((hp2.mem_iff).1 (List.mem_cons_of_mem _ hmem))
        rw [hc]
        have hne := hd2.1 x hmem
        simp only at hne
        have : ¬ stricmp q x.1 = 0 := fun e => hne (stricmp_eq_trans m2 e)
        rw [if_neg this]
        rfl

theorem lookupAll_counted (qs : List Word) :
    ∀ (list : arrayList) (done : List Word), Counted list done →
      ∃ list1 : arrayList, lookupAll list qs = some list1 ∧ Counted list1 (done ++ qs) ∧
        list1.words.Perm list.words := by
  induction qs with
  | nil =>
    intro list done h
    exact ⟨list, rfl, by rw [List.append_nil]; exact h, List.Perm.refl _⟩
  | cons q rest ih =>
    intro list done h
    obtain ⟨r, r1, r2, r3⟩ := Counted.step list done q h
    obtain ⟨l1, a1, a2, a3⟩ := ih r.2 (done ++ [q]) r2
    refine ⟨l1, ?_, ?_, a3.trans r3⟩
    · unfold lookupAll
      rw [r1]
      exact a1
    · rw [List.append_assoc] at a2
      exact a2

/-- C9: on a case-insensitively sorted store with all hit counts zero and no
two case-insensitively equal words, every finite sequence of lookups runs to
completion, keeps the stored words (as a multiset), and leaves every stored
word with a hit count equal to the number of lookups in the sequence whose
word was case-insensitively equal to it. -/
theorem lookupAll_counts (list : arrayList) (qs : List Word) (hwf : WF list)
    (hzero : ∀ c ∈ list.accessCount, c = 0) (hsorted : list.words.Pairwise ciLe)
    (hdistinct : list.words.Pairwise (fun a b => ¬ stricmp a b = 0)) :
    ∃ list1 : arrayList, lookupAll list qs = some list1 ∧
      list1.words.Perm list.words ∧
      ∀ (k : Nat) (w : Word) (c : Nat),
        list1.words[k]? = some w → list1.accessCount[k]? = some c → c = lookupCount qs w := by
  have hwf2 : list.accessCount.length = list.words.length := hwf
  have hk := firstZero_all_zero _ hzero
  have h0 : Counted list [] := by
    refine ⟨⟨hwf, nonInc_of_all_zero _ hzero, ?_⟩, ?_, ?_⟩
    · unfold ColdSorted
      rw [hk]
      exact hsorted
    · unfold cells
      have : list.words = (list.words.zip list.accessCount).map Prod.fst :=
        (List.map_fst_zip _ _ (by omega)).symm
      rw [this, List.pairwise_map] at hdistinct
      exact hdistinct
    · intro x hx
      have := (List.of_mem_zip (show (x.1, x.2) ∈ _ from hx)).2
      rw [hzero _ this]
      rfl
  obtain ⟨l1, a1, a2, a3⟩ := lookupAll_counted qs list [] h0
  rw [List.nil_append] at a2
  refine ⟨l1, a1, a3, ?_⟩
  intro k w c hw hc
  have hmem : (w, c) ∈ cells l1 := by
    unfold cells
    exact List.mem_iff_getElem?.2 ⟨k, List.getElem?_zip_eq_some.2 ⟨hw, hc⟩⟩
  exact a2.2.2 (w, c) hmem

/-- Witness for C9: `apple banana cherry`, lookups `cherry cherry cherry
apple`, ending in `cherry apple banana` with hit counts `3 1 0`. -/
theorem lookupAll_counts_witness :
    WF ⟨[[97, 112, 112, 108, 101], [98, 97, 110, 97, 110, 97],
      [99, 104, 101, 114, 114, 121]], [0, 0, 0], 4⟩ ∧
    lookupAll ⟨[[97, 112, 112, 108, 101], [98, 97, 110, 97, 110, 97],
        [99, 104, 101, 114, 114, 121]], [0, 0, 0], 4⟩
      [[99, 104, 101, 114, 114, 121], [99, 104, 101, 114, 114, 121],
        [99, 104, 101, 114, 114, 121], [97, 112, 112, 108, 101]] =
      some ⟨[[99, 104, 101, 114, 114, 121], [97, 112, 112, 108, 101],
        [98, 97, 110, 97, 110, 97]], [3, 1, 0], 4⟩ ∧
    ∃ list1 : arrayList,
      lookupAll ⟨[[97, 112, 112, 108, 101], [98, 97, 110, 97, 110, 97],
          [99, 104, 101, 114, 114, 121]], [0, 0, 0], 4⟩
        [[99, 104, 101, 114, 114, 121], [99, 104, 101, 114, 114, 121],
          [99, 104, 101, 114, 114, 121], [97, 112, 112, 108, 101]] = some list1 ∧
      list1.words.Perm (⟨[[97, 112, 112, 108, 101], [98, 97, 110, 97, 110, 97],
        [99, 104, 101, 114, 114, 121]], [0, 0, 0], 4⟩ : arrayList).words ∧
      ∀ (k : Nat) (w : Word) (c : Nat),
        list1.words[k]? = some w → list1.accessCount[k]? = some c →
          c = lookupCount [[99, 104, 101, 114, 114, 121], [99, 104, 101, 114, 114, 121],
            [99, 104, 101, 114, 114, 121], [97, 112, 112, 108, 101]] w :=
  ⟨by decide, by decide,
    lookupAll_counts _ _ (by decide) (by decide) (by decide) (by decide)⟩

theorem slotSameWords_refl (s : Option arrayList) : slotSameWords s s := by
  cases s with
  | none => exact True.intro
  | some a => exact ⟨rfl, List.Perm.refl _⟩

theorem indexOfChar_letter (ch : Int) (h : isLetter ch) :
    0 ≤ indexOfChar ch ∧ indexOfChar ch < 26 := by
  unfold isLetter at h
  unfold indexOfChar
  split_ifs <;> omega

theorem set_self_of_getElem? {α : Type} (l : List α) (k : Nat) (x : α) (h : l[k]? = some x) :
    l.set k x = l := by
  apply List.ext_getElem?
  intro n
  rw [List.getElem?_set]
  by_cases c : k = n
  · subst c
    rw [if_pos rfl]
    split_ifs with c2
    · exact h.symm
    · rw [List.getElem?_eq_none (by omega)]
  · rw [if_neg c]

theorem checkWord_spec (d : Dictionary) (w : Word) (hwf : DictWF d) (idx : Nat)
    (hidx : indexOfChar (firstChar w) = (idx : Int)) (s : Option arrayList)
    (hs : d[idx]? = some s) :
    (s = none ∧ checkWord w d = some (false, d)) ∨
    (∃ (list : arrayList) (r : Bool × arrayList), s = some list ∧
      checkWordList list w = some r ∧
      checkWord w d = some (r.1, d.set idx (some r.2)) ∧
      ((r = (false, list) ∧
          (SortedOn (firstZero list.accessCount) list.words.length list.words →
            ∀ m : Nat, m < list.words.length → ¬ ciEq (wordAt list.words m) w)) ∨
       (∃ m : Nat, m < list.words.length ∧ ciEq (wordAt list.words m) w ∧
          r = (true, touched list m)))) := by
  unfold checkWord
  simp only [hidx, rd_natCast, hs, Int.toNat_ofNat]
  cases s with
  | none => exact Or.inl ⟨rfl, rfl⟩
  | some list =>
    right
    have hl : WF list := hwf (some list) (List.mem_iff_getElem?.2 ⟨idx, hs⟩)
    obtain ⟨r, r1, r2⟩ := checkWordList_spec list w hl
    refine ⟨list, r, rfl, r1, by simp only [r1, Option.map_some'], ?_⟩
    rcases r2 with ⟨r3, _, r5⟩ | ⟨m, m1, m2, m3⟩
    · exact Or.inl ⟨r3, r5⟩
    · exact Or.inr ⟨m, m1, m2, m3⟩

theorem arrayListQuickSort_perm (list : arrayList) (hwf : WF list) :
    ∃ list1 : arrayList,
      arrayListQuickSort list 0 (wordCount list - 1) = some list1 ∧
      wordCount list1 = wordCount list ∧ WF list1 ∧
      (list1.words.zip list1.accessCount).Perm (list.words.zip list.accessCount) ∧
      list1.words.Perm list.words ∧ list1.accessCount.Perm list.accessCount := by
  have hwf2 : list.accessCount.length = list.words.length := hwf
  obtain ⟨list1, h1, h2, _⟩ := arrayListQuickSort_spec list hwf
  have hwf3 : list1.accessCount.length = list1.words.length := h2.wf hwf
  have hz := h2.2.2.2.2.2
  refine ⟨list1, h1, by unfold wordCount; rw [h2.1], h2.wf hwf, hz, ?_, ?_⟩
  · have := hz.map Prod.fst
    rw [List.map_fst_zip _ _ (by omega), List.map_fst_zip _ _ (by omega)] at this
    exact this
  · have := hz.map Prod.snd
    rw [List.map_snd_zip _ _ (by omega), List.map_snd_zip _ _ (by omega)] at this
    exact this

/-- C10, counterexample: in the sample dictionary (26 slots, every store with
as many hit counts as words) `checkWord` for the word `7up` yields no
dictionary at all: `indexOfChar('7')` is `-10`, and `dictionary[-10]` is not
one of the slots, so "for any word" does not hold. -/
theorem words_preserved_counterexample :
    DictWF sampleDictionary ∧ sampleDictionary.length = 26 ∧
    indexOfChar (firstChar [55, 117, 112]) = -10 ∧
    checkWord [55, 117, 112] sampleDictionary = none ∧
    ¬ ∃ (b : Bool) (d1 : Dictionary),
      checkWord [55, 117, 112] sampleDictionary = some (b, d1) ∧
      d1.length = sampleDictionary.length ∧
      ∀ (k : Nat) (s : Option arrayList), sampleDictionary[k]? = some s →
        ∃ s1 : Option arrayList, d1[k]? = some s1 ∧ slotSameWords s s1 := by
  refine ⟨by decide, by decide, by decide, by decide, ?_⟩
  rintro ⟨b, d1, h, _⟩
  have hn : checkWord [55, 117, 112] sampleDictionary = none := by decide
  rw [hn] at h
  exact Option.noConfusion h

/-- C10, amended: no word is lost or duplicated.  `arrayListQuickSort` over
`[0, wordCount-1]` returns a store with the same `wordCount`, the same multiset
of (word, hit count) cells, hence of words, and all-zero hit counts when they
were all zero; `arrayListTouchWord` at a valid index returns a store with the
same `wordCount` and multiset of words; and `checkWord`, for any word whose
first character is an ASCII letter, on a dictionary of 26 slots, returns and
leaves every slot absent as before or holding a store with the same
`wordCount` and multiset of words. -/
theorem words_preserved (d : Dictionary) (list : arrayList) (i : Nat) (w : Word)
    (hd : DictWF d) (hlen : d.length = 26) (hl : isLetter (firstChar w))
    (hwf : WF list) (hi : i < list.words.length) :
    (∃ list1 : arrayList,
      arrayListQuickSort list 0 (wordCount list - 1) = some list1 ∧
      wordCount list1 = wordCount list ∧
      (list1.words.zip list1.accessCount).Perm (list.words.zip list.accessCount) ∧
      list1.words.Perm list.words ∧
      ((∀ c ∈ list.accessCount, c = 0) → ∀ c ∈ list1.accessCount, c = 0)) ∧
    (∃ list1 : arrayList,
      arrayListTouchWord list (i : Int) = some list1 ∧
      wordCount list1 = wordCount list ∧ list1.words.Perm list.words) ∧
    (∃ (b : Bool) (d1 : Dictionary), checkWord w d = some (b, d1) ∧
      d1.length = d.length ∧
      ∀ (k : Nat) (s : Option arrayList), d[k]? = some s →
        ∃ s1 : Option arrayList, d1[k]? = some s1 ∧ slotSameWords s s1) := by
  refine ⟨?_, ?_, ?_⟩
  · obtain ⟨list1, h1, h2, _, h4, h5, h6⟩ := arrayListQuickSort_perm list hwf
    refine ⟨list1, h1, h2, h4, h5, ?_⟩
    intro hz c hc
    exact hz c ((h6.mem_iff).1 hc)
  · refine ⟨touched list i, touch_spec list i hwf hi, ?_, touched_words_perm list i hi⟩
    unfold wordCount
    rw [touched_length list i hi]
  · obtain ⟨h0, h1⟩ := indexOfChar_letter _ hl
    obtain ⟨idx, hidx⟩ := Int.eq_ofNat_of_zero_le h0
    have hlt : idx < d.length := by omega
    rcases checkWord_spec d w hd idx hidx _ (List.getElem?_eq_getElem hlt) with
      ⟨_, h2⟩ | ⟨l, r, h1, _, h3, h4⟩
    · exact ⟨false, d, h2, rfl, fun k s hk => ⟨s, hk, slotSameWords_refl s⟩⟩
    · refine ⟨r.1, d.set idx (some r.2), h3, by simp, ?_⟩
      intro k s0 hk
      rw [List.getElem?_set]
      by_cases c : idx = k
      · subst c
        rw [if_pos rfl, if_pos hlt]
        refine ⟨some r.2, rfl, ?_⟩
        rw [List.getElem?_eq_getElem hlt, h1] at hk
        have e4 : s0 = some l := (Option.some.inj hk).symm
        subst e4
        rcases h4 with ⟨h5, _⟩ | ⟨m, m1, _, m3⟩
        · rw [h5]; exact ⟨rfl, List.Perm.refl _⟩
        · rw [m3]
          refine ⟨?_, touched_words_perm l m m1⟩
          unfold wordCount
          simp only
          rw [touched_length l m m1]
      · rw [if_neg c]
        exact ⟨s0, hk, slotSameWords_refl s0⟩

/-- Witness for C10 (amended): the sample store, touch at index 1, lookup of
`CAB` in the sample dictionary. -/
theorem words_preserved_witness :
    DictWF sampleDictionary ∧ sampleDictionary.length = 26 ∧
    isLetter (firstChar [67, 65, 66]) ∧ WF sampleStore ∧
    1 < sampleStore.words.length ∧
    ((∃ list1 : arrayList,
      arrayListQuickSort sampleStore 0 (wordCount sampleStore - 1) = some list1 ∧
      wordCount list1 = wordCount sampleStore ∧
      (list1.words.zip list1.accessCount).Perm
        (sampleStore.words.zip sampleStore.accessCount) ∧
      list1.words.Perm sampleStore.words ∧
      ((∀ c ∈ sampleStore.accessCount, c = 0) → ∀ c ∈ list1.accessCount, c = 0)) ∧
    (∃ list1 : arrayList,
      arrayListTouchWord sampleStore ((1 : Nat) : Int) = some list1 ∧
      wordCount list1 = wordCount sampleStore ∧ list1.words.Perm sampleStore.words) ∧
    (∃ (b : Bool) (d1 : Dictionary), checkWord [67, 65, 66] sampleDictionary = some (b, d1) ∧
      d1.length = sampleDictionary.length ∧
      ∀ (k : Nat) (s : Option arrayList), sampleDictionary[k]? = some s →
        ∃ s1 : Option arrayList, d1[k]? = some s1 ∧ slotSameWords s s1)) :=
  ⟨by decide, by decide, by decide, by decide, by decide,
    words_preserved sampleDictionary sampleStore 1 [67, 65, 66]
      (by decide) (by decide) (by decide) (by decide) (by decide)⟩

theorem mem_dictWords {d : Dictionary} {k : Nat} {list : arrayList} {v : Word}
    (hk : d[k]? = some (some list)) (hv : v ∈ list.words) : v ∈ dictWords d := by
  unfold dictWords
  rw [List.mem_flatMap]
  exact ⟨some list, List.mem_iff_getElem?.2 ⟨k, hk⟩, hv⟩

/-- C4, counterexample: in the dictionary built from the single token `cat`,
no stored word is case-insensitively equal to the word `1`, yet `checkWord`
does not return false: `indexOfChar('1')` is `-16` and `dictionary[-16]` is
not one of the 26 slots. -/
theorem checkWord_absent_counterexample :
    fillDictionary emptyDictionary [[99, 97, 116]] =
      some (emptyDictionary.set 2 (some ⟨[[99, 97, 116]], [0], 2⟩)) ∧
    DictWF (emptyDictionary.set 2 (some ⟨[[99, 97, 116]], [0], 2⟩)) ∧
    (∀ v ∈ dictWords (emptyDictionary.set 2 (some ⟨[[99, 97, 116]], [0], 2⟩)),
      ¬ stricmp v [49] = 0) ∧
    indexOfChar (firstChar [49]) = -16 ∧
    checkWord [49] (emptyDictionary.set 2 (some ⟨[[99, 97, 116]], [0], 2⟩)) = none ∧
    checkWord [49] (emptyDictionary.set 2 (some ⟨[[99, 97, 116]], [0], 2⟩)) ≠
      some (false, emptyDictionary.set 2 (some ⟨[[99, 97, 116]], [0], 2⟩)) :=
  ⟨by decide, by decide, by decide, by decide, by decide, by decide⟩

/-- C4, amended: for every dictionary state of 26 slots (no ordering invariant
assumed) and every word whose first character is an ASCII letter and that is
case-insensitively equal to no word stored in any bucket, `checkWord` returns
false and leaves the dictionary (every bucket's words, order and hit counts)
exactly as it was. -/
theorem checkWord_absent (d : Dictionary) (w : Word) (hlen : d.length = 26) (hd : DictWF d)
    (hl : isLetter (firstChar w)) (habs : ∀ v ∈ dictWords d, ¬ stricmp v w = 0) :
    checkWord w d = some (false, d) := by
  obtain ⟨h0, h1⟩ := indexOfChar_letter _ hl
  obtain ⟨idx, hidx⟩ := Int.eq_ofNat_of_zero_le h0
  have hlt : idx < d.length := by omega
  have hget := List.getElem?_eq_getElem hlt
  rcases checkWord_spec d w hd idx hidx _ hget with ⟨_, h2⟩ | ⟨l, r, g1, _, h3, h4⟩
  · exact h2
  · rw [g1] at hget
    rcases h4 with ⟨h5, _⟩ | ⟨m, m1, m2, _⟩
    · rw [h3, h5]
      simp only
      rw [set_self_of_getElem? d idx (some l) hget]
    · exfalso
      apply habs (wordAt l.words m) (mem_dictWords hget _) m2
      have := getElem?_wordAt m1
      exact List.mem_iff_getElem?.2 ⟨m, this⟩

/-- Witness for C4 (amended): the sample dictionary and the absent word `cow`. -/
theorem checkWord_absent_witness :
    sampleDictionary.length = 26 ∧ DictWF sampleDictionary ∧
    isLetter (firstChar [99, 111, 119]) ∧
    (∀ v ∈ dictWords sampleDictionary, ¬ stricmp v [99, 111, 119] = 0) ∧
    checkWord [99, 111, 119] sampleDictionary = some (false, sampleDictionary) :=
  ⟨by decide, by decide, by decide, by decide,
    checkWord_absent sampleDictionary [99, 111, 119] (by decide) (by decide) (by decide)
      (by decide)⟩

theorem stricmp_eq_zero_iff (a b : Word) :
    stricmp a b = 0 ↔
      (a.takeWhile (fun c => c != 0)).map tolower =
        (b.takeWhile (fun c => c != 0)).map tolower := by
  induction a generalizing b with
  | nil =>
    cases b with
    | nil => simp [stricmp]
    | cons y ys =>
      simp only [stricmp, List.takeWhile_nil, List.map_nil, List.takeWhile_cons]
      by_cases hy : y = 0
      · subst hy; simp [tolower]
      · have : tolower y ≠ 0 := fun e => hy (tolower_eq_zero.1 e)
        simp [hy]
        omega
  | cons x xs ih =>
    cases b with
    | nil =>
      simp only [stricmp, List.takeWhile_nil, List.map_nil, List.takeWhile_cons]
      by_cases hx : x = 0
      · subst hx; simp [tolower]
      · have : tolower x ≠ 0 := fun e => hx (tolower_eq_zero.1 e)
        simp [hx]
        omega
    | cons y ys =>
      simp only [stricmp, List.takeWhile_cons]
      by_cases hxy : tolower x = tolower y
      · rw [if_pos hxy]
        by_cases hx : x = 0
        · have hy : y = 0 := by
            have := (tolower_eq_zero (c := x)).2 hx
            exact tolower_eq_zero.1 (by omega)
          subst hx; subst hy; simp
        · have hy : y ≠ 0 := by
            intro hy
            have := (tolower_eq_zero (c := y)).2 hy
            exact hx (tolower_eq_zero.1 (by omega))
          rw [if_neg hx]
          simp [hx, hy, hxy, ih ys]
      · rw [if_neg hxy]
        have hne : ¬ ((tolower x : Int) - (tolower y : Int) = 0) := by omega
        by_cases hx : x = 0
        · have hy : y ≠ 0 := by
            intro hy
            apply hxy
            rw [hx, hy]
          subst hx
          simp [hy, hne]
        · by_cases hy : y = 0
          · subst hy
            simp [hx, hne]
          · simp [hx, hy, hxy, hne]

/-- C12: for every `i` in `0..25`, `indexOfChar('a' + i)` and
`indexOfChar('A' + i)` are both `i`: the index of a letter is its zero-based
position in the alphabet whatever its case, it lies in `0..25`, and a letter
and its other-case form get the same bucket. -/
theorem indexOfChar_alphabet (i : Int) (h0 : 0 ≤ i) (h1 : i ≤ 25) :
    indexOfChar (97 + i) = i ∧ indexOfChar (65 + i) = i ∧
    0 ≤ indexOfChar (97 + i) ∧ indexOfChar (97 + i) ≤ 25 ∧
    indexOfChar (65 + i) = indexOfChar (97 + i) := by
  unfold indexOfChar
  rw [if_pos (by omega), if_neg (by omega)]
  omega

/-- Witness for C12: the letters `z` and `Z` (`i = 25`). -/
theorem indexOfChar_alphabet_witness :
    (0 : Int) ≤ 25 ∧ (25 : Int) ≤ 25 ∧
    indexOfChar (97 + 25) = 25 ∧ indexOfChar (65 + 25) = 25 ∧
    0 ≤ indexOfChar (97 + 25) ∧ indexOfChar (97 + 25) ≤ 25 ∧
    indexOfChar (65 + 25) = indexOfChar (97 + 25) :=
  ⟨by decide, by decide, indexOfChar_alphabet 25 (by decide) (by decide)⟩

theorem toChar_range (b : Nat) : -128 ≤ toChar b ∧ toChar b ≤ 127 := by
  unfold toChar
  split_ifs <;> omega

theorem rd_isSome_iff {α : Type} (a : List α) (i : Int) :
    (rd a i).isSome = true ↔ 0 ≤ i ∧ i < (a.length : Int) := by
  unfold rd
  by_cases h : 0 ≤ i
  · rw [if_pos h]
    obtain ⟨n, rfl⟩ := Int.eq_ofNat_of_zero_le h
    simp only [Int.toNat_ofNat]
    by_cases c : n < a.length
    · rw [List.getElem?_eq_getElem c]
      simp
      omega
    · rw [List.getElem?_eq_none (by omega)]
      simp
      omega
  · rw [if_neg h]
    simp
    omega

/-- C20: for every signed 8-bit character value `ch`, `indexOfChar(ch)` lies
in `0..25` if and only if `ch` is an ASCII letter; hence, for a dictionary of
26 slots, the access `dictionary[indexOfChar(ch)]` of `fillDictionary` and
`checkWord` is one of the slots exactly when `ch` is a letter. -/
theorem indexOfChar_in_range_iff (ch : Int) (d : Dictionary) (hlo : -128 ≤ ch)
    (hhi : ch ≤ 127) (hd : d.length = 26) :
    ((0 ≤ indexOfChar ch ∧ indexOfChar ch ≤ 25) ↔ isLetter ch) ∧
    ((rd d (indexOfChar ch)).isSome = true ↔ isLetter ch) := by
  have h1 : (0 ≤ indexOfChar ch ∧ indexOfChar ch ≤ 25) ↔ isLetter ch := by
    unfold indexOfChar isLetter
    split_ifs <;> constructor <;> intro h <;> omega
  refine ⟨h1, ?_⟩
  rw [rd_isSome_iff, hd, ← h1]
  constructor <;> intro h <;> constructor <;> omega

/-- Witness for C20: the digit `1` and the sample dictionary. -/
theorem indexOfChar_in_range_iff_witness :
    (-128 : Int) ≤ 49 ∧ (49 : Int) ≤ 127 ∧ sampleDictionary.length = 26 ∧
    ((0 ≤ indexOfChar 49 ∧ indexOfChar 49 ≤ 25) ↔ isLetter 49) ∧
    ((rd sampleDictionary (indexOfChar 49)).isSome = true ↔ isLetter 49) :=
  ⟨by decide, by decide, by decide,
    indexOfChar_in_range_iff 49 sampleDictionary (by decide) (by decide) (by decide)⟩

/-- C11: for every dictionary of 26 slots and every word whose first character
is an ASCII letter, `checkWord` returns, and works on the slot at index
`indexOfChar(word[0])` only: the index lies in `0..25` (it is 25 for a word
starting with `Z` or `z`); when that slot is absent the answer is false and
the dictionary is unchanged; every other slot is unchanged in every case; the
answer is true only if the store of that slot holds a word case-insensitively
equal to the given word; and the answer is the same on every dictionary that
has the same slot at that index. -/
theorem checkWord_routing (d : Dictionary) (w : Word) (hlen : d.length = 26) (hd : DictWF d)
    (hl : isLetter (firstChar w)) :
    ∃ (idx : Nat) (b : Bool) (d1 : Dictionary),
      indexOfChar (firstChar w) = (idx : Int) ∧ idx < 26 ∧
      (firstChar w = 90 ∨ firstChar w = 122 → idx = 25) ∧
      checkWord w d = some (b, d1) ∧ d1.length = 26 ∧
      (d[idx]? = some none → b = false ∧ d1 = d) ∧
      (∀ k : Nat, k ≠ idx → d1[k]? = d[k]?) ∧
      (b = true → ∃ (list : arrayList) (v : Word),
        d[idx]? = some (some list) ∧ v ∈ list.words ∧ stricmp v w = 0) ∧
      (∀ d2 : Dictionary, d2[idx]? = d[idx]? →
        (checkWord w d2).map Prod.fst = some b) := by
  obtain ⟨h0, h1⟩ := indexOfChar_letter _ hl
  obtain ⟨idx, hidx⟩ := Int.eq_ofNat_of_zero_le h0
  have hlt : idx < d.length := by omega
  obtain ⟨s, hs⟩ : ∃ s, d[idx]? = some s := ⟨_, List.getElem?_eq_getElem hlt⟩
  have hz : firstChar w = 90 ∨ firstChar w = 122 → idx = 25 := by
    intro hc
    unfold indexOfChar at hidx
    rcases hc with hc | hc <;> rw [hc] at hidx <;> simp at hidx <;> omega
  have hother : ∀ (d2 : Dictionary) (b : Bool) (d3 : Dictionary),
      d2[idx]? = d[idx]? → checkWord w d = some (b, d3) →
      (checkWord w d2).map Prod.fst = some b := by
    intro d2 b d3 he hc
    unfold checkWord at hc ⊢
    simp only [hidx, rd_natCast, hs, he] at hc ⊢
    cases s with
    | none =>
      simp only at hc ⊢
      have e : false = b := congrArg Prod.fst (Option.some.inj hc)
      rw [← e]
      rfl
    | some l =>
      simp only at hc ⊢
      cases hr : checkWordList l w with
      | none => rw [hr] at hc; exact Option.noConfusion hc
      | some r =>
        rw [hr] at hc
        simp only [Option.map_some'] at hc ⊢
        have e : r.1 = b := congrArg Prod.fst (Option.some.inj hc)
        rw [e]
  rcases checkWord_spec d w hd idx hidx s hs with ⟨g1, g2⟩ | ⟨l, r, g1, _, g3, g4⟩
  · refine ⟨idx, false, d, hidx, by omega, hz, g2, hlen, fun _ => ⟨rfl, rfl⟩,
      fun _ _ => rfl, fun e => Bool.noConfusion e, fun d2 he => hother d2 false d he g2⟩
  · refine ⟨idx, r.1, d.set idx (some r.2), hidx, by omega, hz, g3,
      by rw [List.length_set]; exact hlen, ?_, ?_, ?_, fun d2 he => hother d2 _ _ he g3⟩
    · intro e
      rw [hs, g1] at e
      exact Option.noConfusion (Option.some.inj e)
    · intro k hk
      rw [List.getElem?_set, if_neg (fun e => hk e.symm)]
    · intro hb
      rcases g4 with ⟨g5, _⟩ | ⟨m, m1, m2, _⟩
      · rw [g5] at hb; exact Bool.noConfusion hb
      · refine ⟨l, wordAt l.words m, by rw [hs, g1], ?_, m2⟩
        exact List.mem_iff_getElem?.2 ⟨m, getElem?_wordAt m1⟩

/-- Witness for C11: the sample dictionary and the word `CAB`. -/
theorem checkWord_routing_witness :
    sampleDictionary.length = 26 ∧ DictWF sampleDictionary ∧
    isLetter (firstChar [67, 65, 66]) ∧
    ∃ (idx : Nat) (b : Bool) (d1 : Dictionary),
      indexOfChar (firstChar [67, 65, 66]) = (idx : Int) ∧ idx < 26 ∧
      (firstChar [67, 65, 66] = 90 ∨ firstChar [67, 65, 66] = 122 → idx = 25) ∧
      checkWord [67, 65, 66] sampleDictionary = some (b, d1) ∧ d1.length = 26 ∧
      (sampleDictionary[idx]? = some none → b = false ∧ d1 = sampleDictionary) ∧
      (∀ k : Nat, k ≠ idx → d1[k]? = sampleDictionary[k]?) ∧
      (b = true → ∃ (list : arrayList) (v : Word),
        sampleDictionary[idx]? = some (some list) ∧ v ∈ list.words ∧
        stricmp v [67, 65, 66] = 0) ∧
      (∀ d2 : Dictionary, d2[idx]? = sampleDictionary[idx]? →
        (checkWord [67, 65, 66] d2).map Prod.fst = some b) :=
  ⟨by decide, by decide, by decide,
    checkWord_routing sampleDictionary [67, 65, 66] (by decide) (by decide) (by decide)⟩

theorem touched_placement (list : arrayList) (i c : Nat) (hwf : WF list)
    (hni : NonInc list.accessCount) (hi : i < list.words.length)
    (hc : list.accessCount[i]? = some c) :
    ∃ (list1 : arrayList) (p : Nat),
      arrayListTouchWord list (i : Int) = some list1 ∧ p ≤ i ∧
      list.accessCount[p]? = some c ∧
      (∀ (k x : Nat), k < p → list.accessCount[k]? = some x → x ≠ c) ∧
      list1.words[p]? = list.words[i]? ∧ list1.accessCount[p]? = some (c + 1) ∧
      (∀ k : Nat, p < k → k ≤ i →
        list1.words[k]? = list.words[k - 1]? ∧
        list1.accessCount[k]? = list.accessCount[k - 1]?) ∧
      (∀ k : Nat, k < p ∨ i < k →
        list1.words[k]? = list.words[k]? ∧ list1.accessCount[k]? = list.accessCount[k]?) := by
  have hwf2 : list.accessCount.length = list.words.length := hwf
  have hcd : list.accessCount.getD i 0 = c := by
    rw [List.getD_eq_getElem?_getD, hc]; rfl
  have hp := touchPos_le list.accessCount c i
  have hbt := touchPos_between list.accessCount c i
  have hst := touchPos_stop list.accessCount c i
  have hw := touched_words_getElem? list i hi
  have hh := touched_count_getElem? list i hwf hi
  rw [hcd] at hw hh
  have hmono := (nonInc_iff _).1 hni
  generalize touchPos list.accessCount c i = p at hp hbt hst hw hh
  have hpc : list.accessCount.getD p 0 = c := by
    by_cases e : p = i
    · rw [e]; exact hcd
    · have h1 := hbt p (le_refl _) (by omega)
      have h2 := hmono p i (by omega) (by omega)
      rw [hcd] at h2
      omega
  refine ⟨touched list i, p, touch_spec list i hwf hi, hp, ?_, ?_, ?_, ?_, ?_, ?_⟩
  · rw [getElem?_getD (show p < list.accessCount.length by omega), hpc]
  · intro k x hk hx e
    have h1 := hst (by omega)
    have h2 : list.accessCount.getD k 0 = x := by
      rw [List.getD_eq_getElem?_getD, hx]; rfl
    by_cases e2 : k = p - 1
    · rw [e2] at h2; omega
    · have h3 := hmono k (p - 1) (by omega) (by omega)
      omega
  · rw [hw p, if_neg (by omega), if_pos rfl]
    exact (getElem?_wordAt hi).symm
  · rw [hh p, if_neg (by omega), if_pos rfl]
  · intro k h1 h2
    rw [hw k, hh k, if_neg (by omega), if_neg (by omega), if_pos h2,
      if_neg (by omega), if_neg (by omega), if_pos h2]
    exact ⟨rfl, rfl⟩
  · intro k hk
    rw [hw k, hh k]
    rcases hk with hk | hk
    · rw [if_pos hk, if_pos hk]
      exact ⟨rfl, rfl⟩
    · rw [if_neg (by omega), if_neg (by omega), if_neg (by omega),
        if_neg (by omega), if_neg (by omega), if_neg (by omega)]
      exact ⟨rfl, rfl⟩

/-- C19: quicksort is not stable.  The store `a A` is case-insensitively
sorted and its two words are case-insensitively equal but distinct;
`arrayListQuickSort(list, 0, wordCount-1)` returns `A a`, the two words in
reverse order, so sorting a sorted store is not the identity on the words. -/
theorem arrayListQuickSort_not_stable :
    ∃ (list list1 : arrayList) (x y : Word),
      WF list ∧ list.words = [x, y] ∧ x ≠ y ∧ stricmp x y = 0 ∧
      list.words.Pairwise ciLe ∧
      arrayListQuickSort list 0 (wordCount list - 1) = some list1 ∧
      list1.words = [y, x] ∧ list1.words ≠ list.words :=
  ⟨⟨[[97], [65]], [0, 0], 2⟩, ⟨[[65], [97]], [0, 0], 2⟩, [97], [65],
    by decide, by decide, by decide, by decide, by decide, by decide, by decide, by decide⟩

theorem partitionITrace_erase (ws : List Word) (p j : Int) :
    ∀ (fuel : Nat) (i : Int),
      (partitionITrace fuel ws p i j).map Prod.fst = partitionI fuel ws p i j := by
  intro fuel
  induction fuel with
  | zero => intro i; rfl
  | succ f ih =>
    intro i
    unfold partitionITrace partitionI
    simp only
    by_cases h : i + 1 < j
    · rw [if_pos h, if_pos h]
      cases rd ws (i + 1) with
      | none => rfl
      | some wi =>
        cases rd ws p with
        | none => rfl
        | some wp =>
          simp only
          by_cases c : stricmp wi wp < 0
          · rw [if_pos c, if_pos c, Option.map_map, ← ih (i + 1)]
            rfl
          · rw [if_neg c, if_neg c]
            rfl
    · rw [if_neg h, if_neg h]
      rfl

theorem partitionJTrace_erase (ws : List Word) (p : Int) :
    ∀ (fuel : Nat) (j : Int),
      (partitionJTrace fuel ws p j).map Prod.fst = partitionJ fuel ws p j := by
  intro fuel
  induction fuel with
  | zero => intro j; rfl
  | succ f ih =>
    intro j
    unfold partitionJTrace partitionJ
    cases rd ws p with
    | none => rfl
    | some wp =>
      cases rd ws j with
      | none => rfl
      | some wj =>
        simp only
        by_cases c : stricmp wp wj < 0
        · rw [if_pos c, if_pos c, Option.map_map, ← ih (j - 1)]
          rfl
        · rw [if_neg c, if_neg c]
          rfl

theorem partitionLoopTrace_erase (p : Int) :
    ∀ (fuel : Nat) (list : arrayList) (i j : Int),
      (partitionLoopTrace fuel list p i j).map Prod.fst = partitionLoop fuel list p i j := by
  intro fuel
  induction fuel with
  | zero => intro list i j; rfl
  | succ f ih =>
    intro list i j
    unfold partitionLoopTrace partitionLoop
    rw [← partitionITrace_erase, ← partitionJTrace_erase]
    cases partitionITrace (list.words.length + 1) list.words p i j with
    | none => rfl
    | some r1 =>
      obtain ⟨i1, t1⟩ := r1
      simp only [Option.map_some']
      cases partitionJTrace (list.words.length + 1) list.words p j with
      | none => rfl
      | some r2 =>
        obtain ⟨j1, t2⟩ := r2
        simp only [Option.map_some']
        by_cases c : i1 < j1
        · rw [if_pos c, if_pos c]
          cases arrayListSwapElements list i1 j1 with
          | none => rfl
          | some list1 =>
            simp only
            by_cases c2 : i1 < j1 - 1
            · rw [if_pos c2, if_pos c2, Option.map_map, ← ih list1 i1 (j1 - 1)]
              rfl
            · rw [if_neg c2, if_neg c2]
              rfl
        · rw [if_neg c, if_neg c]
          rfl

theorem partitionTrace_erase (list : arrayList) (left right : Int) :
    (partitionTrace list left right).map Prod.fst = partition list left right := by
  unfold partitionTrace partition
  rw [← partitionLoopTrace_erase]
  cases partitionLoopTrace (list.words.length + 1) list left left right with
  | none => rfl
  | some r =>
    obtain ⟨⟨list1, j⟩, t⟩ := r
    simp only [Option.map_some', Option.map_map]
    rfl

theorem partitionITrace_bound (ws : List Word) (p j : Int) :
    ∀ (fuel : Nat) (i i1 : Int) (t : List Int),
      partitionITrace fuel ws p i j = some (i1, t) →
      i < i1 ∧ ∀ k ∈ t, k = p ∨ (i < k ∧ k < j) := by
  intro fuel
  induction fuel with
  | zero => intro i i1 t h; exact Option.noConfusion h
  | succ f ih =>
    intro i i1 t h
    unfold partitionITrace at h
    simp only at h
    by_cases c : i + 1 < j
    · rw [if_pos c] at h
      cases hwi : rd ws (i + 1) with
      | none => rw [hwi] at h; exact Option.noConfusion h
      | some wi =>
        cases hwp : rd ws p with
        | none => rw [hwi, hwp] at h; exact Option.noConfusion h
        | some wp =>
          rw [hwi, hwp] at h
          simp only at h
          by_cases c2 : stricmp wi wp < 0
          · rw [if_pos c2] at h
            cases hr : partitionITrace f ws p (i + 1) j with
            | none => rw [hr] at h; exact Option.noConfusion h
            | some r =>
              rw [hr] at h
              simp only [Option.map_some'] at h
              have e0 : r.1 = i1 := congrArg Prod.fst (Option.some.inj h)
              have e : (i + 1) :: p :: r.2 = t := congrArg Prod.snd (Option.some.inj h)
              obtain ⟨b1, b2⟩ := ih (i + 1) r.1 r.2 hr
              refine ⟨by omega, ?_⟩
              intro k hk
              rw [← e] at hk
              rcases List.mem_cons.1 hk with e1 | hk2
              · right; omega
              · rcases List.mem_cons.1 hk2 with e2 | hk3
                · left; exact e2
                · rcases b2 k hk3 with e3 | e3
                  · left; exact e3
                  · right; omega
          · rw [if_neg c2] at h
            have e0 : i + 1 = i1 := congrArg Prod.fst (Option.some.inj h)
            have e : [i + 1, p] = t := congrArg Prod.snd (Option.some.inj h)
            refine ⟨by omega, ?_⟩
            intro k hk
            rw [← e] at hk
            rcases List.mem_cons.1 hk with e1 | hk2
            · right; omega
            · left; exact List.mem_singleton.1 hk2
    · rw [if_neg c] at h
      have e0 : i + 1 = i1 := congrArg Prod.fst (Option.some.inj h)
      have e : [] = t := congrArg Prod.snd (Option.some.inj h)
      refine ⟨by omega, ?_⟩
      intro k hk
      rw [← e] at hk
      exact absurd hk (List.not_mem_nil _)

theorem partitionJTrace_bound (ws : List Word) (p : Int) :
    ∀ (fuel : Nat) (j j1 : Int) (t : List Int),
      partitionJTrace fuel ws p j = some (j1, t) →
      j1 ≤ j ∧ ∀ k ∈ t, k = p ∨ (j1 ≤ k ∧ k ≤ j) := by
  intro fuel
  induction fuel with
  | zero => intro j j1 t h; exact Option.noConfusion h
  | succ f ih =>
    intro j j1 t h
    unfold partitionJTrace at h
    cases hwp : rd ws p with
    | none => rw [hwp] at h; exact Option.noConfusion h
    | some wp =>
      cases hwj : rd ws j with
      | none => rw [hwp, hwj] at h; exact Option.noConfusion h
      | some wj =>
        rw [hwp, hwj] at h
        simp only at h
        by_cases c2 : stricmp wp wj < 0
        · rw [if_pos c2] at h
          cases hr : partitionJTrace f ws p (j - 1) with
          | none => rw [hr] at h; exact Option.noConfusion h
          | some r =>
            rw [hr] at h
            simp only [Option.map_some'] at h
            have e0 : r.1 = j1 := congrArg Prod.fst (Option.some.inj h)
            have e : p :: j :: r.2 = t := congrArg Prod.snd (Option.some.inj h)
            obtain ⟨b1, b2⟩ := ih (j - 1) r.1 r.2 hr
            refine ⟨by omega, ?_⟩
            intro k hk
            rw [← e] at hk
            rcases List.mem_cons.1 hk with e1 | hk2
            · left; exact e1
            · rcases List.mem_cons.1 hk2 with e2 | hk3
              · right; omega
              · rcases b2 k hk3 with e3 | e3
                · left; exact e3
                · right; omega
        · rw [if_neg c2] at h
          have e0 : j = j1 := congrArg Prod.fst (Option.some.inj h)
          have e : [p, j] = t := congrArg Prod.snd (Option.some.inj h)
          refine ⟨by omega, ?_⟩
          intro k hk
          rw [← e] at hk
          rcases List.mem_cons.1 hk with e1 | hk2
          · left; exact e1
          · right
            have := List.mem_singleton.1 hk2
            omega

theorem mem_swapAccesses {i j k : Int} (h : k ∈ swapAccesses i j) : k = i ∨ k = j := by
  unfold swapAccesses at h
  simp only [List.mem_cons, List.mem_singleton, List.not_mem_nil, or_false] at h
  omega

theorem partitionLoopTrace_bound (p : Int) :
    ∀ (fuel : Nat) (list list1 : arrayList) (i j q : Int) (t : List Int),
      partitionLoopTrace fuel list p i j = some ((list1, q), t) →
      ∀ k ∈ t, k = p ∨ ((q ≤ k ∨ i < k) ∧ k ≤ j) := by
  intro fuel
  induction fuel with
  | zero => intro list list1 i j q t h; exact Option.noConfusion h
  | succ f ih =>
    intro list list1 i j q t h
    unfold partitionLoopTrace at h
    cases h1 : partitionITrace (list.words.length + 1) list.words p i j with
    | none => rw [h1] at h; exact Option.noConfusion h
    | some r1 =>
      obtain ⟨i1, t1⟩ := r1
      rw [h1] at h
      simp only at h
      cases h2 : partitionJTrace (list.words.length + 1) list.words p j with
      | none => rw [h2] at h; exact Option.noConfusion h
      | some r2 =>
        obtain ⟨j1, t2⟩ := r2
        rw [h2] at h
        simp only at h
        obtain ⟨bI0, bI⟩ := partitionITrace_bound list.words p j _ i i1 t1 h1
        obtain ⟨bJ0, bJ⟩ := partitionJTrace_bound list.words p _ j j1 t2 h2
        have hfront : i1 < j1 → ∀ k ∈ t1 ++ t2 ++ swapAccesses i1 j1,
            k = p ∨ (i < k ∧ k ≤ j) := by
          intro c k hk
          rcases List.mem_append.1 hk with hk1 | hk1
          · rcases List.mem_append.1 hk1 with hk2 | hk2
            · rcases bI k hk2 with e | e
              · left; exact e
              · right; omega
            · rcases bJ k hk2 with e | e
              · left; exact e
              · right; omega
          · rcases mem_swapAccesses hk1 with e | e <;> right <;> omega
        by_cases c : i1 < j1
        · rw [if_pos c] at h
          cases h3 : arrayListSwapElements list i1 j1 with
          | none => rw [h3] at h; exact Option.noConfusion h
          | some l1 =>
            rw [h3] at h
            simp only at h
            by_cases c2 : i1 < j1 - 1
            · rw [if_pos c2] at h
              cases hr : partitionLoopTrace f l1 p i1 (j1 - 1) with
              | none => rw [hr] at h; exact Option.noConfusion h
              | some r =>
                obtain ⟨⟨l2, q2⟩, t3⟩ := r
                rw [hr] at h
                simp only [Option.map_some'] at h
                have e0 : q2 = q := by
                  have := congrArg (fun x => x.1.2) (Option.some.inj h)
                  exact this
                have e : t1 ++ t2 ++ swapAccesses i1 j1 ++ t3 = t :=
                  congrArg Prod.snd (Option.some.inj h)
                have hb := ih l1 l2 i1 (j1 - 1) q2 t3 hr
                intro k hk
                rw [← e] at hk
                rcases List.mem_append.1 hk with hk1 | hk1
                · rcases hfront c k hk1 with e1 | e1
                  · left; exact e1
                  · right; exact ⟨Or.inr e1.1, e1.2⟩
                · rcases hb k hk1 with e1 | e1
                  · left; exact e1
                  · right
                    refine ⟨?_, by omega⟩
                    rcases e1.1 with e2 | e2
                    · left; omega
                    · right; omega
            · rw [if_neg c2] at h
              have e : t1 ++ t2 ++ swapAccesses i1 j1 = t :=
                congrArg Prod.snd (Option.some.inj h)
              intro k hk
              rw [← e] at hk
              rcases hfront c k hk with e1 | e1
              · left; exact e1
              · right; exact ⟨Or.inr e1.1, e1.2⟩
        · rw [if_neg c] at h
          have e0 : j1 = q := by
            have := congrArg (fun x => x.1.2) (Option.some.inj h)
            exact this
          have e : t1 ++ t2 = t := congrArg Prod.snd (Option.some.inj h)
          intro k hk
          rw [← e] at hk
          rcases List.mem_append.1 hk with hk2 | hk2
          · rcases bI k hk2 with e1 | e1
            · left; exact e1
            · right; exact ⟨Or.inr e1.1, by omega⟩
          · rcases bJ k hk2 with e1 | e1
            · left; exact e1
            · right; exact ⟨Or.inl (by omega), e1.2⟩

/-- C15: for every store and indices `0 <= left < right < wordCount`,
`partition(list, left, right)` returns an index `p` with `left <= p <= right`
such that afterwards `words[p]` is the word that was at index `left`, every
word at an index in `[left, p)` is case-insensitively `<= words[p]`, every
word at an index in `(p, right]` is case-insensitively `>= words[p]`, every
array index read or written lies in `[left, right]`, and the cells outside
`[left, right]` are unchanged. -/
theorem partition_post (list : arrayList) (left right : Nat) (hwf : WF list)
    (hlr : left < right) (hr : right < list.words.length) :
    ∃ (list1 : arrayList) (p : Nat) (accesses : List Int),
      partition list (left : Int) (right : Int) = some (list1, (p : Int)) ∧
      partitionTrace list (left : Int) (right : Int) = some ((list1, (p : Int)), accesses) ∧
      left ≤ p ∧ p ≤ right ∧
      list1.words[p]? = list.words[left]? ∧
      (∀ (k : Nat) (a b : Word), left ≤ k → k < p →
        list1.words[k]? = some a → list1.words[p]? = some b → stricmp a b ≤ 0) ∧
      (∀ (k : Nat) (a b : Word), p < k → k ≤ right →
        list1.words[k]? = some a → list1.words[p]? = some b → stricmp a b ≥ 0) ∧
      (∀ k ∈ accesses, (left : Int) ≤ k ∧ k ≤ (right : Int)) ∧
      (∀ k : Nat, k < left ∨ right < k →
        list1.words[k]? = list.words[k]? ∧ list1.accessCount[k]? = list.accessCount[k]?) := by
  obtain ⟨l1, p, r1, r2, r3, r4, r5, r6, r7⟩ :=
    partition_spec list left (right + 1) hwf (by omega) (by omega)
  have e1 : ((right + 1 : Nat) : Int) - 1 = (right : Int) := by omega
  rw [e1] at r1
  -- the instrumented run returns the same store and index
  have herase := partitionTrace_erase list (left : Int) (right : Int)
  rw [r1] at herase
  cases ht : partitionTrace list (left : Int) (right : Int) with
  | none => rw [ht] at herase; exact Option.noConfusion herase
  | some res =>
    obtain ⟨⟨l2, q⟩, t⟩ := res
    rw [ht] at herase
    simp only [Option.map_some'] at herase
    have e2 : (l2, q) = (l1, (p : Int)) := Option.some.inj herase
    have e3 : l2 = l1 := congrArg Prod.fst e2
    have e4 : q = (p : Int) := congrArg Prod.snd e2
    subst e3
    subst e4
    refine ⟨l2, p, t, r1, rfl, r3, by omega, r5, ?_, ?_, ?_, ?_⟩
    · intro k a b hk1 hk2 ha hb
      have := r6 k hk1 hk2
      rw [wordAt_of_getElem? ha, wordAt_of_getElem? hb] at this
      exact this
    · intro k a b hk1 hk2 ha hb
      have := r7 k hk1 (by omega)
      rw [wordAt_of_getElem? ha, wordAt_of_getElem? hb] at this
      unfold ciLe at this
      rw [stricmp_antisymm] at this
      omega
    · intro k hk
      unfold partitionTrace at ht
      cases hl : partitionLoopTrace (list.words.length + 1) list (left : Int) (left : Int)
          (right : Int) with
      | none => rw [hl] at ht; exact Option.noConfusion ht
      | some res2 =>
        obtain ⟨⟨l3, q3⟩, t3⟩ := res2
        rw [hl] at ht
        simp only at ht
        cases hsw : arrayListSwapElements l3 (left : Int) q3 with
        | none => rw [hsw] at ht; exact Option.noConfusion ht
        | some l4 =>
          rw [hsw] at ht
          simp only [Option.map_some'] at ht
          have e5 : q3 = (p : Int) := by
            have := congrArg (fun x => x.1.2) (Option.some.inj ht)
            exact this
          have e6 : t3 ++ swapAccesses (left : Int) q3 = t :=
            congrArg Prod.snd (Option.some.inj ht)
          have hb := partitionLoopTrace_bound (left : Int) _ list l3 (left : Int) (right : Int)
            q3 t3 hl
          rw [← e6] at hk
          rcases List.mem_append.1 hk with hk1 | hk1
          · rcases hb k hk1 with e | e
            · omega
            · omega
          · rcases mem_swapAccesses hk1 with e | e <;> omega
    · intro k hk
      exact r2.2.2.2.1 k (by omega)

/-- Witness for C15: the store `b A c a B a`, `left = 1`, `right = 4`. -/
theorem partition_post_witness :
    WF samplePartitionStore ∧ 1 < 4 ∧ 4 < samplePartitionStore.words.length ∧
    partitionTrace samplePartitionStore 1 4 =
      some ((⟨[[98], [97], [65], [99], [66], [97]], [0, 3, 1, 2, 4, 5], 8⟩, 2),
        [2, 1, 1, 4, 1, 3, 2, 2, 3, 2, 3, 2, 3, 3, 1, 1, 2, 1, 2, 1, 2, 2]) ∧
    ∃ (list1 : arrayList) (p : Nat) (accesses : List Int),
      partition samplePartitionStore ((1 : Nat) : Int) ((4 : Nat) : Int) =
        some (list1, (p : Int)) ∧
      partitionTrace samplePartitionStore ((1 : Nat) : Int) ((4 : Nat) : Int) =
        some ((list1, (p : Int)), accesses) ∧
      1 ≤ p ∧ p ≤ 4 ∧
      list1.words[p]? = samplePartitionStore.words[1]? ∧
      (∀ (k : Nat) (a b : Word), 1 ≤ k → k < p →
        list1.words[k]? = some a → list1.words[p]? = some b → stricmp a b ≤ 0) ∧
      (∀ (k : Nat) (a b : Word), p < k → k ≤ 4 →
        list1.words[k]? = some a → list1.words[p]? = some b → stricmp a b ≥ 0) ∧
      (∀ k ∈ accesses, ((1 : Nat) : Int) ≤ k ∧ k ≤ ((4 : Nat) : Int)) ∧
      (∀ k : Nat, k < 1 ∨ 4 < k →
        list1.words[k]? = samplePartitionStore.words[k]? ∧
        list1.accessCount[k]? = samplePartitionStore.accessCount[k]?) :=
  ⟨by decide, by decide, by decide, by decide,
    partition_post samplePartitionStore 1 4 (by decide) (by decide) (by decide)⟩

theorem firstZero_cons_ne (c : Nat) (cs : List Nat) (h : c ≠ 0) :
    firstZero (c :: cs) = firstZero cs + 1 := by
  show (if c = 0 then 0 else firstZero cs + 1) = firstZero cs + 1
  rw [if_neg h]

theorem drop_eq_cons_of_getElem? {α : Type} {l : List α} {i : Nat} {x : α}
    (h : l[i]? = some x) : l.drop i = x :: l.drop (i + 1) := by
  have hi : i < l.length := by
    by_contra c
    rw [List.getElem?_eq_none (by omega)] at h
    exact Option.noConfusion h
  rw [List.drop_eq_getElem_cons hi]
  rw [List.getElem?_eq_getElem hi] at h
  rw [Option.some.inj h]

theorem printMostAccessedLoop_spec (list : arrayList) (hwf : WF list) :
    ∀ (fuel i : Nat), i ≤ list.accessCount.length → list.accessCount.length - i + 1 ≤ fuel →
      printMostAccessedLoop fuel list (i : Int) =
        if i + firstZero (list.accessCount.drop i) < list.accessCount.length
        then some (((list.words.zip list.accessCount).drop i).take
          (firstZero (list.accessCount.drop i)))
        else none := by
  have hwf2 : list.accessCount.length = list.words.length := hwf
  intro fuel
  induction fuel with
  | zero => intro i _ h; omega
  | succ f ih =>
    intro i hi hf
    unfold printMostAccessedLoop
    rw [rd_natCast]
    by_cases hlt : i < list.accessCount.length
    · have hci := getElem?_getD hlt
      have hwi := getElem?_wordAt (show i < list.words.length by omega)
      have hd := drop_eq_cons_of_getElem? hci
      have hdz : (list.words.zip list.accessCount).drop i =
          (wordAt list.words i, list.accessCount.getD i 0) ::
            (list.words.zip list.accessCount).drop (i + 1) :=
        drop_eq_cons_of_getElem? (List.getElem?_zip_eq_some.2 ⟨hwi, hci⟩)
      rw [hci]
      simp only
      by_cases hc : list.accessCount.getD i 0 = 0
      · have hne : ¬ list.accessCount.getD i 0 ≠ 0 := fun h => h hc
        rw [if_neg hne, hd]
        have : firstZero (list.accessCount.getD i 0 :: list.accessCount.drop (i + 1)) = 0 := by
          show (if list.accessCount.getD i 0 = 0 then 0 else _) = 0
          rw [if_pos hc]
        rw [this, if_pos (by omega)]
        rfl
      · rw [if_pos hc, rd_natCast, hwi]
        simp only
        have e1 : (i : Int) + 1 = ((i + 1 : Nat) : Int) := by push_cast; rfl
        rw [e1, ih (i + 1) (by omega) (by omega), hd, firstZero_cons_ne _ _ hc, hdz]
        by_cases c2 : i + 1 + firstZero (list.accessCount.drop (i + 1)) < list.accessCount.length
        · rw [if_pos c2, if_pos (by omega)]
          rfl
        · rw [if_neg c2, if_neg (by omega)]
          rfl
    · rw [List.getElem?_eq_none (by omega)]
      simp only
      rw [List.drop_eq_nil_of_le (by omega)]
      have : firstZero ([] : List Nat) = 0 := rfl
      rw [this, if_neg (by omega)]

/-- C17, the code at the failing input: for the store holding the single word
`cat` with one hit, `arrayListPrintMostAccessed` prints `cat(1)` and then
evaluates the loop condition `accessCount[1] != 0`; index 1 is `wordCount`,
not an initialised cell, so the run has no defined result. -/
theorem arrayListPrintMostAccessed_single_word :
    HotCold ⟨[[99, 97, 116]], [1], 2⟩ ∧
    wordCount ⟨[[99, 97, 116]], [1], 2⟩ = 1 ∧
    rd (⟨[[99, 97, 116]], [1], 2⟩ : arrayList).accessCount 1 = none ∧
    arrayListPrintMostAccessed ⟨[[99, 97, 116]], [1], 2⟩ = none :=
  ⟨by decide, by decide, by decide, by decide⟩

theorem firstZero_drop_one (cs : List Nat) (h : firstZero cs = cs.length)
    (h1 : 1 ≤ cs.length) :
    cs.getD 0 0 ≠ 0 ∧ 1 + firstZero (cs.drop 1) = cs.length := by
  cases cs with
  | nil => simp at h1
  | cons c0 rest =>
    have hc0 : c0 ≠ 0 := by
      intro e
      have : firstZero (c0 :: rest) = 0 := by
        show (if c0 = 0 then 0 else _) = 0
        rw [if_pos e]
      rw [this] at h
      simp at h
    rw [firstZero_cons_ne _ _ hc0] at h
    simp only [List.length_cons] at h
    refine ⟨by simpa using hc0, ?_⟩
    simp only [List.drop_succ_cons, List.drop_zero, List.length_cons]
    omega

theorem arrayListPrintMostAccessed_all_hot (list : arrayList) (hwf : WF list)
    (h : firstZero list.accessCount = list.accessCount.length) :
    arrayListPrintMostAccessed list = none := by
  have hwf2 : list.accessCount.length = list.words.length := hwf
  unfold arrayListPrintMostAccessed
  rw [show ((0 : Int)) = ((0 : Nat) : Int) from rfl, rd_natCast, rd_natCast]
  by_cases hn : 1 ≤ list.accessCount.length
  · obtain ⟨hc0, hk⟩ := firstZero_drop_one _ h hn
    have hloop := printMostAccessedLoop_spec list hwf (list.accessCount.length + 1) 1
      (by omega) (by omega)
    rw [if_neg (by omega)] at hloop
    rw [getElem?_getD (show 0 < list.accessCount.length by omega),
      getElem?_wordAt (show 0 < list.words.length by omega)]
    simp only [if_pos hc0, Option.map_some']
    rw [show ((1 : Int)) = ((1 : Nat) : Int) from rfl, hloop]
    rfl
  · rw [List.getElem?_eq_none (by omega)]

theorem arrayListPrintMostAccessed_ok (list : arrayList) (hwf : WF list)
    (hni : NonInc list.accessCount) (h2 : 2 ≤ list.accessCount.length)
    (h : firstZero list.accessCount < list.accessCount.length) :
    arrayListPrintMostAccessed list =
      some ((list.words.zip list.accessCount).take (firstZero list.accessCount)) := by
  have hwf2 : list.accessCount.length = list.words.length := hwf
  unfold arrayListPrintMostAccessed
  have hloop := printMostAccessedLoop_spec list hwf (list.accessCount.length + 1) 1
    (by omega) (by omega)
  have hw : list.words[0]? = some (wordAt list.words 0) := getElem?_wordAt (by omega)
  have hc : list.accessCount[0]? = some (list.accessCount.getD 0 0) := getElem?_getD (by omega)
  have hdz : (list.words.zip list.accessCount) =
      (wordAt list.words 0, list.accessCount.getD 0 0) ::
        (list.words.zip list.accessCount).drop 1 := by
    have hz : (list.words.zip list.accessCount)[0]? =
        some (wordAt list.words 0, list.accessCount.getD 0 0) :=
      List.getElem?_zip_eq_some.2 ⟨hw, hc⟩
    have := drop_eq_cons_of_getElem? hz
    simpa using this
  have hd : list.accessCount = list.accessCount.getD 0 0 :: list.accessCount.drop 1 := by
    have := drop_eq_cons_of_getElem? hc
    simpa using this
  rw [show ((0 : Int)) = ((0 : Nat) : Int) from rfl, rd_natCast, rd_natCast, hw, hc,
    show ((1 : Int)) = ((1 : Nat) : Int) from rfl, hloop]
  simp only [Option.map_some']
  by_cases c0 : list.accessCount.getD 0 0 = 0
  · -- the first count is zero: so is the second, and nothing is printed
    have hne : ¬ list.accessCount.getD 0 0 ≠ 0 := fun e => e c0
    have hk : firstZero list.accessCount = 0 := by
      rw [hd]; show (if list.accessCount.getD 0 0 = 0 then 0 else _) = 0
      rw [if_pos c0]
    have h1 : list.accessCount.getD 1 0 = 0 := by
      have := (nonInc_iff _).1 hni 0 1 (by omega) (by omega)
      omega
    have hd1 : list.accessCount.drop 1 =
        list.accessCount.getD 1 0 :: list.accessCount.drop 2 :=
      drop_eq_cons_of_getElem? (getElem?_getD (by omega))
    have hk1 : firstZero (list.accessCount.drop 1) = 0 := by
      rw [hd1]; show (if list.accessCount.getD 1 0 = 0 then 0 else _) = 0
      rw [if_pos h1]
    rw [if_neg hne, hk1, if_pos (by omega), hk]
    rfl
  · have hk : firstZero list.accessCount = firstZero (list.accessCount.drop 1) + 1 := by
      conv_lhs => rw [hd]
      exact firstZero_cons_ne _ _ c0
    rw [if_pos c0, if_pos (by omega), hk]
    simp only [Option.map_some']
    conv_rhs => rw [hdz]
    rfl

theorem growCapacity_eq (m : Int) (h : 0 ≤ m) : growCapacity m = m * 3 / 2 := by
  unfold growCapacity
  exact Int.tdiv_eq_ediv (by omega) (by omega)

theorem growCapacity_gt (m : Int) (h : 2 ≤ m) : m < growCapacity m := by
  rw [growCapacity_eq m (by omega)]
  omega

theorem readStart_safe : ReadSafe readStart := by
  unfold ReadSafe readStart ReadState.currentLen AVG_WORD_LEN
  refine ⟨by simp, by simp, ?_, ?_⟩
  · intro w hw
    simp only [List.mem_singleton] at hw
    subst hw
    simp
  · intro g hg
    exact absurd hg (List.not_mem_nil _)

theorem readPush_safe (s : ReadState) (b : Nat) (h : ReadSafe s) : ReadSafe (readPush s b) := by
  obtain ⟨h1, h2, h3, h4⟩ := h
  unfold AVG_WORD_LEN at h2
  unfold ReadState.currentLen at h1
  unfold ReadSafe readPush ReadState.currentLen AVG_WORD_LEN
  by_cases c : (s.pushed.length : Int) = s.currentMax
  · have hg := growCapacity_gt s.currentMax (by omega)
    simp only [c, if_true, List.length_append, List.length_singleton]
    refine ⟨by push_cast; omega, by omega, ?_, ?_⟩
    · intro w hw
      rcases List.mem_append.1 hw with hw1 | hw1
      · exact h3 w hw1
      · simp only [List.mem_singleton] at hw1
        subst hw1
        simp only
        omega
    · intro g hg1
      rcases List.mem_append.1 hg1 with hg2 | hg2
      · exact h4 g hg2
      · simp only [List.mem_singleton] at hg2
        subst hg2
        exact hg
  · simp only [c, if_false, List.length_append, List.length_singleton]
    refine ⟨by push_cast; omega, h2, ?_, h4⟩
    intro w hw
    rcases List.mem_append.1 hw with hw1 | hw1
    · exact h3 w hw1
    · simp only [List.mem_singleton] at hw1
      subst hw1
      simp only
      omega

theorem readFinish_safe (s : ReadState) (h : ReadSafe s) : ReadSafe (readFinish s) := by
  obtain ⟨h1, h2, h3, h4⟩ := h
  unfold AVG_WORD_LEN at h2
  unfold ReadState.currentLen at h1
  unfold ReadSafe readFinish ReadState.currentLen AVG_WORD_LEN
  by_cases c : (s.pushed.length : Int) = s.currentMax
  · simp only [c, if_true]
    refine ⟨by omega, by omega, ?_, ?_⟩
    · intro w hw
      rcases List.mem_append.1 hw with hw1 | hw1
      · exact h3 w hw1
      · simp only [List.mem_singleton] at hw1
        subst hw1
        simp only
        omega
    · intro g hg1
      rcases List.mem_append.1 hg1 with hg2 | hg2
      · exact h4 g hg2
      · simp only [List.mem_singleton] at hg2
        subst hg2
        simp only
        omega
  · simp only [c, if_false]
    refine ⟨h1, h2, ?_, h4⟩
    intro w hw
    rcases List.mem_append.1 hw with hw1 | hw1
    · exact h3 w hw1
    · simp only [List.mem_singleton] at hw1
      subst hw1
      simp only
      omega

theorem readLoop_safe (stream : List Nat) :
    ∀ s : ReadState, ReadSafe s → ReadSafe (readLoop stream s).1 := by
  induction stream with
  | nil => intro s h; exact readFinish_safe s h
  | cons b rest ih =>
    intro s h
    unfold readLoop
    split_ifs
    · exact ih _ (readPush_safe s b h)
    · exact readFinish_safe s h

theorem readLoop_writes (stream : List Nat) :
    ∀ s : ReadState,
      (readLoop stream s).1.writes.length =
        s.writes.length + ((readLoop stream s).1.pushed.length - s.pushed.length) + 1 ∧
      s.pushed.length ≤ (readLoop stream s).1.pushed.length := by
  induction stream with
  | nil =>
    intro s
    unfold readLoop readFinish
    split_ifs <;> simp
  | cons b rest ih =>
    intro s
    unfold readLoop
    split_ifs
    · obtain ⟨a1, a2⟩ := ih (readPush s b)
      have e1 : (readPush s b).pushed.length = s.pushed.length + 1 := by
        unfold readPush; split_ifs <;> simp
      have e2 : (readPush s b).writes.length = s.writes.length + 1 := by
        unfold readPush; split_ifs <;> simp
      rw [e1, e2] at a1
      rw [e1] at a2
      exact ⟨by omega, by omega⟩
    · unfold readFinish
      split_ifs <;> simp

theorem readLoop_pushed (stream : List Nat) :
    ∀ s : ReadState,
      (readLoop stream s).1.pushed =
        s.pushed ++ stream.takeWhile (fun b => decide (isTokenChar (toChar b))) := by
  induction stream with
  | nil =>
    intro s
    unfold readLoop readFinish
    split_ifs <;> simp
  | cons b rest ih =>
    intro s
    unfold readLoop
    by_cases c : isTokenChar (toChar b)
    · rw [if_pos c, ih (readPush s b), List.takeWhile_cons]
      have e1 : (readPush s b).pushed = s.pushed ++ [b] := by
        unfold readPush; split_ifs <;> rfl
      simp [e1, c]
    · rw [if_neg c, List.takeWhile_cons]
      have hd : decide (isTokenChar (toChar b)) = false := decide_eq_false c
      rw [hd]
      simp only [Bool.false_eq_true, if_false, List.append_nil]
      unfold readFinish
      split_ifs <;> rfl

/-- C18: for every input byte sequence, `readWordFromFile` pushes the bytes
up to the first delimiter, and every write `buffer[index] = ...` it makes (the
initial `buffer[0] = 0`, each pushed character and the final terminator: one
write per pushed character plus two) happens at an index
`0 <= index < currentMax` for the capacity `currentMax` of that moment; the
capacity starts at 6, never drops below it, and every growth step (to
`floor(1.5 * currentMax)` when full inside the loop, by one for the
terminator) strictly increases it. -/
theorem readWordFromFile_no_overflow (stream : List Nat) :
    (readWordFromFile stream).1.pushed =
      stream.takeWhile (fun b => decide (isTokenChar (toChar b))) ∧
    (∀ w ∈ (readWordFromFile stream).1.writes, 0 ≤ w.1 ∧ w.1 < w.2) ∧
    (readWordFromFile stream).1.writes.length =
      (readWordFromFile stream).1.pushed.length + 2 ∧
    (∀ g ∈ (readWordFromFile stream).1.grows, g.1 < g.2) ∧
    readStart.currentMax = 6 ∧ 6 ≤ (readWordFromFile stream).1.currentMax ∧
    (∀ m : Int, 6 ≤ m → growCapacity m = m * 3 / 2 ∧ m < growCapacity m) := by
  have h := readLoop_safe stream readStart readStart_safe
  obtain ⟨_, h2, h3, h4⟩ := h
  have hw := (readLoop_writes stream readStart).1
  refine ⟨?_, h3, ?_, h4, rfl, h2, ?_⟩
  · unfold readWordFromFile
    rw [readLoop_pushed stream readStart]
    rfl
  · unfold readWordFromFile
    rw [hw]
    simp [readStart]
    omega
  · intro m hm
    exact ⟨growCapacity_eq m (by omega), growCapacity_gt m (by omega)⟩

theorem intVal_of_le {c : Nat} (h : c ≤ INT_MAX) : intVal c = (c : Int) := by
  unfold INT_MAX at h
  unfold intVal
  rw [Nat.mod_eq_of_lt (by omega), if_pos (by omega)]

theorem intIncr_of_lt {c : Nat} (h : c < INT_MAX) : intIncr c = c + 1 := by
  unfold INT_MAX at h
  unfold intIncr
  exact Nat.mod_eq_of_lt (by omega)

theorem rd_mem {α : Type} {a : List α} {i : Int} {x : α} (h : rd a i = some x) : x ∈ a := by
  obtain ⟨n, _, _, h3⟩ := rd_eq_some h
  exact List.mem_iff_getElem?.2 ⟨n, h3⟩

theorem wr_eq_some {α : Type} {a : List α} {i : Int} {x : α} {b : List α}
    (h : wr a i x = some b) : b = a.set i.toNat x := by
  unfold wr at h
  split_ifs at h
  exact (Option.some.inj h).symm

theorem swap_count_mem {list list1 : arrayList} {i j : Int}
    (h : arrayListSwapElements list i j = some list1) :
    ∀ c ∈ list1.accessCount, c ∈ list.accessCount := by
  unfold arrayListSwapElements at h
  simp only [Option.bind_eq_bind, Option.bind_eq_some] at h
  obtain ⟨s, _, ci, hci, wj, _, ws1, _, cj, hcj, cs1, hcs1, ws2, _, cs2, hcs2, e⟩ := h
  have e1 := wr_eq_some hcs1
  have e2 := wr_eq_some hcs2
  have e3 := Option.some.inj e
  subst e3
  intro c hc
  simp only at hc
  rw [e2] at hc
  rcases List.mem_or_eq_of_mem_set hc with hc | hc
  · rw [e1] at hc
    rcases List.mem_or_eq_of_mem_set hc with hc | hc
    · exact hc
    · rw [hc]; exact rd_mem hcj
  · rw [hc]; exact rd_mem hci

theorem touchLoop32_eq (fuel : Nat) : ∀ (list : arrayList) (index : Int),
    (∀ c ∈ list.accessCount, c ≤ INT_MAX) →
    touchLoop32 fuel list index = touchLoop fuel list index := by
  induction fuel with
  | zero => intro list index _; rfl
  | succ f ih =>
    intro list index hb
    unfold touchLoop32 touchLoop
    by_cases h0 : index > 0
    · rw [if_pos h0, if_pos h0]
      cases ha : rd list.accessCount index with
      | none => rfl
      | some a =>
        cases hb2 : rd list.accessCount (index - 1) with
        | none => rfl
        | some b =>
          simp only [Option.bind_eq_bind, Option.some_bind]
          have e1 := intVal_of_le (hb a (rd_mem ha))
          have e2 := intVal_of_le (hb b (rd_mem hb2))
          by_cases hgt : a > b
          · rw [if_pos hgt, if_pos (by rw [e1, e2]; omega)]
            cases hs : arrayListSwapElements list index (index - 1) with
            | none => rfl
            | some list1 =>
              simp only [Option.some_bind]
              exact ih list1 _ (fun c hc => hb c (swap_count_mem hs c hc))
          · rw [if_neg hgt, if_neg (by rw [e1, e2]; omega)]
    · rw [if_neg h0, if_neg h0]

theorem touch32_eq (list : arrayList) (index : Int)
    (hb : ∀ c ∈ list.accessCount, c ≤ INT_MAX)
    (hlt : ∀ c, rd list.accessCount index = some c → c < INT_MAX) :
    arrayListTouchWord32 list index = arrayListTouchWord list index := by
  unfold arrayListTouchWord32 arrayListTouchWord
  cases hc : rd list.accessCount index with
  | none => rfl
  | some c =>
    simp only [Option.bind_eq_bind, Option.some_bind]
    rw [intIncr_of_lt (hlt c hc)]
    cases hw : wr list.accessCount index (c + 1) with
    | none => rfl
    | some cs =>
      simp only [Option.some_bind]
      apply touchLoop32_eq
      intro x hx
      simp only at hx
      rw [wr_eq_some hw] at hx
      rcases List.mem_or_eq_of_mem_set hx with hx | hx
      · exact hb x hx
      · rw [hx]; exact hlt c hc

theorem touched_count_mem (list : arrayList) (i : Nat) :
    ∀ c ∈ (touched list i).accessCount,
      c ∈ list.accessCount ∨ c = list.accessCount.getD i 0 + 1 := by
  intro c hc
  unfold touched moveCell at hc
  simp only [List.mem_append, List.mem_cons] at hc
  rcases hc with hc | hc | hc | hc
  · exact Or.inl (List.mem_of_mem_take hc)
  · exact Or.inr hc
  · exact Or.inl (List.mem_of_mem_take (List.mem_of_mem_drop hc))
  · exact Or.inl (List.mem_of_mem_drop hc)

theorem touch_bound (list list1 : arrayList) (i : Int) (m : Nat) (hwf : WF list)
    (hb : ∀ c ∈ list.accessCount, c ≤ m) (h : arrayListTouchWord list i = some list1) :
    WF list1 ∧ ∀ c ∈ list1.accessCount, c ≤ m + 1 := by
  have hrd : ∃ c, rd list.accessCount i = some c := by
    unfold arrayListTouchWord at h
    cases hc : rd list.accessCount i with
    | none => simp [hc] at h
    | some c => exact ⟨c, rfl⟩
  obtain ⟨c, hc⟩ := hrd
  obtain ⟨n, e1, e2, _⟩ := rd_eq_some hc
  have hwf2 : list.accessCount.length = list.words.length := hwf
  have hn : n < list.words.length := by omega
  rw [e1, touch_spec list n hwf hn] at h
  have e := Option.some.inj h
  subst e
  refine ⟨touched_wf list n hwf hn, ?_⟩
  intro x hx
  rcases touched_count_mem list n x hx with hx | hx
  · exact Nat.le_succ_of_le (hb x hx)
  · rw [hx]
    have : list.accessCount.getD n 0 ∈ list.accessCount := by
      rw [List.getD_eq_getElem?_getD, List.getElem?_eq_getElem e2]
      exact List.getElem_mem _
    exact Nat.succ_le_succ (hb _ this)

theorem touchAll32_eq (idxs : List Int) : ∀ (list : arrayList) (m : Nat),
    WF list → (∀ c ∈ list.accessCount, c ≤ m) → m + idxs.length ≤ INT_MAX →
    touchAll32 list idxs = touchAll list idxs := by
  induction idxs with
  | nil => intro list m _ _ _; rfl
  | cons i rest ih =>
    intro list m hwf hb hlen
    rw [List.length_cons] at hlen
    unfold touchAll32 touchAll
    rw [touch32_eq list i (fun c hc => le_trans (hb c hc) (by omega))
      (fun c hc => lt_of_le_of_lt (hb c (rd_mem hc)) (by omega))]
    cases ht : arrayListTouchWord list i with
    | none => rfl
    | some list1 =>
      simp only
      obtain ⟨g1, g2⟩ := touch_bound list list1 i m hwf hb ht
      exact ih list1 (m + 1) g1 g2 (by omega)

theorem touchAll_bound (idxs : List Int) : ∀ (list list1 : arrayList) (m : Nat),
    WF list → (∀ c ∈ list.accessCount, c ≤ m) → touchAll list idxs = some list1 →
    ∀ c ∈ list1.accessCount, c ≤ m + idxs.length := by
  induction idxs with
  | nil =>
    intro list list1 m _ hb h
    have e := Option.some.inj h
    subst e
    exact fun c hc => Nat.le_add_right_of_le (hb c hc)
  | cons i rest ih =>
    intro list list1 m hwf hb h
    unfold touchAll at h
    cases ht : arrayListTouchWord list i with
    | none => rw [ht] at h; exact Option.noConfusion h
    | some list2 =>
      rw [ht] at h
      obtain ⟨g1, g2⟩ := touch_bound list list2 i m hwf hb ht
      intro c hc
      have := ih list2 list1 (m + 1) g1 g2 h c hc
      rw [List.length_cons]
      omega

/-- C5, counterexample: on a three-word store with all hit counts zero, touch
index 0, then index 1, then index 0 another `2^31 - 1` times (all valid
indices).  The count of the first word passes `INT_MAX` and wraps to
`INT_MIN`: the hit counts end as `INT_MIN, 1, 0`, the first zero-hit index is
2, and the prefix before it is not non-increasing (`1 > INT_MIN`). -/
theorem touchAll_invariant_counterexample :
    WF ⟨[[97], [98], [99]], [0, 0, 0], 4⟩ ∧
    (∀ c ∈ ([0, 0, 0] : List Nat), c = 0) ∧
    (∀ i ∈ (0 :: 1 :: List.replicate 2147483647 0 : List Int),
      0 ≤ i ∧ i < wordCount ⟨[[97], [98], [99]], [0, 0, 0], 4⟩) ∧
    touchAll32 ⟨[[97], [98], [99]], [0, 0, 0], 4⟩ (0 :: 1 :: List.replicate 2147483647 0) =
      some ⟨[[97], [98], [99]], [2147483648, 1, 0], 4⟩ ∧
    firstZero [2147483648, 1, 0] = 2 ∧
    intVal 2147483648 = -2147483648 ∧ intVal 1 = 1 ∧
    ¬ ∃ list1 : arrayList,
      touchAll32 ⟨[[97], [98], [99]], [0, 0, 0], 4⟩ (0 :: 1 :: List.replicate 2147483647 0) =
        some list1 ∧
      (∀ (a b ca cb : Nat), a < b → b < firstZero list1.accessCount →
        list1.accessCount[a]? = some ca → list1.accessCount[b]? = some cb →
        intVal cb ≤ intVal ca) ∧
      (∀ (k c : Nat), firstZero list1.accessCount ≤ k →
        list1.accessCount[k]? = some c → c = 0) := by
  have head : ∀ (ws : List Word) (c : Nat) (rest : List Nat) (sz : Int),
      arrayListTouchWord32 ⟨ws, c :: rest, sz⟩ 0 = some ⟨ws, intIncr c :: rest, sz⟩ := by
    intro ws c rest sz
    simp [arrayListTouchWord32, rd, wr, touchLoop32]
  have rep : ∀ (n : Nat) (ws : List Word) (c : Nat) (rest : List Nat) (sz : Int),
      c + n < 4294967296 →
      touchAll32 ⟨ws, c :: rest, sz⟩ (List.replicate n 0) = some ⟨ws, (c + n) :: rest, sz⟩ := by
    intro n
    induction n with
    | zero => intro ws c rest sz _; rfl
    | succ k ih =>
      intro ws c rest sz hlt
      rw [List.replicate_succ]
      unfold touchAll32
      rw [head]
      simp only
      have e : intIncr c = c + 1 := Nat.mod_eq_of_lt (by omega)
      rw [e, ih ws (c + 1) rest sz (by omega)]
      have e2 : c + 1 + k = c + (k + 1) := by omega
      rw [e2]
  have run : ∀ n : Nat, n + 1 < 4294967296 →
      touchAll32 ⟨[[97], [98], [99]], [0, 0, 0], 4⟩ (0 :: 1 :: List.replicate n 0) =
        some ⟨[[97], [98], [99]], [1 + n, 1, 0], 4⟩ := by
    intro n hn
    have s1 : arrayListTouchWord32 ⟨[[97], [98], [99]], [0, 0, 0], 4⟩ 0 =
        some ⟨[[97], [98], [99]], [1, 0, 0], 4⟩ := by decide
    have s2 : arrayListTouchWord32 ⟨[[97], [98], [99]], [1, 0, 0], 4⟩ 1 =
        some ⟨[[97], [98], [99]], [1, 1, 0], 4⟩ := by decide
    unfold touchAll32
    rw [s1]
    simp only
    unfold touchAll32
    rw [s2]
    simp only
    exact rep n _ 1 _ _ (by omega)
  have hrun := run 2147483647 (by norm_num)
  have hval : (1 : Nat) + 2147483647 = 2147483648 := by norm_num
  rw [hval] at hrun
  refine ⟨by decide, by decide, ?_, hrun, by decide, by decide, by decide, ?_⟩
  · intro i hi
    have hw : wordCount ⟨[[97], [98], [99]], [0, 0, 0], 4⟩ = 3 := rfl
    rw [hw]
    rcases List.mem_cons.1 hi with hi | hi
    · rw [hi]; omega
    · rcases List.mem_cons.1 hi with hi | hi
      · rw [hi]; omega
      · rw [List.eq_of_mem_replicate hi]; omega
  · rintro ⟨list1, h1, h2, _⟩
    rw [hrun] at h1
    have e := Option.some.inj h1
    subst e
    have := h2 0 1 2147483648 1 (by decide) (by decide) rfl rfl
    exact absurd this (by decide)

/-- C5, amended: starting from a store whose hit counts are all zero, any
sequence of at most `INT_MAX` (2147483647) `arrayListTouchWord` calls at valid
indices succeeds and leaves hit counts (as `int` values) that are
non-increasing on the prefix before the first zero-hit index and zero from
that index to the end. -/
theorem touchAll_invariant (list : arrayList) (idxs : List Int) (hwf : WF list)
    (hzero : ∀ c ∈ list.accessCount, c = 0)
    (hvalid : ∀ i ∈ idxs, 0 ≤ i ∧ i < wordCount list)
    (hlen : idxs.length ≤ INT_MAX) :
    ∃ list1 : arrayList, touchAll32 list idxs = some list1 ∧
      (∀ (a b ca cb : Nat), a < b → b < firstZero list1.accessCount →
        list1.accessCount[a]? = some ca → list1.accessCount[b]? = some cb →
        intVal cb ≤ intVal ca) ∧
      (∀ (k c : Nat), firstZero list1.accessCount ≤ k →
        list1.accessCount[k]? = some c → c = 0) := by
  have hb : ∀ c ∈ list.accessCount, c ≤ 0 := fun c hc => le_of_eq (hzero c hc)
  obtain ⟨l1, a1, a2, a3⟩ := touchAll_unbounded list idxs hwf hzero hvalid
  have hbd := touchAll_bound idxs list l1 0 hwf hb a1
  refine ⟨l1, ?_, ?_, a3⟩
  · rw [touchAll32_eq idxs list 0 hwf hb (by omega)]
    exact a1
  · intro a b ca cb hab hb1 ha1 hb2
    have h1 := a2 a b ca cb hab hb1 ha1 hb2
    have h2 := hbd ca (List.mem_iff_getElem?.2 ⟨a, ha1⟩)
    have h3 := hbd cb (List.mem_iff_getElem?.2 ⟨b, hb2⟩)
    rw [intVal_of_le (by omega), intVal_of_le (by omega)]
    exact_mod_cast h1

/-- Witness for C5 (amended): three words, touches at indices `2, 2, 0, 1, 2`. -/
theorem touchAll_invariant_witness :
    WF ⟨[[97], [98], [99]], [0, 0, 0], 4⟩ ∧
    (∀ c ∈ [0, 0, 0], c = 0) ∧
    (∀ i ∈ ([2, 2, 0, 1, 2] : List Int),
      0 ≤ i ∧ i < wordCount ⟨[[97], [98], [99]], [0, 0, 0], 4⟩) ∧
    ([2, 2, 0, 1, 2] : List Int).length ≤ INT_MAX ∧
    touchAll32 ⟨[[97], [98], [99]], [0, 0, 0], 4⟩ [2, 2, 0, 1, 2] =
      some ⟨[[99], [98], [97]], [2, 2, 1], 4⟩ ∧
    ∃ list1 : arrayList,
      touchAll32 ⟨[[97], [98], [99]], [0, 0, 0], 4⟩ [2, 2, 0, 1, 2] = some list1 ∧
      (∀ (a b ca cb : Nat), a < b → b < firstZero list1.accessCount →
        list1.accessCount[a]? = some ca → list1.accessCount[b]? = some cb →
        intVal cb ≤ intVal ca) ∧
      (∀ (k c : Nat), firstZero list1.accessCount ≤ k →
        list1.accessCount[k]? = some c → c = 0) :=
  ⟨by decide, by decide, by decide, by decide, by decide,
    touchAll_invariant _ _ (by decide) (by decide) (by decide) (by decide)⟩

/-- C16, counterexample: on the store `a b` with hit counts `INT_MAX,
INT_MAX` (non-increasing), the touch of index 1, whose hit count is
`c = INT_MAX`, wraps that count to `INT_MIN` and swaps nothing: the touched
word `b` stays at index 1 instead of moving to index 0, the leftmost index
with hit count `c`, and its hit count is `INT_MIN`, not `c + 1`. -/
theorem touch_placement_counterexample :
    WF ⟨[[97], [98]], [2147483647, 2147483647], 2⟩ ∧
    (∀ x ∈ ([2147483647, 2147483647] : List Nat), x ≤ INT_MAX) ∧
    NonInc [2147483647, 2147483647] ∧
    1 < ([[97], [98]] : List Word).length ∧
    ([2147483647, 2147483647] : List Nat)[1]? = some 2147483647 ∧
    arrayListTouchWord32 ⟨[[97], [98]], [2147483647, 2147483647], 2⟩ 1 =
      some ⟨[[97], [98]], [2147483647, 2147483648], 2⟩ ∧
    intVal 2147483647 = 2147483647 ∧ intVal 2147483648 = -2147483648 ∧
    ¬ ∃ (list1 : arrayList) (p : Nat),
      arrayListTouchWord32 ⟨[[97], [98]], [2147483647, 2147483647], 2⟩ ((1 : Nat) : Int) =
        some list1 ∧ p ≤ 1 ∧
      ([2147483647, 2147483647] : List Nat)[p]? = some 2147483647 ∧
      (∀ (k x : Nat), k < p →
        ([2147483647, 2147483647] : List Nat)[k]? = some x → x ≠ 2147483647) ∧
      list1.words[p]? = ([[97], [98]] : List Word)[1]? ∧
      (∃ x : Nat, list1.accessCount[p]? = some x ∧ intVal x = intVal 2147483647 + 1) ∧
      (∀ k : Nat, p < k → k ≤ 1 →
        list1.words[k]? = ([[97], [98]] : List Word)[k - 1]? ∧
        list1.accessCount[k]? = ([2147483647, 2147483647] : List Nat)[k - 1]?) ∧
      (∀ k : Nat, k < p ∨ 1 < k →
        list1.words[k]? = ([[97], [98]] : List Word)[k]? ∧
        list1.accessCount[k]? = ([2147483647, 2147483647] : List Nat)[k]?) := by
  have e : arrayListTouchWord32 ⟨[[97], [98]], [2147483647, 2147483647], 2⟩ 1 =
      some ⟨[[97], [98]], [2147483647, 2147483648], 2⟩ := by decide
  refine ⟨by decide, by decide, by decide, by decide, by decide, e, by decide, by decide, ?_⟩
  rintro ⟨list1, p, h1, hp, _, hleft, hw, _⟩
  have e2 : (((1 : Nat) : Int)) = 1 := rfl
  rw [e2, e] at h1
  have e3 := Option.some.inj h1
  subst e3
  rcases Nat.le_one_iff_eq_zero_or_eq_one.1 hp with h | h
  · subst h
    exact absurd hw (by decide)
  · subst h
    exact hleft 0 2147483647 (by decide) rfl rfl

/-- C16, amended: on a store with non-increasing, non-negative hit counts,
`arrayListTouchWord(list, i)` at a valid index `i` whose hit count `c` is
below `INT_MAX` (2147483647) moves the touched word to the leftmost index `p`
whose hit count was `c` (so `p <= i`), gives it hit count `c + 1`, moves the
cells formerly at `p .. i-1` one place to the right with their hit counts, and
leaves every cell below `p` or above `i` unchanged. -/
theorem touch_placement (list : arrayList) (i c : Nat) (hwf : WF list)
    (hnn : ∀ x ∈ list.accessCount, x ≤ INT_MAX)
    (hni : NonInc list.accessCount) (hi : i < list.words.length)
    (hc : list.accessCount[i]? = some c) (hlt : c < INT_MAX) :
    ∃ (list1 : arrayList) (p : Nat),
      arrayListTouchWord32 list (i : Int) = some list1 ∧ p ≤ i ∧
      list.accessCount[p]? = some c ∧
      (∀ (k x : Nat), k < p → list.accessCount[k]? = some x → x ≠ c) ∧
      list1.words[p]? = list.words[i]? ∧
      (∃ x : Nat, list1.accessCount[p]? = some x ∧ intVal x = intVal c + 1) ∧
      (∀ k : Nat, p < k → k ≤ i →
        list1.words[k]? = list.words[k - 1]? ∧
        list1.accessCount[k]? = list.accessCount[k - 1]?) ∧
      (∀ k : Nat, k < p ∨ i < k →
        list1.words[k]? = list.words[k]? ∧ list1.accessCount[k]? = list.accessCount[k]?) := by
  obtain ⟨l1, p, a1, a2, a3, a4, a5, a6, a7, a8⟩ := touched_placement list i c hwf hni hi hc
  refine ⟨l1, p, ?_, a2, a3, a4, a5, ⟨c + 1, a6, ?_⟩, a7, a8⟩
  · rw [touch32_eq list i hnn]
    · exact a1
    · intro x hx
      rw [rd_natCast, hc] at hx
      rw [← Option.some.inj hx]
      exact hlt
  · rw [intVal_of_le (show c + 1 ≤ INT_MAX by omega), intVal_of_le (le_of_lt hlt)]
    push_cast
    rfl

/-- Witness for C16 (amended): hit counts `3 1 1 1 0`, touch at index 3
(count 1): the word lands at index 1. -/
theorem touch_placement_witness :
    WF sampleHotStore ∧ (∀ x ∈ sampleHotStore.accessCount, x ≤ INT_MAX) ∧
    NonInc sampleHotStore.accessCount ∧
    3 < sampleHotStore.words.length ∧ sampleHotStore.accessCount[3]? = some 1 ∧
    1 < INT_MAX ∧
    arrayListTouchWord32 sampleHotStore 3 =
      some ⟨[[100], [98], [99], [97], [101]], [3, 2, 1, 1, 0], 8⟩ ∧
    ∃ (list1 : arrayList) (p : Nat),
      arrayListTouchWord32 sampleHotStore ((3 : Nat) : Int) = some list1 ∧ p ≤ 3 ∧
      sampleHotStore.accessCount[p]? = some 1 ∧
      (∀ (k x : Nat), k < p → sampleHotStore.accessCount[k]? = some x → x ≠ 1) ∧
      list1.words[p]? = sampleHotStore.words[3]? ∧
      (∃ x : Nat, list1.accessCount[p]? = some x ∧ intVal x = intVal 1 + 1) ∧
      (∀ k : Nat, p < k → k ≤ 3 →
        list1.words[k]? = sampleHotStore.words[k - 1]? ∧
        list1.accessCount[k]? = sampleHotStore.accessCount[k - 1]?) ∧
      (∀ k : Nat, k < p ∨ 3 < k →
        list1.words[k]? = sampleHotStore.words[k]? ∧
        list1.accessCount[k]? = sampleHotStore.accessCount[k]?) :=
  ⟨by decide, by decide, by decide, by decide, by decide, by decide, by decide,
    touch_placement sampleHotStore 3 1 (by decide) (by decide) (by decide) (by decide)
      (by decide) (by decide)⟩

end SpellChecker
